import Mathlib

/-!
Verification development for the chess-openings repertoire move-tree engine
(`src/App.tsx`).  The core data structures and algorithms are embedded
shallowly: pure functions become Lean functions, the JavaScript object map
`Record<string, MoveNode>` becomes an insertion-ordered association list, and
the external chess.js rules oracle becomes an explicit `Oracle` record of pure
functions over FEN strings (positions are opaque comparable values to the
core, per the spec's external-interface contract).
-/

set_option maxRecDepth 10000

namespace ChessOpenings

/-- `Side` mirrors `type Side = 'white' | 'black'`. -/
inductive Side where
  | white
  | black
deriving Repr, DecidableEq

/-- The string used to build ids such as `white-0` for the root node. -/
def Side.str : Side → String
  | .white => "white"
  | .black => "black"

/-- `MoveNode` mirrors the `MoveNode` record type of `App.tsx`
(`id`, `parentId`, `fen`, `moveSan`, `moveUci`, optional `stockfishEval`,
`children`). -/
structure MoveNode where
  id : String
  parentId : Option String
  fen : String
  moveSan : Option String
  moveUci : Option String
  stockfishEval : Option String := none
  children : List String
deriving Repr, DecidableEq

/-- A JavaScript `Record<string, MoveNode>` as an insertion-ordered
association list with unique keys: lookups take the first match, updating an
existing key keeps its position, and a new key is appended at the end (the
semantics of JS string-keyed objects). -/
abbrev NodeMap := List (String × MoveNode)

/-- Key lookup (`nodes[k]`). -/
def NodeMap.find? (m : NodeMap) (k : String) : Option MoveNode :=
  match m with
  | [] => none
  | (k', v) :: rest => if k' = k then some v else NodeMap.find? rest k

/-- Key update-or-append (`nodes[k] = v` / `{ ...nodes, [k]: v }`): replaces
the value in place when the key is present, otherwise appends. -/
def NodeMap.set (m : NodeMap) (k : String) (v : MoveNode) : NodeMap :=
  match m with
  | [] => [(k, v)]
  | (k', v') :: rest => if k' = k then (k, v) :: rest else (k', v') :: NodeMap.set rest k v

/-- Key removal (`delete nodes[k]`); keys are unique so removing every
occurrence agrees with removing the one entry. -/
def NodeMap.del (m : NodeMap) (k : String) : NodeMap :=
  match m with
  | [] => []
  | (k', v') :: rest => if k' = k then NodeMap.del rest k else (k', v') :: NodeMap.del rest k

/-- `Object.keys nodes`. -/
def NodeMap.keys (m : NodeMap) : List String := m.map (·.1)

/-- `Object.values nodes` (insertion order, as JS guarantees for string
keys). -/
def NodeMap.values (m : NodeMap) : List MoveNode := m.map (·.2)

theorem NodeMap.find?_set_self (m : NodeMap) (k : String) (v : MoveNode) :
    (m.set k v).find? k = some v := by
  induction m with
  | nil => simp [NodeMap.set, NodeMap.find?]
  | cons e rest ih =>
    by_cases h : e.1 = k
    · simp [NodeMap.set, NodeMap.find?, h]
    · simp [NodeMap.set, NodeMap.find?, h, ih]

theorem NodeMap.find?_set_ne (m : NodeMap) (k k' : String) (v : MoveNode)
    (h : k' ≠ k) : (m.set k v).find? k' = m.find? k' := by
  induction m with
  | nil => simp [NodeMap.set, NodeMap.find?, Ne.symm h]
  | cons e rest ih =>
    obtain ⟨ek, ev⟩ := e
    by_cases he : ek = k
    · subst he
      simp [NodeMap.set, NodeMap.find?, Ne.symm h]
    · simp only [NodeMap.set, if_neg he, NodeMap.find?]
      by_cases he' : ek = k'
      · simp [he']
      · simp [he', ih]

theorem NodeMap.find?_del_self (m : NodeMap) (k : String) :
    (m.del k).find? k = none := by
  induction m with
  | nil => simp [NodeMap.del, NodeMap.find?]
  | cons e rest ih =>
    obtain ⟨ek, ev⟩ := e
    by_cases h : ek = k
    · simpa [NodeMap.del, h] using ih
    · simpa [NodeMap.del, NodeMap.find?, h] using ih

theorem NodeMap.find?_del_ne (m : NodeMap) (k k' : String) (h : k' ≠ k) :
    (m.del k).find? k' = m.find? k' := by
  induction m with
  | nil => simp [NodeMap.del, NodeMap.find?]
  | cons e rest ih =>
    obtain ⟨ek, ev⟩ := e
    by_cases he : ek = k
    · subst he
      simp [NodeMap.del, NodeMap.find?, Ne.symm h, ih]
    · simp only [NodeMap.del, if_neg he, NodeMap.find?]
      by_cases he' : ek = k'
      · simp [he']
      · simp [he', ih]

/-- `MoveTree` mirrors `{ rootId, nodes, nextId }`. -/
structure MoveTree where
  rootId : String
  nodes : NodeMap
  nextId : Nat
deriving Repr, DecidableEq

/-- `createEmptyTree` from `App.tsx`. -/
def createEmptyTree (side : Side) : MoveTree :=
  let rootId := side.str ++ "-0"
  { rootId := rootId
    nextId := 1
    nodes := [(rootId,
      { id := rootId
        parentId := none
        fen := "start"
        moveSan := none
        moveUci := none
        children := [] })] }

/-- The `START_FEN` sentinel. -/
def START_FEN : String := "start"

/-- `createNodeId` from `App.tsx`: built from the monotone `nextId`
counter. -/
def createNodeId (tree : MoveTree) : String :=
  "n-" ++ Nat.repr tree.nextId

/-! Injectivity of `Nat.repr`, needed to show that freshly allocated node ids
never collide with previously allocated ones. -/

/-- Structural decimal digit list (most significant first), the reference
against which the fuelled `Nat.toDigitsCore` is compared. -/
def decDigits (n : Nat) : List Char :=
  if _h : n < 10 then [Nat.digitChar n]
  else decDigits (n / 10) ++ [Nat.digitChar (n % 10)]
termination_by n
decreasing_by
  exact Nat.div_lt_self (by omega) (by omega)

theorem toDigitsCore_eq_decDigits :
    ∀ (fuel n : Nat) (l : List Char), n < fuel →
      Nat.toDigitsCore 10 fuel n l = decDigits n ++ l := by
  intro fuel
  induction fuel with
  | zero => intro n l h; omega
  | succ f ih =>
    intro n l h
    by_cases h10 : n < 10
    · have hdiv : n / 10 = 0 := Nat.div_eq_of_lt h10
      have hmod : n % 10 = n := Nat.mod_eq_of_lt h10
      simp [Nat.toDigitsCore, hdiv, hmod, decDigits, h10]
    · have hdiv : n / 10 ≠ 0 := by
        intro hc
        exact h10 ((Nat.div_eq_zero_iff (by omega)).mp hc)
      have hlt : n / 10 < f := by
        have : n / 10 < n := Nat.div_lt_self (by omega) (by omega)
        omega
      rw [show Nat.toDigitsCore 10 (f + 1) n l
            = Nat.toDigitsCore 10 f (n / 10) (Nat.digitChar (n % 10) :: l) by
          simp [Nat.toDigitsCore, hdiv]]
      rw [ih (n / 10) (Nat.digitChar (n % 10) :: l) hlt]
      rw [show decDigits n = decDigits (n / 10) ++ [Nat.digitChar (n % 10)] by
        rw [decDigits]; simp [h10]]
      simp

theorem digitChar_val (d : Nat) (h : d < 10) :
    (Nat.digitChar d).toNat - 48 = d := by
  interval_cases d <;> decide

/-- Reading a digit list back as a decimal value. -/
def decVal (l : List Char) : Nat :=
  l.foldl (fun a c => a * 10 + (c.toNat - 48)) 0

theorem decDigits_foldl (n : Nat) :
    ∀ a : Nat, (decDigits n).foldl (fun a c => a * 10 + (c.toNat - 48)) a
      = a * 10 ^ (decDigits n).length + n := by
  induction n using Nat.strong_induction_on with
  | _ n ih =>
    intro a
    by_cases h10 : n < 10
    · rw [show decDigits n = [Nat.digitChar n] by rw [decDigits]; simp [h10]]
      simp [digitChar_val n h10]
    · rw [show decDigits n = decDigits (n / 10) ++ [Nat.digitChar (n % 10)] by
        rw [decDigits]; simp [h10]]
      rw [List.foldl_append]
      rw [ih (n / 10) (Nat.div_lt_self (by omega) (by omega)) a]
      simp only [List.foldl, List.length_append, List.length_cons, List.length_nil]
      rw [digitChar_val (n % 10) (Nat.mod_lt n (by omega))]
      have := Nat.div_add_mod n 10
      ring_nf
      omega

theorem decDigits_injective : Function.Injective decDigits := by
  intro m n h
  have hm := decDigits_foldl m 0
  have hn := decDigits_foldl n 0
  rw [h] at hm
  simp only [Nat.zero_mul, Nat.zero_add] at hm hn
  omega

theorem nat_repr_eq_decDigits (n : Nat) :
    Nat.repr n = (decDigits n).asString := by
  unfold Nat.repr Nat.toDigits
  rw [toDigitsCore_eq_decDigits (n + 1) n [] (Nat.lt_succ_self n)]
  simp

theorem nat_repr_injective : Function.Injective Nat.repr := by
  intro m n h
  rw [nat_repr_eq_decDigits, nat_repr_eq_decDigits] at h
  have : decDigits m = decDigits n := by
    have := congrArg String.data h
    simpa [List.asString] using this
  exact decDigits_injective this

theorem createNodeId_inj_of_ne {a b : Nat} (h : a ≠ b) :
    "n-" ++ Nat.repr a ≠ "n-" ++ Nat.repr b := by
  intro hc
  apply h
  apply nat_repr_injective
  apply String.ext
  have := congrArg String.data hc
  simpa using this

/-! ## The rules oracle

The spec treats move legality as an external collaborator (`chess.js`): given
a position (a FEN string, opaque and comparable to the core) and a candidate
move, it either rejects it or returns the SAN notation, the UCI code and the
resulting position.  A `chess.js` instance is determined by its FEN
(`new Chess(fen)` / `chess.fen()`), so the oracle is a record of pure
functions over FEN strings. -/

/-- What a successful `chess.move(...)` provides to the core: `move.san`,
`uciFromMove move`, and `chess.fen()` after the move. -/
structure MoveRes where
  san : String
  uci : String
  fen : String
deriving Repr, DecidableEq

/-- A `{ from, to, promotion }` move input as built by `uciToMoveInput`. -/
structure MoveInput where
  fromSq : String
  toSq : String
  promotion : Option Char
deriving Repr, DecidableEq

/-- The rules oracle. `startFen` is the position of `new Chess()`
(`START_POS_FEN`); `moveSan` is `chess.move(san)`; `moveInput` is
`chess.move({from, to, promotion})`; `turn` is `chess.turn()`; `moveNumber`
is `chess.moveNumber()`. -/
structure Oracle where
  startFen : String
  moveSan : String → String → Option MoveRes
  moveInput : String → MoveInput → Option MoveRes
  turn : String → Side
  moveNumber : String → Nat

/-- `boardFen` from `App.tsx`: resolves the `start` sentinel to the real
starting position. -/
def boardFen (o : Oracle) (fen : String) : String :=
  if fen = START_FEN then o.startFen else fen

/-- `toTurnColor` from `App.tsx` (via `fenToChess`). -/
def toTurnColor (o : Oracle) (fen : String) : Side :=
  o.turn (boardFen o fen)

/-! ## Tokenizer (`tokenizeMovetext` and PGN token helpers) -/

/-- The characters at which `tokenizeMovetext` ends a plain token. -/
def isTokenBoundary (c : Char) : Bool :=
  c.isWhitespace || c == '(' || c == ')' || c == '{' || c == ';'

/-- Brace-comment skipping: drop up to and including the matching `}`. -/
def skipBrace : List Char → List Char
  | [] => []
  | c :: rest => if c = '}' then rest else skipBrace rest

/-- Line-comment skipping after `;`: stop at the newline (which the main
loop then consumes as whitespace, as in the source). -/
def skipLine : List Char → List Char
  | [] => []
  | c :: rest => if c = '\n' then c :: rest else skipLine rest

theorem skipBrace_length (l : List Char) : (skipBrace l).length ≤ l.length := by
  induction l with
  | nil => simp [skipBrace]
  | cons c rest ih =>
    by_cases h : c = '}'
    · simp [skipBrace, h]
    · simp only [skipBrace, if_neg h]
      exact Nat.le_succ_of_le ih

theorem dropWhileChars_length_le (p : Char → Bool) (l : List Char) :
    (l.dropWhile p).length ≤ l.length := by
  induction l with
  | nil => simp
  | cons c rest ih =>
    by_cases h : p c
    · simp only [List.dropWhile_cons, h, if_true, List.length_cons]
      exact Nat.le_succ_of_le ih
    · simp [List.dropWhile_cons, h]

theorem skipLine_length (l : List Char) : (skipLine l).length ≤ l.length := by
  induction l with
  | nil => simp [skipLine]
  | cons c rest ih =>
    by_cases h : c = '\n'
    · simp [skipLine, h]
    · simp only [skipLine, if_neg h, List.length_cons]
      exact Nat.le_succ_of_le ih

/-- `tokenizeMovetext` from `App.tsx`, over the character list.  A plain
token runs to the next boundary character; the source's `trim()` and
emptiness check on the slice are no-ops because the slice starts with a
non-boundary character and boundaries include all whitespace.  The loop
consumes at least one character per iteration, so the structural fuel
argument never runs out when seeded with the character count. -/
def tokenizeFuel : Nat → List Char → List String
  | _, [] => []
  | 0, _ => []
  | fuel + 1, c :: rest =>
    if isTokenBoundary c then
      if c.isWhitespace then tokenizeFuel fuel rest
      else if c = '{' then tokenizeFuel fuel (skipBrace rest)
      else if c = ';' then tokenizeFuel fuel (skipLine rest)
      else String.singleton c :: tokenizeFuel fuel rest
    else
      String.mk ((c :: rest).takeWhile (fun d => !isTokenBoundary d))
        :: tokenizeFuel fuel (rest.dropWhile (fun d => !isTokenBoundary d))

def tokenizeAux (cs : List Char) : List String := tokenizeFuel cs.length cs

def tokenizeMovetext (text : String) : List String :=
  tokenizeAux text.data

/-- The four result tokens. -/
def isResultToken (t : String) : Bool :=
  t == "*" || t == "1-0" || t == "0-1" || t == "1/2-1/2"

/-- Matches the regex `^\d+\.(\.\.)?$` (which also subsumes the source's
redundant third pattern `^\d+\.\.\.$`). -/
def isNumToken (cs : List Char) : Bool :=
  decide (cs.takeWhile Char.isDigit ≠ []) &&
    (cs.dropWhile Char.isDigit == ['.'] || cs.dropWhile Char.isDigit == ['.', '.', '.'])

/-- `isIgnorablePgnToken` from `App.tsx`. -/
def isIgnorablePgnToken (token : String) : Bool :=
  token == "" || isResultToken token
  || (match token.data with
      | '$' :: ds => decide (ds ≠ []) && ds.all Char.isDigit
      | _ => false)
  || isNumToken token.data

/-- JS `trim` on a character list. -/
def trimChars (cs : List Char) : List Char :=
  ((cs.dropWhile Char.isWhitespace).reverse.dropWhile Char.isWhitespace).reverse

/-- One application of the replace for `^\d+\.(\.\.)?` (greedy), used by the
sanitizer's while-loop; `none` when the pattern does not match. -/
def stripMoveNum (cs : List Char) : Option (List Char) :=
  if cs.takeWhile Char.isDigit = [] then none
  else match cs.dropWhile Char.isDigit with
    | '.' :: '.' :: '.' :: r => some r
    | '.' :: r => some r
    | _ => none

theorem stripMoveNum_length {cs r : List Char} (h : stripMoveNum cs = some r) :
    r.length < cs.length := by
  unfold stripMoveNum at h
  by_cases hd : cs.takeWhile Char.isDigit = []
  · simp [hd] at h
  · simp only [if_neg hd] at h
    have hsplit : (cs.takeWhile Char.isDigit).length
        + (cs.dropWhile Char.isDigit).length = cs.length := by
      have := congrArg List.length (cs.takeWhile_append_dropWhile (p := Char.isDigit))
      rw [List.length_append] at this
      exact this
    have hpos : 0 < (cs.takeWhile Char.isDigit).length :=
      List.length_pos.mpr hd
    split at h
    · rename_i r' heq
      cases h
      rw [heq] at hsplit
      simp only [List.length_cons] at hsplit
      omega
    · rename_i r' heq
      cases h
      rw [heq] at hsplit
      simp only [List.length_cons] at hsplit
      omega
    · simp at h


/-- The sanitizer's while-loop: repeatedly strip leading `\d+\.(\.\.)?`.
Each successful strip removes at least two characters, so fuel equal to the
character count suffices. -/
def stripMoveNumsFuel : Nat → List Char → List Char
  | 0, cs => cs
  | fuel + 1, cs =>
    match stripMoveNum cs with
    | some r => stripMoveNumsFuel fuel r
    | none => cs

def stripMoveNums (cs : List Char) : List Char := stripMoveNumsFuel cs.length cs

/-- The replace for `^\.\.\.` (applied once). -/
def stripLeadingDots (cs : List Char) : List Char :=
  match cs with
  | '.' :: '.' :: '.' :: r => r
  | _ => cs

/-- The replace for trailing `(?:\$\d+)+`, on the reversed character list:
repeatedly strip a digit run followed by `$` (fuelled like the loop above). -/
def stripNagRevFuel : Nat → List Char → List Char
  | 0, cs => cs
  | fuel + 1, cs =>
    if cs.takeWhile Char.isDigit = [] then cs
    else match cs.dropWhile Char.isDigit with
      | '$' :: r => stripNagRevFuel fuel r
      | _ => cs

def stripNagRev (cs : List Char) : List Char := stripNagRevFuel cs.length cs

/-- `sanitizeSanToken` from `App.tsx`: trims, strips move-number prefixes,
a leading `...`, trailing NAGs, trailing `!`/`?` marks and a trailing `*`,
then rejects empty and result tokens. -/
def sanitizeSanToken (token : String) : Option String :=
  let v0 := trimChars token.data
  if v0 = [] then none
  else
    let v1 := stripMoveNums v0
    let v2 := stripLeadingDots v1
    let v3 := (stripNagRev v2.reverse).reverse
    let v4 := (v3.reverse.dropWhile (fun c => c == '!' || c == '?')).reverse
    let v5 := match v4.reverse with
      | '*' :: r => r.reverse
      | _ => v4
    let v6 := trimChars v5
    if v6 = [] then none
    else
      let s := String.mk v6
      if isResultToken s then none else some s

/-! ## Tree insertion (`ensureChildNode`) and the variation parser -/

/-- `ensureChildNode` from `App.tsx`.  The source mutates the tree in place
and returns the child id; here it returns the updated tree together with the
id.  Find-or-create by `moveUci`: an existing child with the same UCI is
reused, otherwise a fresh node is appended to the parent's `children`. -/
def ensureChildNode (tree : MoveTree) (parentId : String) (res : MoveRes) :
    MoveTree × String :=
  match NodeMap.find? tree.nodes parentId with
  | none => (tree, parentId)
  | some parent =>
    match parent.children.find? (fun childId =>
        ((NodeMap.find? tree.nodes childId).bind MoveNode.moveUci) == some res.uci) with
    | some existingChildId => (tree, existingChildId)
    | none =>
      let nodeId := createNodeId tree
      let newNode : MoveNode :=
        { id := nodeId
          parentId := some parentId
          fen := res.fen
          moveSan := some res.san
          moveUci := some res.uci
          children := [] }
      ({ tree with
          nextId := tree.nextId + 1
          nodes := NodeMap.set (NodeMap.set tree.nodes nodeId newNode) parentId
            { parent with children := parent.children ++ [nodeId] } },
        nodeId)

/-- `parseSequence` from `parsePgnChunkIntoTree`.  The source walks an index
into a fixed token array, only ever reading `tokens[index]` and moving
forward; here the stream is consumed as a list and the unconsumed suffix is
returned.  `lastBranch` is the `(lastBranchFen, lastBranchNodeId)` pair (the
position *before* the most recently applied move); an opening parenthesis
recurses from it (or from the current position when it is not set), stopping
at the matching closing parenthesis via `stopOnRightParen`.  A move token is
sanitized and resolved against the oracle; on oracle rejection the token is
skipped (`if (!move) continue`).  The fuel argument only guards the
recursion; `tokens.length + 1` is always sufficient. -/
def parseSequence (o : Oracle) :
    Nat → MoveTree → String → String → List String → Option (String × String) → Bool →
      MoveTree × List String
  | 0, tree, _fen, _nodeId, toks, _lb, _stop => (tree, toks)
  | fuel + 1, tree, fen, nodeId, toks, lastBranch, stopOnRightParen =>
    match toks with
    | [] => (tree, [])
    | token :: rest =>
      if token = ")" then
        if stopOnRightParen then (tree, rest)
        else parseSequence o fuel tree fen nodeId rest lastBranch stopOnRightParen
      else if token = "(" then
        let bp := lastBranch.getD (fen, nodeId)
        let inner := parseSequence o fuel tree bp.1 bp.2 rest none true
        parseSequence o fuel inner.1 fen nodeId inner.2 lastBranch stopOnRightParen
      else if isIgnorablePgnToken token then
        parseSequence o fuel tree fen nodeId rest lastBranch stopOnRightParen
      else
        match sanitizeSanToken token with
        | none => parseSequence o fuel tree fen nodeId rest lastBranch stopOnRightParen
        | some san =>
          match o.moveSan fen san with
          | none => parseSequence o fuel tree fen nodeId rest lastBranch stopOnRightParen
          | some res =>
            let step := ensureChildNode tree nodeId res
            parseSequence o fuel step.1 res.fen step.2 rest (some (fen, nodeId)) stopOnRightParen

/-- The movetext of a chunk: drop header lines (trimmed lines starting with
`[`), join the rest with spaces, trim. -/
def chunkMovetext (chunk : String) : List Char :=
  trimChars (List.intercalate [' ']
    ((chunk.data.splitOn '\n').filter (fun line =>
      match trimChars line with
      | '[' :: _ => false
      | _ => true)))

/-- `parsePgnChunkIntoTree` from `App.tsx`.  The source's shallow clone of
the node map before mutation is the identity on values here. -/
def parsePgnChunkIntoTree (o : Oracle) (tree : MoveTree) (chunk : String) : MoveTree :=
  let movetext := chunkMovetext chunk
  if movetext = [] then tree
  else
    let tokens := tokenizeAux movetext
    if tokens = [] then tree
    else
      (parseSequence o (tokens.length + 1) tree o.startFen tree.rootId tokens none false).1

/-- `pgn.replace(/\r\n/g, '\n')`. -/
def normalizeNewlines : List Char → List Char
  | [] => []
  | '\r' :: '\n' :: rest => '\n' :: normalizeNewlines rest
  | c :: rest => c :: normalizeNewlines rest

/-- Boolean prefix test on character lists. -/
def leadsWith : List Char → List Char → Bool
  | [], _ => true
  | _ :: _, [] => false
  | p :: ps, c :: cs => p == c && leadsWith ps cs

/-- The splitter for `/\n{2,}(?=\[Event )/` (and, with `lookahead := false`,
for the fallback `/\n{2,}/`): a maximal run of at least two newlines
(followed by `[Event ` when the lookahead is required) separates chunks.
The accumulator holds the current chunk reversed. -/
def splitGamesFuel (lookahead : Bool) : Nat → List Char → List Char → List (List Char)
  | _, acc, [] => [acc.reverse]
  | 0, acc, _ => [acc.reverse]
  | fuel + 1, acc, c :: rest =>
    if c = '\n' then
      let run := (c :: rest).takeWhile (fun d => d == '\n')
      let after := (c :: rest).dropWhile (fun d => d == '\n')
      if 2 ≤ run.length && (!lookahead || leadsWith "[Event ".data after) then
        acc.reverse :: splitGamesFuel lookahead fuel [] after
      else
        splitGamesFuel lookahead fuel (c :: acc) rest
    else
      splitGamesFuel lookahead fuel (c :: acc) rest

def splitGamesAux (lookahead : Bool) (acc cs : List Char) : List (List Char) :=
  splitGamesFuel lookahead cs.length acc cs

/-- `splitPgnGames` from `App.tsx`. -/
def splitPgnGames (pgn : String) : List String :=
  let normalized := trimChars (normalizeNewlines pgn.data)
  if normalized = [] then []
  else
    let chunks := (((splitGamesAux true [] normalized).map trimChars).filter
      (fun l => decide (l ≠ []))).map (fun l => String.mk l)
    let fallbackChunks := (((splitGamesAux false [] normalized).map trimChars).filter
      (fun l => decide (l ≠ []))).map (fun l => String.mk l)
    if chunks ≠ [] then chunks else fallbackChunks

/-- `parsePgnToTree` from `App.tsx`: split into games, parse each chunk into
the (merged) tree. -/
def parsePgnToTree (o : Oracle) (side : Side) (pgn : String)
    (initialTree : Option MoveTree) : MoveTree :=
  let base := initialTree.getD (createEmptyTree side)
  let candidates := splitPgnGames pgn
  if candidates = [] then base
  else candidates.foldl (fun t chunk => parsePgnChunkIntoTree o t chunk) base

/-! ## A concrete rules-oracle instance

The core treats positions as opaque comparable values, so a finite table
standing for chess.js on the handful of positions reached from the start by
`e4`, `e5`, `Nf3`/`Bc4`, `Bc5`, `Nc6` is a faithful oracle instance for the
worked examples.  Position names: `S` start, `A` after 1.e4, `B` after
1.e4 e5, `C` after 2.Nf3, `D` after 2.Bc4, `E` after 2.Bc4 Bc5, `F` after
2.Nf3 Nc6. -/

def demoMoveSan : String → String → Option MoveRes
  | "S", "e4" => some ⟨"e4", "e2e4", "A"⟩
  | "A", "e5" => some ⟨"e5", "e7e5", "B"⟩
  | "B", "Nf3" => some ⟨"Nf3", "g1f3", "C"⟩
  | "B", "Bc4" => some ⟨"Bc4", "f1c4", "D"⟩
  | "D", "Bc5" => some ⟨"Bc5", "f8c5", "E"⟩
  | "C", "Nc6" => some ⟨"Nc6", "b8c6", "F"⟩
  | _, _ => none

def demoMoveInput : String → MoveInput → Option MoveRes
  | "S", ⟨"e2", "e4", none⟩ => some ⟨"e4", "e2e4", "A"⟩
  | "A", ⟨"e7", "e5", none⟩ => some ⟨"e5", "e7e5", "B"⟩
  | "B", ⟨"g1", "f3", none⟩ => some ⟨"Nf3", "g1f3", "C"⟩
  | "B", ⟨"f1", "c4", none⟩ => some ⟨"Bc4", "f1c4", "D"⟩
  | "D", ⟨"f8", "c5", none⟩ => some ⟨"Bc5", "f8c5", "E"⟩
  | "C", ⟨"b8", "c6", none⟩ => some ⟨"Nc6", "b8c6", "F"⟩
  | _, _ => none

def demoTurn : String → Side
  | "A" => .black
  | "C" => .black
  | "D" => .black
  | _ => .white

def demoMoveNumber : String → Nat
  | "S" => 1
  | "A" => 1
  | "E" => 3
  | "F" => 3
  | _ => 2

def demoOracle : Oracle :=
  { startFen := "S"
    moveSan := demoMoveSan
    moveInput := demoMoveInput
    turn := demoTurn
    moveNumber := demoMoveNumber }

/-! ## Merge preservation: parsing never removes or rewrites merged nodes -/

/-- A node is preserved when every field except `children` is unchanged and
`children` has only been extended at the end (as find-or-create insertion
does). -/
def NodePreserved (n n' : MoveNode) : Prop :=
  n'.id = n.id ∧ n'.parentId = n.parentId ∧ n'.fen = n.fen ∧
  n'.moveSan = n.moveSan ∧ n'.moveUci = n.moveUci ∧
  n'.stockfishEval = n.stockfishEval ∧ ∃ l, n'.children = n.children ++ l

/-- `t'` extends `t`: same root and every node of `t` is still present,
preserved. -/
def TreeExtends (t t' : MoveTree) : Prop :=
  t'.rootId = t.rootId ∧
  ∀ k n, NodeMap.find? t.nodes k = some n →
    ∃ n', NodeMap.find? t'.nodes k = some n' ∧ NodePreserved n n'

/-- Fresh-id invariant: no key of the node map is an id the `nextId` counter
can still allocate. -/
def FreshIds (t : MoveTree) : Prop :=
  ∀ m, t.nextId ≤ m → NodeMap.find? t.nodes ("n-" ++ Nat.repr m) = none

theorem nodePreserved_refl (n : MoveNode) : NodePreserved n n :=
  ⟨rfl, rfl, rfl, rfl, rfl, rfl, [], by simp⟩

theorem nodePreserved_trans {a b c : MoveNode}
    (h1 : NodePreserved a b) (h2 : NodePreserved b c) : NodePreserved a c := by
  obtain ⟨i1, p1, f1, s1, u1, e1, l1, c1⟩ := h1
  obtain ⟨i2, p2, f2, s2, u2, e2, l2, c2⟩ := h2
  refine ⟨i2.trans i1, p2.trans p1, f2.trans f1, s2.trans s1, u2.trans u1,
    e2.trans e1, l1 ++ l2, ?_⟩
  rw [c2, c1, List.append_assoc]

theorem treeExtends_refl (t : MoveTree) : TreeExtends t t :=
  ⟨rfl, fun _ n h => ⟨n, h, nodePreserved_refl n⟩⟩

theorem treeExtends_trans {a b c : MoveTree}
    (h1 : TreeExtends a b) (h2 : TreeExtends b c) : TreeExtends a c := by
  refine ⟨h2.1.trans h1.1, fun k n hk => ?_⟩
  obtain ⟨n1, hn1, hp1⟩ := h1.2 k n hk
  obtain ⟨n2, hn2, hp2⟩ := h2.2 k n1 hn1
  exact ⟨n2, hn2, nodePreserved_trans hp1 hp2⟩

theorem root_ne_nodeId (side : Side) (m : Nat) :
    side.str ++ "-0" ≠ "n-" ++ Nat.repr m := by
  cases side with
  | white =>
    intro h
    have hd := congrArg String.data h
    simp [Side.str, String.data_append] at hd
  | black =>
    intro h
    have hd := congrArg String.data h
    simp [Side.str, String.data_append] at hd

theorem createEmptyTree_fresh (side : Side) : FreshIds (createEmptyTree side) := by
  intro m _
  simp [createEmptyTree, NodeMap.find?, root_ne_nodeId side m]

theorem ensureChildNode_preserves (t : MoveTree) (p : String) (r : MoveRes)
    (hf : FreshIds t) :
    TreeExtends t (ensureChildNode t p r).1 ∧ FreshIds (ensureChildNode t p r).1 := by
  unfold ensureChildNode
  split
  · exact ⟨treeExtends_refl t, hf⟩
  · rename_i parent hp
    split
    · exact ⟨treeExtends_refl t, hf⟩
    · rename_i hc
      have hfresh : NodeMap.find? t.nodes (createNodeId t) = none :=
        hf t.nextId (Nat.le_refl _)
      have hpne : p ≠ createNodeId t := by
        intro hcontra
        rw [hcontra, hfresh] at hp
        exact Option.noConfusion hp
      constructor
      · refine ⟨rfl, fun k n hk => ?_⟩
        by_cases hkp : k = p
        · subst hkp
          rw [hp] at hk
          cases hk
          refine ⟨_, NodeMap.find?_set_self _ _ _, ?_⟩
          exact ⟨rfl, rfl, rfl, rfl, rfl, rfl, [createNodeId t], rfl⟩
        · refine ⟨n, ?_, nodePreserved_refl n⟩
          show NodeMap.find? (NodeMap.set (NodeMap.set t.nodes (createNodeId t) _) p _) k = some n
          rw [NodeMap.find?_set_ne _ _ _ _ hkp]
          by_cases hkn : k = createNodeId t
          · subst hkn
            rw [hfresh] at hk
            exact Option.noConfusion hk
          · rw [NodeMap.find?_set_ne _ _ _ _ hkn]
            exact hk
      · intro m hm
        have hstep : t.nextId + 1 ≤ m := hm
        have hm' : t.nextId ≤ m := by omega
        have hmne : ("n-" ++ Nat.repr m) ≠ p := by
          intro hcontra
          have hnone : NodeMap.find? t.nodes ("n-" ++ Nat.repr m) = none := hf m hm'
          rw [hcontra, hp] at hnone
          exact Option.noConfusion hnone
        show NodeMap.find? (NodeMap.set (NodeMap.set t.nodes (createNodeId t) _) p _)
          ("n-" ++ Nat.repr m) = none
        rw [NodeMap.find?_set_ne _ _ _ _ hmne]
        have hmn : ("n-" ++ Nat.repr m) ≠ createNodeId t := by
          unfold createNodeId
          exact createNodeId_inj_of_ne (by omega)
        rw [NodeMap.find?_set_ne _ _ _ _ hmn]
        exact hf m hm'

theorem parseSequence_preserves (o : Oracle) :
    ∀ (fuel : Nat) (t : MoveTree) (fen nodeId : String) (toks : List String)
      (lb : Option (String × String)) (stop : Bool),
      FreshIds t →
      TreeExtends t (parseSequence o fuel t fen nodeId toks lb stop).1 ∧
      FreshIds (parseSequence o fuel t fen nodeId toks lb stop).1 := by
  intro fuel
  induction fuel with
  | zero =>
    intro t fen nodeId toks lb stop hf
    exact ⟨treeExtends_refl t, hf⟩
  | succ f ih =>
    intro t fen nodeId toks lb stop hf
    cases toks with
    | nil => exact ⟨treeExtends_refl t, hf⟩
    | cons token rest =>
      simp only [parseSequence]
      split
      · split
        · exact ⟨treeExtends_refl t, hf⟩
        · exact ih t fen nodeId rest lb stop hf
      · split
        · obtain ⟨he1, hf1⟩ := ih t (lb.getD (fen, nodeId)).1 (lb.getD (fen, nodeId)).2
            rest none true hf
          obtain ⟨he2, hf2⟩ := ih _ fen nodeId _ lb stop hf1
          exact ⟨treeExtends_trans he1 he2, hf2⟩
        · split
          · exact ih t fen nodeId rest lb stop hf
          · split
            · exact ih t fen nodeId rest lb stop hf
            · rename_i san hs
              split
              · exact ih t fen nodeId rest lb stop hf
              · rename_i res hm
                obtain ⟨he1, hf1⟩ := ensureChildNode_preserves t nodeId res hf
                obtain ⟨he2, hf2⟩ := ih (ensureChildNode t nodeId res).1 res.fen
                  (ensureChildNode t nodeId res).2 rest (some (fen, nodeId)) stop hf1
                exact ⟨treeExtends_trans he1 he2, hf2⟩

theorem parsePgnChunk_preserves (o : Oracle) (t : MoveTree) (chunk : String)
    (hf : FreshIds t) :
    TreeExtends t (parsePgnChunkIntoTree o t chunk) ∧
    FreshIds (parsePgnChunkIntoTree o t chunk) := by
  simp only [parsePgnChunkIntoTree]
  split
  · exact ⟨treeExtends_refl t, hf⟩
  · split
    · exact ⟨treeExtends_refl t, hf⟩
    · exact parseSequence_preserves o _ t o.startFen t.rootId _ none false hf

theorem parsePgnToTree_preserves (o : Oracle) (side : Side) (pgn : String)
    (t : MoveTree) (hf : FreshIds t) :
    TreeExtends t (parsePgnToTree o side pgn (some t)) ∧
    FreshIds (parsePgnToTree o side pgn (some t)) := by
  simp only [parsePgnToTree, Option.getD_some]
  split
  · exact ⟨treeExtends_refl t, hf⟩
  · generalize splitPgnGames pgn = chunks
    induction chunks generalizing t with
    | nil => exact ⟨treeExtends_refl t, hf⟩
    | cons c cs ih =>
      obtain ⟨he1, hf1⟩ := parsePgnChunk_preserves o t c hf
      obtain ⟨he2, hf2⟩ := ih (parsePgnChunkIntoTree o t c) hf1
      simp only [List.foldl_cons]
      exact ⟨treeExtends_trans he1 he2, hf2⟩

/-! ## Claim C1 — parse recovery -/

/-- **C1 — counterexample.**  The claim states that when a move token fails
to resolve against the rules oracle, parsing of the current branch stops
immediately.  It does not: `parseSequence` skips the failing token
(`if (!move) continue`) and keeps parsing the same branch.  Importing
`"1. e4 Nf9 e5"`, where the oracle rejects `Nf9` from the position `A`
reached after `1. e4`, still merges the later token `e5` as the
continuation of `e4` — under the claimed semantics the branch would have
ended at `Nf9` and no `e5` node would exist. -/
theorem C1_counterexample :
    demoOracle.moveSan "A" "Nf9" = none ∧
    parsePgnToTree demoOracle .white "1. e4 Nf9 e5" none =
      { rootId := "white-0"
        nodes := [
          ("white-0", { id := "white-0", parentId := none, fen := "start",
                        moveSan := none, moveUci := none, children := ["n-1"] }),
          ("n-1", { id := "n-1", parentId := some "white-0", fen := "A",
                    moveSan := some "e4", moveUci := some "e2e4", children := ["n-2"] }),
          ("n-2", { id := "n-2", parentId := some "n-1", fen := "B",
                    moveSan := some "e5", moveUci := some "e7e5", children := [] })]
        nextId := 3 } := by
  exact ⟨rfl, by decide⟩

/-- **C1 — amended.**  When a move token fails to resolve against the rules
oracle, the token is skipped and parsing continues with the remaining tokens
from the unchanged position (witnessed concretely by the `"1. e4 Nf9 e5"`
import, where `e5` still lands below `e4`); and every move already applied
remains merged with no rollback: for any oracle, input text and starting
tree whose ids do not collide with ids still to be allocated, the parse
result extends the starting tree — same root, every existing node surviving
with all fields intact and its `children` list only ever appended to. -/
theorem C1_parse_recovery :
    (∀ (o : Oracle) (side : Side) (pgn : String) (t : MoveTree),
      FreshIds t → TreeExtends t (parsePgnToTree o side pgn (some t))) ∧
    parsePgnToTree demoOracle .white "1. e4 Nf9 e5" none =
      { rootId := "white-0"
        nodes := [
          ("white-0", { id := "white-0", parentId := none, fen := "start",
                        moveSan := none, moveUci := none, children := ["n-1"] }),
          ("n-1", { id := "n-1", parentId := some "white-0", fen := "A",
                    moveSan := some "e4", moveUci := some "e2e4", children := ["n-2"] }),
          ("n-2", { id := "n-2", parentId := some "n-1", fen := "B",
                    moveSan := some "e5", moveUci := some "e7e5", children := [] })]
        nextId := 3 } :=
  ⟨fun o side pgn t hf => (parsePgnToTree_preserves o side pgn t hf).1, by decide⟩

/-- Witness for the amended C1 theorem at a concrete input. -/
theorem C1_parse_recovery_witness :
    FreshIds (createEmptyTree Side.white) ∧
    TreeExtends (createEmptyTree Side.white)
      (parsePgnToTree demoOracle .white "1. e4 e5" (some (createEmptyTree Side.white))) :=
  ⟨createEmptyTree_fresh .white,
    C1_parse_recovery.1 demoOracle .white "1. e4 e5" (createEmptyTree .white)
      (createEmptyTree_fresh .white)⟩

/-! ## Claim C5 — variation parsing attaches siblings -/

/-- **C5.**  Importing `"1. e4 e5 2. Nf3 (2. Bc4 Bc5) Nc6"` produces a root
with one child `e4`, whose child `e5` has two children: `Nf3` (main line,
itself with child `Nc6`) and `Bc4` (variation, with child `Bc5`).  The
opening parenthesis recursed from the position *before* the most recently
applied move (`Nf3`), making `Bc4` a sibling of `Nf3` under `e5` rather
than a child of `Nf3`; the depth-tracked closing parenthesis returned
parsing to the main line, where `Nc6` then continued below `Nf3`. -/
theorem C5_variation_parse :
    parsePgnToTree demoOracle .white "1. e4 e5 2. Nf3 (2. Bc4 Bc5) Nc6" none =
      { rootId := "white-0"
        nodes := [
          ("white-0", { id := "white-0", parentId := none, fen := "start",
                        moveSan := none, moveUci := none, children := ["n-1"] }),
          ("n-1", { id := "n-1", parentId := some "white-0", fen := "A",
                    moveSan := some "e4", moveUci := some "e2e4", children := ["n-2"] }),
          ("n-2", { id := "n-2", parentId := some "n-1", fen := "B",
                    moveSan := some "e5", moveUci := some "e7e5",
                    children := ["n-3", "n-4"] }),
          ("n-3", { id := "n-3", parentId := some "n-2", fen := "C",
                    moveSan := some "Nf3", moveUci := some "g1f3", children := ["n-6"] }),
          ("n-4", { id := "n-4", parentId := some "n-2", fen := "D",
                    moveSan := some "Bc4", moveUci := some "f1c4", children := ["n-5"] }),
          ("n-5", { id := "n-5", parentId := some "n-4", fen := "E",
                    moveSan := some "Bc5", moveUci := some "f8c5", children := [] }),
          ("n-6", { id := "n-6", parentId := some "n-3", fen := "F",
                    moveSan := some "Nc6", moveUci := some "b8c6", children := [] })]
        nextId := 7 } := by
  decide

/-! ## PGN exporter (`buildVariationTokens`, `exportTreeToPgn`) -/

/-- `uciToMoveInput` from `App.tsx`. -/
def uciToMoveInput (uci : String) : Option MoveInput :=
  if uci.data.length < 4 then none
  else
    some { fromSq := String.mk (uci.data.take 2)
           toSq := String.mk ((uci.data.drop 2).take 2)
           promotion :=
             match uci.data.drop 4 with
             | c :: _ =>
               if c.toLower = 'q' ∨ c.toLower = 'r' ∨ c.toLower = 'b' ∨ c.toLower = 'n'
               then some c.toLower else none
             | [] => none }

/-- `formatMovePrefix` from `App.tsx` (renamed): the move-number token
emitted before a move, `N.` when white is to move and `N...` when black is
to move.  The argument is the oracle state (a resolved FEN). -/
def formatMoveNum (o : Oracle) (fen : String) : String :=
  if o.turn fen = Side.white then Nat.repr (o.moveNumber fen) ++ "."
  else Nat.repr (o.moveNumber fen) ++ "..."

/-- `buildVariationTokens` from `App.tsx`.  The source threads a mutable
chess.js instance; here its state is the `fen` argument.  The first
resolvable child continues inline (advancing the shared oracle state);
every further resolvable child is emitted as a single parenthesized token
containing its own full recursive expansion, computed against an oracle
state re-seeded from the branch node's position.  The fuel argument only
bounds recursion depth; any value above the node count is sufficient on
arborescent trees. -/
def buildVariationTokens (o : Oracle) (tree : MoveTree) :
    Nat → String → String → List String
  | 0, _, _ => []
  | fuel + 1, nodeId, fen =>
    match NodeMap.find? tree.nodes nodeId with
    | none => []
    | some node =>
      if node.children = [] then []
      else
        match node.children.filter (fun childId =>
            ((NodeMap.find? tree.nodes childId).bind MoveNode.moveUci).isSome) with
        | [] => []
        | mainChildId :: alternativeChildIds =>
          match (NodeMap.find? tree.nodes mainChildId).bind MoveNode.moveUci with
          | none => []
          | some mainUci =>
            match uciToMoveInput mainUci with
            | none => []
            | some mainInput =>
              let mainPre := formatMoveNum o fen
              match o.moveInput fen mainInput with
              | none => []
              | some mainRes =>
                mainPre :: mainRes.san ::
                  (alternativeChildIds.flatMap (fun altChildId =>
                    match (NodeMap.find? tree.nodes altChildId).bind MoveNode.moveUci with
                    | none => []
                    | some altUci =>
                      match uciToMoveInput altUci with
                      | none => []
                      | some altInput =>
                        let altFen := boardFen o node.fen
                        let altPre := formatMoveNum o altFen
                        match o.moveInput altFen altInput with
                        | none => []
                        | some altRes =>
                          ["(" ++ String.intercalate " "
                              (altPre :: altRes.san ::
                                buildVariationTokens o tree fuel altChildId altRes.fen)
                            ++ ")"])
                  ++ buildVariationTokens o tree fuel mainChildId mainRes.fen)

/-- Ample recursion depth for the exporter on a given tree. -/
def exportFuel (tree : MoveTree) : Nat :=
  tree.nodes.length + 1

/-- The movetext part of `exportTreeToPgn`: tokens joined by spaces
followed by the `*` result (just `*` for an empty tree); the walk starts at
the root with a fresh oracle instance (`new Chess()`). -/
def exportMoveText (o : Oracle) (tree : MoveTree) : String :=
  let moveTokens := buildVariationTokens o tree (exportFuel tree) tree.rootId o.startFen
  if moveTokens = [] then "*"
  else String.intercalate " " moveTokens ++ " *"

/-- The header block of `exportTreeToPgn`.  The export date (the source
stamps the current date) is a parameter; every header line starts with `[`
and contains no newline when the inputs contain none. -/
def exportHeaderBlock (side : Side) (safeName exportDate : String) : String :=
  let eventName := if safeName = "" then "Opening Prep Trainer"
    else "Opening Prep Trainer - " ++ safeName
  String.intercalate "\n"
    [ "[Event \x22" ++ eventName ++ "\x22]"
    , "[Site \x22Local\x22]"
    , "[Date \x22" ++ exportDate ++ "\x22]"
    , "[Round \x22-\x22]"
    , "[White \x22" ++ (if side = Side.white then "Repertoire" else "Opponent") ++ "\x22]"
    , "[Black \x22" ++ (if side = Side.black then "Repertoire" else "Opponent") ++ "\x22]"
    , "[Result \x22*\x22]" ]

/-- `exportTreeToPgn` from `App.tsx` (date supplied; name already
normalized and quote-escaping elided, as the claims only concern the
movetext). -/
def exportTreeToPgn (o : Oracle) (tree : MoveTree) (side : Side)
    (safeName exportDate : String) : String :=
  exportHeaderBlock side safeName exportDate ++ "\n\n" ++ exportMoveText o tree

/-! ## Claim C2 — PGN export token structure -/

/-- The worked example tree (root, e4, e5, Nf3/Bc4 fork, Nc6, Bc5), shared by
several developments below. -/
def exampleTree : MoveTree :=
  parsePgnToTree demoOracle .white "1. e4 e5 2. Nf3 (2. Bc4 Bc5) Nc6" none

/-- **C2 — counterexample.**  The claim states that a `...` continuation
marker appears only the first time a variation resumes on the second
player's move.  In fact `formatMovePrefix` emits a numbered token before
*every* move — `N...` before every black move.  Exporting the single line
`1. e4 e5`, which contains no variation at all (no parenthesized token in
the output), still yields the marker token `1...` before `e5`. -/
theorem C2_counterexample :
    buildVariationTokens demoOracle (parsePgnToTree demoOracle .white "1. e4 e5" none)
        (exportFuel (parsePgnToTree demoOracle .white "1. e4 e5" none))
        (parsePgnToTree demoOracle .white "1. e4 e5" none).rootId demoOracle.startFen
      = ["1.", "e4", "1...", "e5"] ∧
    "1..." ∈ (["1.", "e4", "1...", "e5"] : List String) ∧
    ∀ t ∈ (["1.", "e4", "1...", "e5"] : List String), t.data.head? ≠ some '(' := by
  refine ⟨by decide, by decide, by decide⟩

/-- **C2 — amended.**  At a node with more than one (resolvable) child the
first child is emitted inline as the continuing main line and every
subsequent child is emitted as a single parenthesized token containing its
own full recursive expansion (re-seeded from the branch node's position);
move numbers increment after each pair of plies; and a move-number token is
emitted before *every* move — `N.` when white is to move, `N...` when black
is to move — so `...` appears before every second-player move, not only
when a variation resumes.  Exhibited on the worked fork example: `Nf3`
continues inline, `Bc4 Bc5` becomes one `(...)` token carrying its full
expansion, and every black move carries its `N...` token. -/
theorem C2_export_structure :
    buildVariationTokens demoOracle exampleTree (exportFuel exampleTree)
        exampleTree.rootId demoOracle.startFen
      = ["1.", "e4", "1...", "e5", "2.", "Nf3", "(2. Bc4 2... Bc5)", "2...", "Nc6"] ∧
    exportMoveText demoOracle exampleTree
      = "1. e4 1... e5 2. Nf3 (2. Bc4 2... Bc5) 2... Nc6 *" := by
  refine ⟨by decide, by decide⟩

/-! ## Branch removal (`removeBranch`) -/

theorem del_length_le (m : NodeMap) (k : String) :
    (NodeMap.del m k).length ≤ m.length := by
  induction m with
  | nil => simp [NodeMap.del]
  | cons e rest ih =>
    obtain ⟨ek, ev⟩ := e
    by_cases h : ek = k
    · simp only [NodeMap.del, if_pos h, List.length_cons]
      exact Nat.le_succ_of_le ih
    · simp only [NodeMap.del, if_neg h, List.length_cons]
      omega

theorem del_length_lt {m : NodeMap} {k : String} {v : MoveNode}
    (h : NodeMap.find? m k = some v) : (NodeMap.del m k).length < m.length := by
  induction m with
  | nil => simp [NodeMap.find?] at h
  | cons e rest ih =>
    obtain ⟨ek, ev⟩ := e
    by_cases he : ek = k
    · simp only [NodeMap.del, if_pos he, List.length_cons]
      exact Nat.lt_succ_of_le (del_length_le rest k)
    · simp only [NodeMap.find?, if_neg he] at h
      simp only [NodeMap.del, if_neg he, List.length_cons]
      exact Nat.succ_lt_succ (ih h)

/-- The iterative (explicit-stack) collector of `removeBranch`: pop an id
from the stack top, skip it when absent, otherwise delete it and push its
children.  JS `Array.pop`/`push(...)` work at the array end; the list here
holds the stack top first, so pushing `children` appends their reverse at
the front. -/
def removeLoop (nodes : NodeMap) (queue : List String) : NodeMap :=
  match queue with
  | [] => nodes
  | nodeId :: rest =>
    match h : NodeMap.find? nodes nodeId with
    | none => removeLoop nodes rest
    | some node => removeLoop (NodeMap.del nodes nodeId) (node.children.reverse ++ rest)
termination_by (nodes.length, queue.length)
decreasing_by
  · apply Prod.Lex.right
    simp
  · apply Prod.Lex.left
    exact del_length_lt h

/-- `removeBranch` from `App.tsx`: refuses on the root (no `parentId`) or an
unknown id; otherwise deletes the node and its collected descendants and
prunes the branch id from the former parent's `children`. -/
def removeBranch (tree : MoveTree) (branchRootId : String) : MoveTree :=
  match NodeMap.find? tree.nodes branchRootId with
  | none => tree
  | some branchRoot =>
    match branchRoot.parentId with
    | none => tree
    | some parentId =>
      let nextNodes := removeLoop tree.nodes [branchRootId]
      match NodeMap.find? nextNodes parentId with
      | none => { tree with nodes := nextNodes }
      | some parent =>
        { tree with nodes := (NodeMap.set nextNodes parent.id
            { parent with children := parent.children.filter (fun id => id != branchRootId) }) }

/-! ## Training advance (`advanceTrainingPosition`) -/

/-- The bounded descent loop of `advanceTrainingPosition`: while the cursor
node (looked up with fallback to the training-root node) has children and it
is not the trainee's side to move, descend to the child at the random index
(`Math.floor(Math.random() * length)` abstracted as an arbitrary per-step
index source, taken modulo the length).  Returns the final cursor id and the
number of steps taken. -/
def advanceLoop (o : Oracle) (tree : MoveTree) (rootNode : MoveNode) (side : Side)
    (rng : Nat → Nat) : Nat → Nat → String → String × Nat
  | step, 0, cursorId => (cursorId, step)
  | step, remaining + 1, cursorId =>
    let cursor := (NodeMap.find? tree.nodes cursorId).getD rootNode
    if cursor.children = [] then (cursorId, step)
    else if toTurnColor o cursor.fen = side then (cursorId, step)
    else
      advanceLoop o tree rootNode side rng (step + 1) remaining
        (cursor.children.getD (rng step % cursor.children.length) "")

/-- `advanceTrainingPosition` from `App.tsx`, as the cursor it computes:
`none` when the training-root node is missing (the source returns without
touching state), otherwise the final cursor of the 256-step bounded
descent, which the source stores as the new selected node. -/
def advanceTrainingPosition (o : Oracle) (tree : MoveTree) (side : Side)
    (rng : Nat → Nat) (rootNodeId startNodeId : String) : Option String :=
  match NodeMap.find? tree.nodes rootNodeId with
  | none => none
  | some rootNode => some (advanceLoop o tree rootNode side rng 0 256 startNodeId).1

theorem advanceLoop_spec (o : Oracle) (tree : MoveTree) (rootNode : MoveNode)
    (side : Side) (rng : Nat → Nat) :
    ∀ (remaining step : Nat) (cursorId : String),
      (advanceLoop o tree rootNode side rng step remaining cursorId).2 ≤ step + remaining ∧
      ((advanceLoop o tree rootNode side rng step remaining cursorId).2 < step + remaining →
        (((NodeMap.find? tree.nodes
            (advanceLoop o tree rootNode side rng step remaining cursorId).1).getD
              rootNode).children = [] ∨
         toTurnColor o (((NodeMap.find? tree.nodes
            (advanceLoop o tree rootNode side rng step remaining cursorId).1).getD
              rootNode)).fen = side)) := by
  intro remaining
  induction remaining with
  | zero =>
    intro step cursorId
    simp [advanceLoop]
  | succ rem ih =>
    intro step cursorId
    simp only [advanceLoop]
    by_cases h1 : ((NodeMap.find? tree.nodes cursorId).getD rootNode).children = []
    · simp only [if_pos h1]
      exact ⟨Nat.le_add_right step (rem + 1), fun _ => Or.inl h1⟩
    · by_cases h2 : toTurnColor o ((NodeMap.find? tree.nodes cursorId).getD rootNode).fen = side
      · simp only [if_neg h1, if_pos h2]
        exact ⟨Nat.le_add_right step (rem + 1), fun _ => Or.inr h2⟩
      · simp only [if_neg h1, if_neg h2]
        obtain ⟨hle, himp⟩ := ih (step + 1) (((NodeMap.find? tree.nodes cursorId).getD
          rootNode).children.getD (rng step % ((NodeMap.find? tree.nodes cursorId).getD
            rootNode).children.length) "")
        constructor
        · omega
        · intro hlt
          exact himp (by omega)

/-! ## Claim C6 — training advance -/

/-- An oracle whose positions are all second-player-to-move, used to drive
the descent loop to its iteration bound. -/
def blackOracle : Oracle :=
  { startFen := "f"
    moveSan := fun _ _ => none
    moveInput := fun _ _ => none
    turn := fun _ => Side.black
    moveNumber := fun _ => 1 }

/-- Compact node ids for the chain below (one character per id). -/
def cid (k : Nat) : String := String.singleton (Char.ofNat (40 + k))

/-- A 258-node single chain (node `k` has the single child `k+1`); every
position has the opponent of the trainee to move.  Such trees are admitted
by the persistence loader (`isValidMoveTree` checks only field types), so
they are part of the state space the advance loop runs on. -/
def deepChainTree : MoveTree :=
  { rootId := cid 0
    nodes := (List.range 258).map (fun k =>
      (cid k,
        { id := cid k
          parentId := if k = 0 then none else some (cid (k - 1))
          fen := "f"
          moveSan := if k = 0 then none else some "m"
          moveUci := if k = 0 then none else some "m"
          children := if k < 257 then [cid (k + 1)] else [] }))
    nextId := 258 }


/-- **C6 — amended.**  For every tree, every existing training-root node and
every start node, the advance loop terminates within 256 steps; and
whenever it stops before exhausting the 256-step bound, the cursor it
leaves has no children or has the trainee's side to move.  (When the bound
is exhausted — possible only on a chain of at least 257 consecutive
opponent-to-move positions — the cursor may be left mid-line, which is the
case the original claim missed.) -/
theorem C6_training_advance :
    ∀ (o : Oracle) (tree : MoveTree) (side : Side) (rng : Nat → Nat)
      (rootNodeId startNodeId : String) (rn : MoveNode),
      NodeMap.find? tree.nodes rootNodeId = some rn →
      ∃ c steps, advanceTrainingPosition o tree side rng rootNodeId startNodeId = some c ∧
        (advanceLoop o tree rn side rng 0 256 startNodeId).2 = steps ∧
        steps ≤ 256 ∧
        (steps < 256 →
          (((NodeMap.find? tree.nodes c).getD rn).children = [] ∨
           toTurnColor o ((NodeMap.find? tree.nodes c).getD rn).fen = side)) := by
  intro o tree side rng rootNodeId startNodeId rn hroot
  obtain ⟨hle, himp⟩ := advanceLoop_spec o tree rn side rng 256 0 startNodeId
  refine ⟨(advanceLoop o tree rn side rng 0 256 startNodeId).1,
          (advanceLoop o tree rn side rng 0 256 startNodeId).2, ?_, rfl, ?_, ?_⟩
  · unfold advanceTrainingPosition
    rw [hroot]
  · simpa using hle
  · intro h
    exact himp (by simpa using h)

/-- Witness for the amended C6 theorem at a concrete input (the worked
example tree, trainee white, starting at the root: white is to move at the
start position, so the loop stops at once). -/
theorem C6_training_advance_witness :
    NodeMap.find? exampleTree.nodes "white-0" =
      some { id := "white-0", parentId := none, fen := "start",
             moveSan := none, moveUci := none, children := ["n-1"] } ∧
    ∃ c steps, advanceTrainingPosition demoOracle exampleTree .white (fun _ => 0)
        "white-0" "white-0" = some c ∧
      (advanceLoop demoOracle exampleTree
          { id := "white-0", parentId := none, fen := "start",
            moveSan := none, moveUci := none, children := ["n-1"] }
          .white (fun _ => 0) 0 256 "white-0").2 = steps ∧
      steps ≤ 256 ∧
      (steps < 256 →
        (((NodeMap.find? exampleTree.nodes c).getD
            { id := "white-0", parentId := none, fen := "start",
              moveSan := none, moveUci := none, children := ["n-1"] }).children = [] ∨
         toTurnColor demoOracle ((NodeMap.find? exampleTree.nodes c).getD
            { id := "white-0", parentId := none, fen := "start",
              moveSan := none, moveUci := none, children := ["n-1"] }).fen = .white)) :=
  ⟨by decide,
   C6_training_advance demoOracle exampleTree .white (fun _ => 0) "white-0" "white-0"
     { id := "white-0", parentId := none, fen := "start",
       moveSan := none, moveUci := none, children := ["n-1"] } (by decide)⟩

/-! ## Browse-mode option set (`browseMoveOptions`) -/

/-- `RepertoireEntry` from `App.tsx`. -/
structure RepertoireEntry where
  id : String
  name : String
  tree : MoveTree
  selectedNodeId : String
deriving Repr, DecidableEq

/-- `BrowseMoveOption` from `App.tsx`. -/
structure BrowseMoveOption where
  moveUci : String
  moveSan : String
  repertoireNames : List String
deriving Repr, DecidableEq

/-- JS truthiness of an optional string (`Boolean(x)` / `!x`): `null` and
the empty string are falsy. -/
def truthy : Option String → Bool
  | none => false
  | some s => !(s == "")

/-- The accumulator of the `byUci` map: insertion-ordered entries
`(uci, san, entry names)`; the name set is a dedup-on-add list, as a JS
`Set` iterated in insertion order. -/
abbrev BrowseAcc := List (String × String × List String)

/-- One `byUci` update: an existing uci keeps its san and adds the name to
its set; a new uci is appended with a singleton set. -/
def browseAdd (acc : BrowseAcc) (uci san name : String) : BrowseAcc :=
  match acc with
  | [] => [(uci, san, [name])]
  | (u, s, ns) :: rest =>
    if u = uci then (u, s, if name ∈ ns then ns else ns ++ [name]) :: rest
    else (u, s, ns) :: browseAdd rest uci san name

/-- The innermost step of the collection loop: record one child of a
matching node (a child missing from the map, or with a falsy `moveUci` or
`moveSan`, is skipped). -/
def browseChildStep (rep : RepertoireEntry) (acc : BrowseAcc) (childId : String) :
    BrowseAcc :=
  match NodeMap.find? rep.tree.nodes childId with
  | none => acc
  | some child =>
    if truthy child.moveUci && truthy child.moveSan then
      browseAdd acc (child.moveUci.getD "") (child.moveSan.getD "") rep.name
    else acc

/-- All children of one matching node. -/
def browseNodeStep (rep : RepertoireEntry) (acc : BrowseAcc) (node : MoveNode) :
    BrowseAcc :=
  node.children.foldl (browseChildStep rep) acc

/-- One entry: every node of its tree whose `fen` equals the queried one
(`Object.values` order). -/
def browseEntryStep (fen : String) (acc : BrowseAcc) (rep : RepertoireEntry) :
    BrowseAcc :=
  ((NodeMap.values rep.tree.nodes).filter (fun node => node.fen == fen)).foldl
    (browseNodeStep rep) acc

/-- The collection loop of `browseMoveOptions`: over every entry in list
order. -/
def browseCollect (entries : List RepertoireEntry) (currentFen : String) : BrowseAcc :=
  entries.foldl (browseEntryStep currentFen) []

/-- Code-point (lexicographic) string order on character lists. -/
def strLeChars : List Char → List Char → Bool
  | [], _ => true
  | _ :: _, [] => false
  | a :: as, b :: bs =>
    if a.toNat < b.toNat then true
    else if b.toNat < a.toNat then false
    else strLeChars as bs

theorem strLeChars_total : ∀ a b : List Char, (strLeChars a b || strLeChars b a) = true := by
  intro a
  induction a with
  | nil => intro b; simp [strLeChars]
  | cons x xs ih =>
    intro b
    cases b with
    | nil => simp [strLeChars]
    | cons y ys =>
      simp only [strLeChars]
      rcases Nat.lt_trichotomy x.toNat y.toNat with h | h | h
      · simp [h]
      · simp only [h, Nat.lt_irrefl, if_neg, if_false]
        simpa using ih ys
      · simp [h, Nat.lt_asymm h]

theorem strLeChars_trans : ∀ a b c : List Char,
    strLeChars a b = true → strLeChars b c = true → strLeChars a c = true := by
  intro a
  induction a with
  | nil => intro b c _ _; simp [strLeChars]
  | cons x xs ih =>
    intro b c h1 h2
    cases b with
    | nil => simp [strLeChars] at h1
    | cons y ys =>
      cases c with
      | nil => simp [strLeChars] at h2
      | cons z zs =>
        simp only [strLeChars] at h1 h2 ⊢
        by_cases hxy1 : x.toNat < y.toNat
        · by_cases hyz1 : y.toNat < z.toNat
          · rw [if_pos (by omega)]
          · by_cases hyz2 : z.toNat < y.toNat
            · rw [if_neg hyz1, if_pos hyz2] at h2
              exact absurd h2 (by simp)
            · rw [if_pos (by omega)]
        · by_cases hxy2 : y.toNat < x.toNat
          · rw [if_neg hxy1, if_pos hxy2] at h1
            exact absurd h1 (by simp)
          · rw [if_neg hxy1, if_neg hxy2] at h1
            by_cases hyz1 : y.toNat < z.toNat
            · rw [if_pos (by omega)]
            · by_cases hyz2 : z.toNat < y.toNat
              · rw [if_neg hyz1, if_pos hyz2] at h2
                exact absurd h2 (by simp)
              · rw [if_neg hyz1, if_neg hyz2] at h2
                rw [if_neg (by omega), if_neg (by omega)]
                exact ih ys zs h1 h2

/-- The comparator of `browseMoveOptions`' final sort
(`b.repertoireNames.length - a.repertoireNames.length ||
a.moveSan.localeCompare(b.moveSan)`, with `localeCompare` modelled as the
code-point order on strings): more owning entries first, ties by
notation. -/
def browseLE (a b : BrowseMoveOption) : Bool :=
  (b.repertoireNames.length < a.repertoireNames.length : Bool) ||
  ((b.repertoireNames.length == a.repertoireNames.length) &&
    strLeChars a.moveSan.data b.moveSan.data)

/-- `browseMoveOptions` from `App.tsx` (browse mode): collect, then sort.
JS `Array.sort` with a consistent comparator is a stable sort, whose result
is unique; `insertionSort` is one such stable sort. -/
def browseMoveOptions (entries : List RepertoireEntry) (currentFen : String) :
    List BrowseMoveOption :=
  List.insertionSort (fun a b => browseLE a b = true)
    ((browseCollect entries currentFen).map (fun e =>
      { moveUci := e.1, moveSan := e.2.1, repertoireNames := e.2.2 }))

theorem browseLE_trans (a b c : BrowseMoveOption)
    (h1 : browseLE a b = true) (h2 : browseLE b c = true) : browseLE a c = true := by
  unfold browseLE at h1 h2 ⊢
  simp only [Bool.or_eq_true, Bool.and_eq_true, decide_eq_true_eq, beq_iff_eq] at h1 h2 ⊢
  rcases h1 with h1 | ⟨h1e, h1s⟩
  · rcases h2 with h2 | ⟨h2e, h2s⟩
    · exact Or.inl (by omega)
    · exact Or.inl (by omega)
  · rcases h2 with h2 | ⟨h2e, h2s⟩
    · exact Or.inl (by omega)
    · exact Or.inr ⟨by omega, strLeChars_trans _ _ _ h1s h2s⟩

theorem browseLE_total (a b : BrowseMoveOption) :
    (browseLE a b || browseLE b a) = true := by
  unfold browseLE
  simp only [Bool.or_eq_true, Bool.and_eq_true, decide_eq_true_eq, beq_iff_eq]
  rcases Nat.lt_trichotomy a.repertoireNames.length b.repertoireNames.length with h | h | h
  · exact Or.inr (Or.inl h)
  · have hst := strLeChars_total a.moveSan.data b.moveSan.data
    rcases Bool.or_eq_true_iff.mp hst with hs | hs
    · exact Or.inl (Or.inr ⟨h.symm, hs⟩)
    · exact Or.inr (Or.inr ⟨h, hs⟩)
  · exact Or.inl (Or.inl h)

instance : IsTotal BrowseMoveOption (fun a b => browseLE a b = true) :=
  ⟨fun a b => by
    have h := browseLE_total a b
    rcases Bool.or_eq_true_iff.mp h with h | h
    · exact Or.inl h
    · exact Or.inr h⟩

instance : IsTrans BrowseMoveOption (fun a b => browseLE a b = true) :=
  ⟨browseLE_trans⟩

theorem browseMoveOptions_sorted (entries : List RepertoireEntry) (fen : String) :
    (browseMoveOptions entries fen).Pairwise (fun a b => browseLE a b = true) := by
  exact List.sorted_insertionSort _ _

/-- The accumulator records entry name `nm` for uci `u`. -/
def HasUciName (acc : BrowseAcc) (u nm : String) : Prop :=
  ∃ e ∈ acc, e.1 = u ∧ nm ∈ e.2.2

/-- Child `childId` of some node contributes `(u, rep.name)` to the map. -/
def ChildContrib (rep : RepertoireEntry) (childId u nm : String) : Prop :=
  ∃ child, NodeMap.find? rep.tree.nodes childId = some child ∧
    (truthy child.moveUci && truthy child.moveSan) = true ∧
    child.moveUci.getD "" = u ∧ nm = rep.name

/-- Entry `rep` owns move `u` at position `fen`: some node of its tree at
that position has a child carrying that (truthy) uci with a truthy san. -/
def EntryHasMove (rep : RepertoireEntry) (fen u : String) : Prop :=
  ∃ node ∈ NodeMap.values rep.tree.nodes, (node.fen == fen) = true ∧
    ∃ childId ∈ node.children, ∃ child,
      NodeMap.find? rep.tree.nodes childId = some child ∧
      (truthy child.moveUci && truthy child.moveSan) = true ∧
      child.moveUci.getD "" = u

theorem browseAdd_hasUciName (acc : BrowseAcc) (uci san name u nm : String) :
    HasUciName (browseAdd acc uci san name) u nm ↔
      HasUciName acc u nm ∨ (u = uci ∧ nm = name) := by
  induction acc with
  | nil =>
    simp only [browseAdd, HasUciName, List.mem_singleton, List.not_mem_nil]
    constructor
    · rintro ⟨e, he, h1, h2⟩
      subst he
      exact Or.inr ⟨h1.symm, by simpa using h2⟩
    · rintro (⟨e, he, _⟩ | ⟨h1, h2⟩)
      · exact absurd he (by simp)
      · exact ⟨(uci, san, [name]), rfl, h1.symm, by simp [h2]⟩
  | cons e rest ih =>
    obtain ⟨hu, hs, hn⟩ := e
    by_cases he : hu = uci
    · have hred : browseAdd ((hu, hs, hn) :: rest) uci san name
          = (hu, hs, if name ∈ hn then hn else hn ++ [name]) :: rest := by
        simp [browseAdd, he]
      rw [hred]
      subst he
      simp only [HasUciName, List.mem_cons]
      constructor
      · rintro ⟨f, hf | hf, h1, h2⟩
        · subst hf
          simp only at h1 h2
          by_cases hmem : name ∈ hn
          · simp only [if_pos hmem] at h2
            exact Or.inl ⟨(hu, hs, hn), Or.inl rfl, h1, h2⟩
          · simp only [if_neg hmem, List.mem_append, List.mem_singleton] at h2
            rcases h2 with h2 | h2
            · exact Or.inl ⟨(hu, hs, hn), Or.inl rfl, h1, h2⟩
            · exact Or.inr ⟨h1.symm, h2⟩
        · exact Or.inl ⟨f, Or.inr hf, h1, h2⟩
      · rintro (⟨f, hf | hf, h1, h2⟩ | ⟨h1, h2⟩)
        · subst hf
          simp only at h1 h2
          refine ⟨(hu, hs, if name ∈ hn then hn else hn ++ [name]), Or.inl rfl, h1, ?_⟩
          by_cases hmem : name ∈ hn
          · simpa [if_pos hmem] using h2
          · simp [if_neg hmem, h2]
        · exact ⟨f, Or.inr hf, h1, h2⟩
        · refine ⟨(hu, hs, if name ∈ hn then hn else hn ++ [name]), Or.inl rfl, h1.symm, ?_⟩
          subst h2
          by_cases hmem : nm ∈ hn
          · simp [if_pos hmem, hmem]
          · simp [if_neg hmem]
    · have hred : browseAdd ((hu, hs, hn) :: rest) uci san name
          = (hu, hs, hn) :: browseAdd rest uci san name := by
        simp [browseAdd, he]
      rw [hred]
      simp only [HasUciName, List.mem_cons]
      constructor
      · rintro ⟨f, hf | hf, h1, h2⟩
        · exact Or.inl ⟨f, Or.inl hf, h1, h2⟩
        · have hih := (ih).mp ⟨f, hf, h1, h2⟩
          rcases hih with ⟨g, hg, hg1, hg2⟩ | hcase
          · exact Or.inl ⟨g, Or.inr hg, hg1, hg2⟩
          · exact Or.inr hcase
      · rintro (⟨f, hf | hf, h1, h2⟩ | hcase)
        · exact ⟨f, Or.inl hf, h1, h2⟩
        · obtain ⟨g, hg, hg1, hg2⟩ := (ih).mpr (Or.inl ⟨f, hf, h1, h2⟩)
          exact ⟨g, Or.inr hg, hg1, hg2⟩
        · obtain ⟨g, hg, hg1, hg2⟩ := (ih).mpr (Or.inr hcase)
          exact ⟨g, Or.inr hg, hg1, hg2⟩

theorem childStep_hasUciName (rep : RepertoireEntry) (acc : BrowseAcc)
    (cid u nm : String) :
    HasUciName (browseChildStep rep acc cid) u nm ↔
      HasUciName acc u nm ∨ ChildContrib rep cid u nm := by
  unfold browseChildStep ChildContrib
  cases hfind : NodeMap.find? rep.tree.nodes cid with
  | none =>
    simp only [iff_self_or]
    rintro ⟨c, hc, _⟩
    exact Option.noConfusion hc
  | some child =>
    show HasUciName
        (if (truthy child.moveUci && truthy child.moveSan) = true then
          browseAdd acc (child.moveUci.getD "") (child.moveSan.getD "") rep.name
        else acc) u nm ↔ _
    by_cases htruthy : (truthy child.moveUci && truthy child.moveSan) = true
    · rw [if_pos htruthy, browseAdd_hasUciName]
      constructor
      · rintro (h | ⟨h1, h2⟩)
        · exact Or.inl h
        · exact Or.inr ⟨child, rfl, htruthy, h1.symm, h2⟩
      · rintro (h | ⟨c, hc, hct, hcu, hcn⟩)
        · exact Or.inl h
        · injection hc with hc
          subst hc
          exact Or.inr ⟨hcu.symm, hcn⟩
    · rw [if_neg htruthy]
      simp only [iff_self_or]
      rintro ⟨c, hc, hct, _, _⟩
      injection hc with hc
      subst hc
      exact absurd hct htruthy

theorem foldl_childStep_hasUciName (rep : RepertoireEntry) (u nm : String) :
    ∀ (l : List String) (acc : BrowseAcc),
      HasUciName (l.foldl (browseChildStep rep) acc) u nm ↔
        HasUciName acc u nm ∨ ∃ cid ∈ l, ChildContrib rep cid u nm := by
  intro l
  induction l with
  | nil => intro acc; simp
  | cons c cs ih =>
    intro acc
    simp only [List.foldl_cons, ih, childStep_hasUciName, List.mem_cons]
    constructor
    · rintro ((h | h) | ⟨cid, hcid, h⟩)
      · exact Or.inl h
      · exact Or.inr ⟨c, Or.inl rfl, h⟩
      · exact Or.inr ⟨cid, Or.inr hcid, h⟩
    · rintro (h | ⟨cid, rfl | hcid, h⟩)
      · exact Or.inl (Or.inl h)
      · exact Or.inl (Or.inr h)
      · exact Or.inr ⟨cid, hcid, h⟩

theorem foldl_nodeStep_hasUciName (rep : RepertoireEntry) (u nm : String) :
    ∀ (l : List MoveNode) (acc : BrowseAcc),
      HasUciName (l.foldl (browseNodeStep rep) acc) u nm ↔
        HasUciName acc u nm ∨
          ∃ node ∈ l, ∃ cid ∈ node.children, ChildContrib rep cid u nm := by
  intro l
  induction l with
  | nil => intro acc; simp
  | cons node ns ih =>
    intro acc
    simp only [List.foldl_cons, ih, List.mem_cons]
    rw [show browseNodeStep rep acc node = node.children.foldl (browseChildStep rep) acc
      from rfl]
    rw [foldl_childStep_hasUciName]
    constructor
    · rintro ((h | h) | ⟨nd, hnd, h⟩)
      · exact Or.inl h
      · exact Or.inr ⟨node, Or.inl rfl, h⟩
      · exact Or.inr ⟨nd, Or.inr hnd, h⟩
    · rintro (h | ⟨nd, rfl | hnd, h⟩)
      · exact Or.inl (Or.inl h)
      · exact Or.inl (Or.inr h)
      · exact Or.inr ⟨nd, hnd, h⟩

theorem foldl_entryStep_hasUciName (fen u nm : String) :
    ∀ (l : List RepertoireEntry) (acc : BrowseAcc),
      HasUciName (l.foldl (browseEntryStep fen) acc) u nm ↔
        HasUciName acc u nm ∨
          ∃ rep ∈ l, nm = rep.name ∧ EntryHasMove rep fen u := by
  intro l
  induction l with
  | nil => intro acc; simp
  | cons rep reps ih =>
    intro acc
    simp only [List.foldl_cons, ih, List.mem_cons]
    rw [show browseEntryStep fen acc rep
        = ((NodeMap.values rep.tree.nodes).filter (fun node => node.fen == fen)).foldl
            (browseNodeStep rep) acc from rfl]
    rw [foldl_nodeStep_hasUciName]
    constructor
    · rintro ((h | h) | ⟨r, hr, h⟩)
      · exact Or.inl h
      · refine Or.inr ⟨rep, Or.inl rfl, ?_⟩
        obtain ⟨node, hnode, cid, hcid, child, hc1, hc2, hc3, hc4⟩ := h
        rw [List.mem_filter] at hnode
        exact ⟨hc4, node, hnode.1, hnode.2, cid, hcid, child, hc1, hc2, hc3⟩
      · exact Or.inr ⟨r, Or.inr hr, h⟩
    · rintro (h | ⟨r, rfl | hr, hnm, h⟩)
      · exact Or.inl (Or.inl h)
      · refine Or.inl (Or.inr ?_)
        obtain ⟨node, hnode, hfen, cid, hcid, child, hc1, hc2, hc3⟩ := h
        exact ⟨node, List.mem_filter.mpr ⟨hnode, hfen⟩, cid, hcid, child, hc1, hc2, hc3, hnm⟩
      · exact Or.inr ⟨r, hr, hnm, h⟩

theorem browseCollect_hasUciName (entries : List RepertoireEntry) (fen u nm : String) :
    HasUciName (browseCollect entries fen) u nm ↔
      ∃ rep ∈ entries, nm = rep.name ∧ EntryHasMove rep fen u := by
  unfold browseCollect
  rw [foldl_entryStep_hasUciName]
  simp [HasUciName]

theorem browseOptions_mem_iff (entries : List RepertoireEntry) (fen u nm : String) :
    (∃ opt ∈ browseMoveOptions entries fen, opt.moveUci = u ∧ nm ∈ opt.repertoireNames)
      ↔ ∃ rep ∈ entries, nm = rep.name ∧ EntryHasMove rep fen u := by
  rw [← browseCollect_hasUciName entries fen u nm]
  unfold browseMoveOptions
  constructor
  · rintro ⟨opt, hopt, h1, h2⟩
    have hmem := (List.perm_insertionSort _ _).mem_iff.mp hopt
    obtain ⟨e, he, hfe⟩ := List.mem_map.mp hmem
    refine ⟨e, he, ?_, ?_⟩
    · rw [← h1, ← hfe]
    · rw [← hfe] at h2
      exact h2
  · rintro ⟨e, he, h1, h2⟩
    refine ⟨{ moveUci := e.1, moveSan := e.2.1, repertoireNames := e.2.2 },
      (List.perm_insertionSort _ _).mem_iff.mpr (List.mem_map.mpr ⟨e, he, rfl⟩),
      h1, h2⟩

/-! ## Claim C7 — browse-mode option set -/

/-- An entry whose tree continues `1. e4 e5` with `2. Nf3`. -/
def entryKnight : RepertoireEntry :=
  { id := "r1", name := "KnightRep",
    tree := parsePgnToTree demoOracle .white "1. e4 e5 2. Nf3" none,
    selectedNodeId := "white-0" }

/-- An entry whose tree continues `1. e4 e5` with `2. Bc4`. -/
def entryItalian : RepertoireEntry :=
  { id := "r2", name := "Italian",
    tree := parsePgnToTree demoOracle .white "1. e4 e5 2. Bc4" none,
    selectedNodeId := "white-0" }

/-- **C7.**  Browse-mode option set.  (i) Grouping and name collection: a
move code `u` appears in the result tagged with entry name `nm` exactly
when some entry named `nm` has a node at the queried position with a child
carrying `u`; (ii) the result is sorted by the comparator "more owning
entries first, ties by notation"; (iii) on the worked example — two white
entries sharing the position after `1. e4 e5`, one continuing `2. Nf3`,
the other `2. Bc4` — both moves are returned, each tagged with its one
owning entry name (and ordered by notation since the counts tie). -/
theorem C7_browse_option_set :
    (∀ (entries : List RepertoireEntry) (fen u nm : String),
      (∃ opt ∈ browseMoveOptions entries fen,
          opt.moveUci = u ∧ nm ∈ opt.repertoireNames)
        ↔ ∃ rep ∈ entries, nm = rep.name ∧ EntryHasMove rep fen u) ∧
    (∀ (entries : List RepertoireEntry) (fen : String),
      (browseMoveOptions entries fen).Pairwise (fun a b => browseLE a b = true)) ∧
    browseMoveOptions [entryKnight, entryItalian] "B" =
      [{ moveUci := "f1c4", moveSan := "Bc4", repertoireNames := ["Italian"] },
       { moveUci := "g1f3", moveSan := "Nf3", repertoireNames := ["KnightRep"] }] := by
  refine ⟨browseOptions_mem_iff, browseMoveOptions_sorted, by decide⟩

/-! ## Persistence migration (`normalizePersistedState`, version-1 branch) -/

/-- A version-1 (legacy) payload whose trees are structurally valid and
whose cursors are strings — exactly what `isValidMoveTree` and the `typeof`
checks of the source validate before migration. -/
structure LegacyPersistedAppState where
  version : Nat
  treeWhite : MoveTree
  treeBlack : MoveTree
  selectedWhite : String
  selectedBlack : String
deriving Repr, DecidableEq

/-- The version-2 state the loader produces. -/
structure PersistedAppState where
  version : Nat
  repertoiresWhite : List RepertoireEntry
  repertoiresBlack : List RepertoireEntry
  activeWhite : Option String
  activeBlack : Option String
deriving Repr, DecidableEq

/-- The entry the version-1 branch builds for one side. -/
def migratedEntry (idGen : Side → String) (side : Side) (tree : MoveTree)
    (selected : String) : RepertoireEntry :=
  { id := idGen side
    name := "Default"
    tree := tree
    selectedNodeId :=
      if (NodeMap.find? tree.nodes selected).isSome then selected else tree.rootId }

/-- The version-1 branch of `normalizePersistedState`.  `idGen` stands for
`createRepertoireId` (a timestamp/random id, an external effect).  A
payload whose `version` is not 1 is rejected (`null`); a version-1 payload
is wrapped into one synthetic entry named `Default` per side, the cursor
repaired to the root when it references no existing node (the source tests
`tree.nodes[cursor]` for truthiness), and both active ids left `null`
(browse mode).  No error is raised: the function is total. -/
def normalizeLegacyState (idGen : Side → String) (p : LegacyPersistedAppState) :
    Option PersistedAppState :=
  if p.version = 1 then
    some
      { version := 2
        repertoiresWhite := [migratedEntry idGen .white p.treeWhite p.selectedWhite]
        repertoiresBlack := [migratedEntry idGen .black p.treeBlack p.selectedBlack]
        activeWhite := none
        activeBlack := none }
  else none

/-! ## Claim C9 — version-1 migration -/

/-- **C9.**  For every version-1 payload (structurally valid trees, string
cursors), the loader produces — without raising an error — a version-2
state wrapping each side's tree and cursor into a single synthetic entry
named `Default` (the cursor repaired to the tree's root when it references
no existing node) and leaves the active repertoire id `null` (browse mode)
for both sides. -/
theorem C9_v1_migration :
    ∀ (idGen : Side → String) (p : LegacyPersistedAppState),
      p.version = 1 →
      ∃ st, normalizeLegacyState idGen p = some st ∧
        st.version = 2 ∧
        st.repertoiresWhite = [migratedEntry idGen .white p.treeWhite p.selectedWhite] ∧
        st.repertoiresBlack = [migratedEntry idGen .black p.treeBlack p.selectedBlack] ∧
        (migratedEntry idGen .white p.treeWhite p.selectedWhite).name = "Default" ∧
        (migratedEntry idGen .black p.treeBlack p.selectedBlack).name = "Default" ∧
        (migratedEntry idGen .white p.treeWhite p.selectedWhite).tree = p.treeWhite ∧
        (migratedEntry idGen .black p.treeBlack p.selectedBlack).tree = p.treeBlack ∧
        (migratedEntry idGen .white p.treeWhite p.selectedWhite).selectedNodeId =
          (if (NodeMap.find? p.treeWhite.nodes p.selectedWhite).isSome
           then p.selectedWhite else p.treeWhite.rootId) ∧
        (migratedEntry idGen .black p.treeBlack p.selectedBlack).selectedNodeId =
          (if (NodeMap.find? p.treeBlack.nodes p.selectedBlack).isSome
           then p.selectedBlack else p.treeBlack.rootId) ∧
        st.activeWhite = none ∧ st.activeBlack = none := by
  intro idGen p h
  unfold normalizeLegacyState
  rw [if_pos h]
  exact ⟨_, rfl, rfl, rfl, rfl, rfl, rfl, rfl, rfl, rfl, rfl, rfl, rfl⟩

/-- Witness for C9 at a concrete version-1 payload (a missing white cursor
gets repaired to the root; both sides end in browse mode). -/
theorem C9_v1_migration_witness :
    ∃ st,
      normalizeLegacyState (fun s => s.str ++ "-id")
        { version := 1
          treeWhite := createEmptyTree .white
          treeBlack := createEmptyTree .black
          selectedWhite := "gone"
          selectedBlack := "black-0" } = some st ∧
      st.version = 2 ∧
      st.repertoiresWhite = [migratedEntry (fun s => s.str ++ "-id") .white
        (createEmptyTree .white) "gone"] ∧
      st.repertoiresBlack = [migratedEntry (fun s => s.str ++ "-id") .black
        (createEmptyTree .black) "black-0"] ∧
      (migratedEntry (fun s => s.str ++ "-id") .white
        (createEmptyTree .white) "gone").name = "Default" ∧
      (migratedEntry (fun s => s.str ++ "-id") .black
        (createEmptyTree .black) "black-0").name = "Default" ∧
      (migratedEntry (fun s => s.str ++ "-id") .white
        (createEmptyTree .white) "gone").tree = createEmptyTree .white ∧
      (migratedEntry (fun s => s.str ++ "-id") .black
        (createEmptyTree .black) "black-0").tree = createEmptyTree .black ∧
      (migratedEntry (fun s => s.str ++ "-id") .white
        (createEmptyTree .white) "gone").selectedNodeId =
        (if (NodeMap.find? (createEmptyTree .white).nodes "gone").isSome
         then "gone" else (createEmptyTree .white).rootId) ∧
      (migratedEntry (fun s => s.str ++ "-id") .black
        (createEmptyTree .black) "black-0").selectedNodeId =
        (if (NodeMap.find? (createEmptyTree .black).nodes "black-0").isSome
         then "black-0" else (createEmptyTree .black).rootId) ∧
      st.activeWhite = none ∧ st.activeBlack = none :=
  C9_v1_migration (fun s => s.str ++ "-id")
    { version := 1
      treeWhite := createEmptyTree .white
      treeBlack := createEmptyTree .black
      selectedWhite := "gone"
      selectedBlack := "black-0" } rfl

/-! ## Statistics-driven child reorder and claim C10 -/

/-- The tree transform of the popularity child-reorder effect: look up the
current node (the effect guards that an active repertoire is selected and
statistics arrived; `pop` is the per-uci total-games map with default 0);
with fewer than two children, or when the stable descending-popularity sort
leaves the order unchanged, the previous tree value is returned as is;
otherwise only the current node's `children` array is replaced by its
sorted permutation. -/
def reorderTreeByPopularity (tree : MoveTree) (currentNodeId : String)
    (pop : String → Nat) : MoveTree :=
  match NodeMap.find? tree.nodes currentNodeId with
  | none => tree
  | some currentNode =>
    if currentNode.children.length < 2 then tree
    else
      let uciOf := fun (childId : String) =>
        ((NodeMap.find? tree.nodes childId).bind MoveNode.moveUci).getD ""
      let reordered := List.insertionSort
        (fun a b => pop (uciOf b) ≤ pop (uciOf a)) currentNode.children
      if reordered = currentNode.children then tree
      else
        { tree with nodes :=
            (NodeMap.set tree.nodes currentNode.id
              { currentNode with children := reordered }) }

/-- **C10.**  Frame property of the popularity reorder: whenever it fires,
the resulting tree differs from the previous tree at most in the current
node's `children` array, which is a permutation of its previous contents;
every other node, every other field of the current node, the `rootId` and
the `nextId` counter are unchanged.  (Stated for a current node whose `id`
field matches its key, which holds for every tree the app builds; when the
cursor names no node the tree is returned untouched.) -/
theorem C10_reorder_frame :
    ∀ (tree : MoveTree) (cid : String) (pop : String → Nat),
      (NodeMap.find? tree.nodes cid = none →
        reorderTreeByPopularity tree cid pop = tree) ∧
      (∀ n, NodeMap.find? tree.nodes cid = some n → n.id = cid →
        (reorderTreeByPopularity tree cid pop).rootId = tree.rootId ∧
        (reorderTreeByPopularity tree cid pop).nextId = tree.nextId ∧
        (∀ k, k ≠ cid →
          NodeMap.find? (reorderTreeByPopularity tree cid pop).nodes k
            = NodeMap.find? tree.nodes k) ∧
        ∃ n', NodeMap.find? (reorderTreeByPopularity tree cid pop).nodes cid = some n' ∧
          n'.id = n.id ∧ n'.parentId = n.parentId ∧ n'.fen = n.fen ∧
          n'.moveSan = n.moveSan ∧ n'.moveUci = n.moveUci ∧
          n'.stockfishEval = n.stockfishEval ∧ n'.children.Perm n.children) := by
  intro tree cid pop
  constructor
  · intro hnone
    unfold reorderTreeByPopularity
    rw [hnone]
  · intro n hfind hid
    have hred : reorderTreeByPopularity tree cid pop =
        (if n.children.length < 2 then tree
        else
          let uciOf := fun (childId : String) =>
            ((NodeMap.find? tree.nodes childId).bind MoveNode.moveUci).getD ""
          let reordered := List.insertionSort
            (fun a b => pop (uciOf b) ≤ pop (uciOf a)) n.children
          if reordered = n.children then tree
          else
            { tree with nodes :=
                (NodeMap.set tree.nodes n.id { n with children := reordered }) }) := by
      unfold reorderTreeByPopularity
      rw [hfind]
    rw [hred]
    by_cases hlen : n.children.length < 2
    · rw [if_pos hlen]
      exact ⟨rfl, rfl, fun k _ => rfl, n, hfind, rfl, rfl, rfl, rfl, rfl, rfl,
        List.Perm.refl _⟩
    · rw [if_neg hlen]
      simp only
      by_cases heq : List.insertionSort
          (fun a b => pop (((NodeMap.find? tree.nodes b).bind MoveNode.moveUci).getD "")
            ≤ pop (((NodeMap.find? tree.nodes a).bind MoveNode.moveUci).getD ""))
          n.children = n.children
      · rw [if_pos heq]
        exact ⟨rfl, rfl, fun k _ => rfl, n, hfind, rfl, rfl, rfl, rfl, rfl, rfl,
          List.Perm.refl _⟩
      · rw [if_neg heq]
        refine ⟨rfl, rfl, ?_, ?_⟩
        · intro k hk
          show NodeMap.find? (NodeMap.set tree.nodes n.id _) k = _
          rw [NodeMap.find?_set_ne _ _ _ _ (by rw [hid]; exact hk)]
        · let sorted := List.insertionSort
            (fun a b => pop (((NodeMap.find? tree.nodes b).bind MoveNode.moveUci).getD "")
              ≤ pop (((NodeMap.find? tree.nodes a).bind MoveNode.moveUci).getD ""))
            n.children
          refine ⟨{ n with children := sorted }, ?_, rfl, rfl, rfl, rfl, rfl, rfl,
            List.perm_insertionSort _ _⟩
          show NodeMap.find? (NodeMap.set tree.nodes n.id _) cid = _
          rw [hid, NodeMap.find?_set_self]

/-- Witness for C10 at a concrete tree: the example fork with popularity
favoring `Bc4` keeps the root and counter and permutes only the children of
the `e5` node. -/
theorem C10_reorder_frame_witness :
    NodeMap.find? exampleTree.nodes "n-2" =
      some { id := "n-2", parentId := some "n-1", fen := "B",
             moveSan := some "e5", moveUci := some "e7e5",
             children := ["n-3", "n-4"] } ∧
    (reorderTreeByPopularity exampleTree "n-2"
        (fun u => if u = "f1c4" then 10 else 1)).rootId = exampleTree.rootId := by
  constructor
  · decide
  · exact ((C10_reorder_frame exampleTree "n-2"
      (fun u => if u = "f1c4" then 10 else 1)).2
      { id := "n-2", parentId := some "n-1", fen := "B",
        moveSan := some "e5", moveUci := some "e7e5",
        children := ["n-3", "n-4"] } (by decide) rfl).1

/-! ## App state: trees, cursors, undo stacks, training session -/

/-- A `Record<Side, α>`. -/
structure BySide (α : Type) where
  white : α
  black : α
deriving Repr, DecidableEq

def BySide.get {α : Type} (b : BySide α) : Side → α
  | .white => b.white
  | .black => b.black

def BySide.set {α : Type} (b : BySide α) : Side → α → BySide α
  | .white, v => { b with white := v }
  | .black, v => { b with black := v }

theorem BySide.get_set_self {α : Type} (b : BySide α) (side : Side) (v : α) :
    (b.set side v).get side = v := by
  cases side <;> rfl

theorem BySide.get_set_ne {α : Type} (b : BySide α) (side side' : Side) (v : α)
    (h : side' ≠ side) : (b.set side v).get side' = b.get side' := by
  cases side <;> cases side' <;> first | rfl | exact absurd rfl h

theorem BySide.set_get_self {α : Type} (b : BySide α) (side : Side) :
    b.set side (b.get side) = b := by
  cases side <;> rfl

/-- `UndoSnapshot` from `App.tsx`. -/
structure UndoSnapshot where
  tree : MoveTree
  selectedNodeId : String
deriving Repr, DecidableEq

/-- `TrainingSession` from `App.tsx`. -/
structure TrainingSession where
  side : Side
  rootNodeId : String
  hintRequested : Bool
  hintVisible : Bool
  hintMoveUci : Option String
deriving Repr, DecidableEq

/-- The slice of App state the undo history interacts with. -/
structure AppState where
  trees : BySide MoveTree
  selected : BySide String
  undo : BySide (List UndoSnapshot)
  training : Option TrainingSession
deriving Repr, DecidableEq

/-- `[...stack, snapshot].slice(-200)`: append, keep the last 200 entries
(the oldest dropped on overflow). -/
def capPush (stack : List UndoSnapshot) (snap : UndoSnapshot) : List UndoSnapshot :=
  (stack ++ [snap]).drop ((stack ++ [snap]).length - 200)

/-- `trainingSession && trainingSession.side === side`. -/
def trainingActiveFor (s : AppState) (side : Side) : Bool :=
  match s.training with
  | some session => session.side = side
  | none => false

/-- `navigateToNode` from `App.tsx`: no-op during that side's training or
when the cursor would not move; otherwise push the pre-move `(tree,
cursor)` snapshot and move the cursor.  (The source's `?? rootId` fallback
on the cursor record is dead under its typing and elided.) -/
def navigateToNode (s : AppState) (side : Side) (nextId : String) : AppState :=
  if trainingActiveFor s side then s
  else
    let currentId := s.selected.get side
    if currentId = nextId then s
    else
      { s with
        undo := s.undo.set side (capPush (s.undo.get side) ⟨s.trees.get side, currentId⟩)
        selected := s.selected.set side nextId }

/-- `undoNavigation` from `App.tsx`: no-op during that side's training or on
an empty stack; otherwise pop the newest snapshot and restore both its
fields atomically. -/
def undoNavigation (s : AppState) (side : Side) : AppState :=
  if trainingActiveFor s side then s
  else
    match (s.undo.get side).getLast? with
    | none => s
    | some snapshot =>
      { s with
        undo := s.undo.set side (s.undo.get side).dropLast
        trees := s.trees.set side snapshot.tree
        selected := s.selected.set side snapshot.selectedNodeId }

/-- `deleteLastMove` from `App.tsx`: at the cursor node (falling back to the
root when the cursor is missing), refuse at the root; otherwise push the
pre-mutation snapshot, remove the branch and move the cursor to the
parent. -/
def deleteLastMove (s : AppState) (side : Side) : AppState :=
  if trainingActiveFor s side then s
  else
    let tree := s.trees.get side
    let selectedNode? := match NodeMap.find? tree.nodes (s.selected.get side) with
      | some n => some n
      | none => NodeMap.find? tree.nodes tree.rootId
    match selectedNode? with
    | none => s
    | some selectedNode =>
      match selectedNode.parentId with
      | none => s
      | some parentId =>
        { s with
          undo := s.undo.set side (capPush (s.undo.get side) ⟨tree, selectedNode.id⟩)
          trees := s.trees.set side (removeBranch tree selectedNode.id)
          selected := s.selected.set side parentId }

/-- The tree-and-cursor effect of `makeMove`'s edit path: resolve the move
input against the oracle at the cursor node (falling back to the root);
reuse an existing child with the same uci, otherwise create a fresh node;
`none` when the oracle rejects the move, the cursor node cannot be found,
or the cursor would not change. -/
def makeMoveEdit (o : Oracle) (tree : MoveTree) (selectedId : String)
    (input : MoveInput) : Option (MoveTree × String) :=
  let currentNode? := match NodeMap.find? tree.nodes selectedId with
    | some n => some n
    | none => NodeMap.find? tree.nodes tree.rootId
  match currentNode? with
  | none => none
  | some currentNode =>
    match o.moveInput (boardFen o currentNode.fen) input with
    | none => none
    | some res =>
      match currentNode.children.find? (fun id =>
          ((NodeMap.find? tree.nodes id).bind MoveNode.moveUci) == some res.uci) with
      | some cid => if cid = selectedId then none else some (tree, cid)
      | none =>
        let nodeId := createNodeId tree
        let newNode : MoveNode :=
          { id := nodeId
            parentId := some currentNode.id
            fen := res.fen
            moveSan := some res.san
            moveUci := some res.uci
            children := [] }
        let nextTree : MoveTree :=
          { tree with
            nextId := tree.nextId + 1
            nodes := (NodeMap.set (NodeMap.set tree.nodes nodeId newNode) currentNode.id
              { currentNode with children := currentNode.children ++ [nodeId] }) }
        if nodeId = selectedId then none else some (nextTree, nodeId)

/-- `makeMove` from `App.tsx` on the state, edit path only: the training
branch never touches any tree or undo stack (it arms a hint or re-runs the
training advance) and is outside this slice of state, so the guard leaves
the state unchanged here; when the edit yields a change, the pre-mutation
snapshot is pushed and tree and cursor are updated. -/
def makeMoveState (o : Oracle) (s : AppState) (side : Side) (input : MoveInput) :
    AppState :=
  if trainingActiveFor s side then s
  else
    match makeMoveEdit o (s.trees.get side) (s.selected.get side) input with
    | none => s
    | some tn =>
      { s with
        undo := s.undo.set side (capPush (s.undo.get side)
          ⟨s.trees.get side, s.selected.get side⟩)
        trees := s.trees.set side tn.1
        selected := s.selected.set side tn.2 }

/-- The current-repertoire import path of `importPgn`: always pushes the
pre-import `(tree, cursor)` snapshot, merges the parsed games into the
current tree and keeps the cursor when it still exists (root otherwise). -/
def importPgnCurrent (o : Oracle) (s : AppState) (side : Side) (pgn : String) :
    AppState :=
  let currentTree := s.trees.get side
  let currentSelectedId := s.selected.get side
  let nextTree := parsePgnToTree o side pgn (some currentTree)
  { s with
    undo := s.undo.set side (capPush (s.undo.get side) ⟨currentTree, currentSelectedId⟩)
    trees := s.trees.set side nextTree
    selected := s.selected.set side
      (if (NodeMap.find? nextTree.nodes currentSelectedId).isSome
       then currentSelectedId else nextTree.rootId) }

theorem capPush_length_le (stack : List UndoSnapshot) (snap : UndoSnapshot) :
    (capPush stack snap).length ≤ 200 := by
  unfold capPush
  rw [List.length_drop]
  omega

theorem capPush_getLast? (stack : List UndoSnapshot) (snap : UndoSnapshot) :
    (capPush stack snap).getLast? = some snap := by
  unfold capPush
  rw [List.drop_append_of_le_length (by simp), List.getLast?_concat]

theorem capPush_eq_append (stack : List UndoSnapshot) (snap : UndoSnapshot)
    (h : stack.length < 200) : capPush stack snap = stack ++ [snap] := by
  unfold capPush
  have hz : (stack ++ [snap]).length - 200 = 0 := by simp; omega
  rw [hz, List.drop_zero]

theorem capPush_eq_dropOldest (stack : List UndoSnapshot) (snap : UndoSnapshot)
    (h : stack.length = 200) : capPush stack snap = stack.drop 1 ++ [snap] := by
  unfold capPush
  have h1 : (stack ++ [snap]).length - 200 = 1 := by simp [h]
  rw [h1, List.drop_append_of_le_length (by omega)]

/-! ## Claim C8 — undo history -/

/-- **C8.**  Undo history: (1) a pure cursor move, (2) a branch deletion,
(3) a move insertion and (4) a PGN import each push the pre-mutation
`(tree, cursor)` snapshot of the affected side onto that side's stack;
(5) the stack is capped at 200 — the push lands on top, below the cap it
is a plain append, and at the cap the oldest entry is dropped; (6) undo
pops the newest snapshot and restores both its fields atomically and
exactly as pushed (value equality; snapshots are immutable values, so
mutations between push and pop cannot alter them); (7) undo is a no-op on
an empty stack; (8) undo is disabled for a side with an active training
session; (9) undoing right after a cursor move restores the exact previous
state. -/
theorem C8_undo_history :
    (∀ (s : AppState) (side : Side) (nid : String),
      trainingActiveFor s side = false → s.selected.get side ≠ nid →
        (navigateToNode s side nid).undo.get side
            = capPush (s.undo.get side) ⟨s.trees.get side, s.selected.get side⟩ ∧
        (navigateToNode s side nid).selected.get side = nid ∧
        (navigateToNode s side nid).trees = s.trees) ∧
    (∀ (s : AppState) (side : Side) (n : MoveNode) (pid : String),
      trainingActiveFor s side = false →
      NodeMap.find? (s.trees.get side).nodes (s.selected.get side) = some n →
      n.parentId = some pid →
        (deleteLastMove s side).undo.get side
            = capPush (s.undo.get side) ⟨s.trees.get side, n.id⟩ ∧
        (deleteLastMove s side).trees.get side = removeBranch (s.trees.get side) n.id ∧
        (deleteLastMove s side).selected.get side = pid) ∧
    (∀ (o : Oracle) (s : AppState) (side : Side) (input : MoveInput)
        (tn : MoveTree × String),
      trainingActiveFor s side = false →
      makeMoveEdit o (s.trees.get side) (s.selected.get side) input = some tn →
        (makeMoveState o s side input).undo.get side
            = capPush (s.undo.get side) ⟨s.trees.get side, s.selected.get side⟩ ∧
        (makeMoveState o s side input).trees.get side = tn.1 ∧
        (makeMoveState o s side input).selected.get side = tn.2) ∧
    (∀ (o : Oracle) (s : AppState) (side : Side) (pgn : String),
      (importPgnCurrent o s side pgn).undo.get side
          = capPush (s.undo.get side) ⟨s.trees.get side, s.selected.get side⟩ ∧
      (importPgnCurrent o s side pgn).trees.get side
          = parsePgnToTree o side pgn (some (s.trees.get side))) ∧
    (∀ (stack : List UndoSnapshot) (snap : UndoSnapshot),
      (capPush stack snap).length ≤ 200 ∧
      (capPush stack snap).getLast? = some snap ∧
      (stack.length < 200 → capPush stack snap = stack ++ [snap]) ∧
      (stack.length = 200 → capPush stack snap = stack.drop 1 ++ [snap])) ∧
    (∀ (s : AppState) (side : Side) (st : List UndoSnapshot) (snap : UndoSnapshot),
      trainingActiveFor s side = false →
      s.undo.get side = st ++ [snap] →
        undoNavigation s side =
          { s with
            trees := s.trees.set side snap.tree
            selected := s.selected.set side snap.selectedNodeId
            undo := s.undo.set side st }) ∧
    (∀ (s : AppState) (side : Side),
      s.undo.get side = [] → undoNavigation s side = s) ∧
    (∀ (s : AppState) (side : Side) (session : TrainingSession),
      s.training = some session → session.side = side → undoNavigation s side = s) ∧
    (∀ (s : AppState) (side : Side) (nid : String),
      trainingActiveFor s side = false → s.selected.get side ≠ nid →
      (s.undo.get side).length < 200 →
        undoNavigation (navigateToNode s side nid) side = s) := by
  have hnav : ∀ (s : AppState) (side : Side) (nid : String),
      trainingActiveFor s side = false → s.selected.get side ≠ nid →
      navigateToNode s side nid =
        { s with
          undo := s.undo.set side
            (capPush (s.undo.get side) ⟨s.trees.get side, s.selected.get side⟩)
          selected := s.selected.set side nid } := by
    intro s side nid ht hne
    unfold navigateToNode
    rw [ht]
    simp only [Bool.false_eq_true, if_false]
    rw [if_neg hne]
  have hundo : ∀ (s : AppState) (side : Side) (st : List UndoSnapshot)
      (snap : UndoSnapshot),
      trainingActiveFor s side = false →
      s.undo.get side = st ++ [snap] →
      undoNavigation s side =
        { s with
          trees := s.trees.set side snap.tree
          selected := s.selected.set side snap.selectedNodeId
          undo := s.undo.set side st } := by
    intro s side st snap ht hstack
    unfold undoNavigation
    rw [ht]
    simp only [Bool.false_eq_true, if_false]
    rw [hstack, List.getLast?_concat]
    simp only [List.dropLast_concat]
  refine ⟨?_, ?_, ?_, ?_, ?_, hundo, ?_, ?_, ?_⟩
  · intro s side nid ht hne
    rw [hnav s side nid ht hne]
    exact ⟨BySide.get_set_self _ _ _, BySide.get_set_self _ _ _, rfl⟩
  · intro s side n pid ht hfind hpid
    unfold deleteLastMove
    rw [ht]
    simp only [Bool.false_eq_true, if_false]
    rw [hfind]
    dsimp only
    rw [hpid]
    exact ⟨BySide.get_set_self _ _ _, BySide.get_set_self _ _ _, BySide.get_set_self _ _ _⟩
  · intro o s side input tn ht hedit
    unfold makeMoveState
    rw [ht]
    simp only [Bool.false_eq_true, if_false]
    rw [hedit]
    exact ⟨BySide.get_set_self _ _ _, BySide.get_set_self _ _ _, BySide.get_set_self _ _ _⟩
  · intro o s side pgn
    unfold importPgnCurrent
    exact ⟨BySide.get_set_self _ _ _, BySide.get_set_self _ _ _⟩
  · intro stack snap
    exact ⟨capPush_length_le stack snap, capPush_getLast? stack snap,
      capPush_eq_append stack snap, capPush_eq_dropOldest stack snap⟩
  · intro s side hempty
    unfold undoNavigation
    rw [hempty]
    cases h : trainingActiveFor s side <;> simp
  · intro s side session hs hside
    unfold undoNavigation
    have : trainingActiveFor s side = true := by
      unfold trainingActiveFor
      rw [hs]
      simp [hside]
    rw [this]
    simp
  · intro s side nid ht hne hlen
    rw [hnav s side nid ht hne]
    have ht' : trainingActiveFor
        { s with
          undo := s.undo.set side
            (capPush (s.undo.get side) ⟨s.trees.get side, s.selected.get side⟩)
          selected := s.selected.set side nid } side = false := ht
    rw [hundo _ side (s.undo.get side) ⟨s.trees.get side, s.selected.get side⟩ ht'
      (by
        rw [BySide.get_set_self]
        exact capPush_eq_append _ _ hlen)]
    show ({ s with
        undo := (s.undo.set side
          (capPush (s.undo.get side) ⟨s.trees.get side, s.selected.get side⟩)).set side
            (s.undo.get side)
        selected := (s.selected.set side nid).set side (s.selected.get side)
        trees := s.trees.set side (s.trees.get side) } : AppState) = s
    have h1 : (s.undo.set side
        (capPush (s.undo.get side) ⟨s.trees.get side, s.selected.get side⟩)).set side
          (s.undo.get side) = s.undo.set side (s.undo.get side) := by
      cases side <;> rfl
    have h2 : (s.selected.set side nid).set side (s.selected.get side)
        = s.selected.set side (s.selected.get side) := by
      cases side <;> rfl
    rw [h1, h2, BySide.set_get_self, BySide.set_get_self, BySide.set_get_self]

/-- A concrete app state for the C8 witness. -/
def demoState : AppState :=
  { trees := ⟨exampleTree, createEmptyTree .black⟩
    selected := ⟨"n-2", "black-0"⟩
    undo := ⟨[], []⟩
    training := none }

/-- Witness for C8 at concrete inputs: a cursor move pushes the exact
pre-move snapshot, undo on the empty black stack is a no-op, and undo right
after the cursor move restores the exact starting state. -/
theorem C8_undo_history_witness :
    (trainingActiveFor demoState .white = false ∧
     demoState.selected.get .white ≠ "n-1" ∧
     ((navigateToNode demoState .white "n-1").undo.get .white
        = capPush (demoState.undo.get .white)
            ⟨demoState.trees.get .white, demoState.selected.get .white⟩ ∧
      (navigateToNode demoState .white "n-1").selected.get .white = "n-1" ∧
      (navigateToNode demoState .white "n-1").trees = demoState.trees)) ∧
    (demoState.undo.get .black = [] ∧ undoNavigation demoState .black = demoState) ∧
    (trainingActiveFor demoState .white = false ∧
     demoState.selected.get .white ≠ "n-1" ∧
     (demoState.undo.get .white).length < 200 ∧
     undoNavigation (navigateToNode demoState .white "n-1") .white = demoState) :=
  ⟨⟨rfl, by decide, C8_undo_history.1 demoState .white "n-1" rfl (by decide)⟩,
   ⟨rfl, C8_undo_history.2.2.2.2.2.2.1 demoState .black rfl⟩,
   ⟨rfl, by decide, by decide,
     C8_undo_history.2.2.2.2.2.2.2.2 demoState .white "n-1" rfl (by decide) (by decide)⟩⟩

/-! ## Reachability, depth certificates and the arborescence invariant -/

/-- Reachability between ids along `children` edges of a node map. -/
inductive MapReach (m : NodeMap) : String → String → Prop
  | refl (k) : MapReach m k k
  | step {a b c : String} (n : MoveNode) : MapReach m a b →
      NodeMap.find? m b = some n → c ∈ n.children → MapReach m a c

/-- Prepending one edge to a reachability path. -/
theorem mapReach_front {m : NodeMap} {a c k : String} (n : MoveNode)
    (hfind : NodeMap.find? m a = some n) (hc : c ∈ n.children)
    (h : MapReach m c k) : MapReach m a k := by
  induction h with
  | refl => exact MapReach.step n (MapReach.refl a) hfind hc
  | step n' hr hf hm ih => exact MapReach.step n' ih hf hm

/-- Deleting a key only removes reachability. -/
theorem mapReach_of_del {m : NodeMap} {h : String} {a k : String}
    (hr : MapReach (NodeMap.del m h) a k) : MapReach m a k := by
  induction hr with
  | refl => exact MapReach.refl _
  | step n hrest hf hm ih =>
    rename_i b c
    by_cases hb : b = h
    · subst hb
      rw [NodeMap.find?_del_self] at hf
      exact Option.noConfusion hf
    · rw [NodeMap.find?_del_ne _ _ _ hb] at hf
      exact MapReach.step n ih hf hm

theorem removeLoop_sub (m : NodeMap) (qu : List String) :
    ∀ k v, NodeMap.find? (removeLoop m qu) k = some v → NodeMap.find? m k = some v := by
  induction m, qu using removeLoop.induct with
  | case1 nodes => intro k v h; rw [removeLoop] at h; exact h
  | case2 nodes nodeId rest hfind ih =>
    intro k v h
    rw [removeLoop, hfind] at h
    exact ih k v h
  | case3 nodes nodeId rest node hfind ih =>
    intro k v h
    rw [removeLoop, hfind] at h
    have h2 := ih k v h
    by_cases hk : k = nodeId
    · subst hk
      rw [NodeMap.find?_del_self] at h2
      exact Option.noConfusion h2
    · rw [NodeMap.find?_del_ne _ _ _ hk] at h2
      exact h2

theorem removeLoop_none (m : NodeMap) (qu : List String) :
    ∀ k, NodeMap.find? m k = none → NodeMap.find? (removeLoop m qu) k = none := by
  intro k h
  cases hres : NodeMap.find? (removeLoop m qu) k with
  | none => rfl
  | some v =>
    have := removeLoop_sub m qu k v hres
    rw [h] at this
    exact Option.noConfusion this

theorem removeLoop_evict (m : NodeMap) (qu : List String) :
    ∀ q ∈ qu, NodeMap.find? (removeLoop m qu) q = none := by
  induction m, qu using removeLoop.induct with
  | case1 nodes => intro q hq; exact absurd hq (List.not_mem_nil q)
  | case2 nodes nodeId rest hfind ih =>
    intro q hq
    rw [removeLoop, hfind]
    rcases List.mem_cons.mp hq with hq | hq
    · subst hq
      exact removeLoop_none nodes rest q hfind
    · exact ih q hq
  | case3 nodes nodeId rest node hfind ih =>
    intro q hq
    rw [removeLoop, hfind]
    rcases List.mem_cons.mp hq with hq | hq
    · subst hq
      exact removeLoop_none _ _ q (NodeMap.find?_del_self nodes q)
    · exact ih q (List.mem_append.mpr (Or.inr hq))

theorem removeLoop_closure (m : NodeMap) (qu : List String) :
    ∀ p n c, NodeMap.find? (removeLoop m qu) p = none → NodeMap.find? m p = some n →
      c ∈ n.children → NodeMap.find? (removeLoop m qu) c = none := by
  induction m, qu using removeLoop.induct with
  | case1 nodes =>
    intro p n c hres hfind _
    rw [removeLoop] at hres
    rw [hres] at hfind
    exact Option.noConfusion hfind
  | case2 nodes nodeId rest hfind ih =>
    intro p n c hres hp hc
    rw [removeLoop, hfind] at hres ⊢
    exact ih p n c hres hp hc
  | case3 nodes nodeId rest node hfind ih =>
    intro p n c hres hp hc
    rw [removeLoop, hfind] at hres ⊢
    by_cases hpn : p = nodeId
    · subst hpn
      rw [hfind] at hp
      injection hp with hp
      subst hp
      exact removeLoop_evict _ _ c
        (List.mem_append.mpr (Or.inl (List.mem_reverse.mpr hc)))
    · exact ih p n c hres (by rw [NodeMap.find?_del_ne _ _ _ hpn]; exact hp) hc

theorem removeLoop_origin (m : NodeMap) (qu : List String) :
    ∀ k v, NodeMap.find? (removeLoop m qu) k = none → NodeMap.find? m k = some v →
      ∃ q ∈ qu, MapReach m q k := by
  induction m, qu using removeLoop.induct with
  | case1 nodes =>
    intro k v hres hfind
    rw [removeLoop] at hres
    rw [hres] at hfind
    exact Option.noConfusion hfind
  | case2 nodes nodeId rest hfind ih =>
    intro k v hres hk
    rw [removeLoop, hfind] at hres
    obtain ⟨q, hq, hr⟩ := ih k v hres hk
    exact ⟨q, List.mem_cons.mpr (Or.inr hq), hr⟩
  | case3 nodes nodeId rest node hfind ih =>
    intro k v hres hk
    rw [removeLoop, hfind] at hres
    by_cases hkn : k = nodeId
    · subst hkn
      exact ⟨k, List.mem_cons.mpr (Or.inl rfl), MapReach.refl k⟩
    · obtain ⟨q, hq, hr⟩ := ih k v hres
        (by rw [NodeMap.find?_del_ne _ _ _ hkn]; exact hk)
      rcases List.mem_append.mp hq with hq | hq
      · exact ⟨nodeId, List.mem_cons.mpr (Or.inl rfl),
          mapReach_front node hfind (List.mem_reverse.mp hq) (mapReach_of_del hr)⟩
      · exact ⟨q, List.mem_cons.mpr (Or.inr hq), mapReach_of_del hr⟩

/-- Everything reachable from an evicted id is evicted. -/
theorem removeLoop_reach_none (m : NodeMap) (qu : List String) :
    ∀ a c, MapReach m a c → NodeMap.find? (removeLoop m qu) a = none →
      NodeMap.find? (removeLoop m qu) c = none := by
  intro a c hr
  induction hr with
  | refl => intro h; exact h
  | step n hrest hf hm ih =>
    intro ha
    exact removeLoop_closure m qu _ n _ (ih ha) hf hm

/-- The arborescence invariant of a `MoveTree`: the root exists and has no
parent; every stored node records its own key as `id`; every `children`
entry names an existing node whose `parentId` points back; every recorded
`parentId` is listed among that parent's children; every node is reachable
from the root; children lists have no duplicates; a depth certificate rules
out cycles; and the `nextId` counter is ahead of every allocatable id. -/
structure TreeInv (t : MoveTree) : Prop where
  root_node : ∃ rn, NodeMap.find? t.nodes t.rootId = some rn ∧ rn.parentId = none
  ids : ∀ k n, NodeMap.find? t.nodes k = some n → n.id = k
  child_ok : ∀ k n c, NodeMap.find? t.nodes k = some n → c ∈ n.children →
    ∃ cn, NodeMap.find? t.nodes c = some cn ∧ cn.parentId = some k
  parent_listed : ∀ k n p, NodeMap.find? t.nodes k = some n → n.parentId = some p →
    ∃ pn, NodeMap.find? t.nodes p = some pn ∧ k ∈ pn.children
  reach : ∀ k n, NodeMap.find? t.nodes k = some n → MapReach t.nodes t.rootId k
  child_nodup : ∀ k n, NodeMap.find? t.nodes k = some n → n.children.Nodup
  depth_cert : ∃ dep : String → Nat, ∀ k n c, NodeMap.find? t.nodes k = some n →
    c ∈ n.children → dep c = dep k + 1
  fresh : FreshIds t

/-- A nontrivial reachability path ends with an edge from some node. -/
theorem mapReach_last {m : NodeMap} {a c : String} (hr : MapReach m a c) (hne : c ≠ a) :
    ∃ b n, MapReach m a b ∧ NodeMap.find? m b = some n ∧ c ∈ n.children := by
  cases hr with
  | refl => exact absurd rfl hne
  | step n hrest hf hm => exact ⟨_, n, hrest, hf, hm⟩

/-- A depth certificate makes depth monotone along reachability. -/
theorem mapReach_depth_le {m : NodeMap} {dep : String → Nat}
    (hdep : ∀ k n c, NodeMap.find? m k = some n → c ∈ n.children → dep c = dep k + 1)
    {a b : String} (hr : MapReach m a b) : dep a ≤ dep b := by
  induction hr with
  | refl => exact Nat.le_refl _
  | step n hrest hf hm ih =>
    have := hdep _ n _ hf hm
    omega

/-- With a depth certificate, a `children` entry never reaches back to the
node listing it. -/
theorem depth_no_cycle {m : NodeMap} {dep : String → Nat}
    (hdep : ∀ k n c, NodeMap.find? m k = some n → c ∈ n.children → dep c = dep k + 1)
    {k c : String} {n : MoveNode} (hf : NodeMap.find? m k = some n)
    (hc : c ∈ n.children) : ¬ MapReach m c k := by
  intro hr
  have h1 := hdep _ n _ hf hc
  have h2 := mapReach_depth_le hdep hr
  omega

/-- Old reachability transfers along a tree extension. -/
theorem mapReach_of_extends {t t' : MoveTree} (h : TreeExtends t t') {a k : String}
    (hr : MapReach t.nodes a k) : MapReach t'.nodes a k := by
  induction hr with
  | refl => exact MapReach.refl _
  | step n hrest hf hm ih =>
    obtain ⟨n', hf', hp⟩ := h.2 _ n hf
    obtain ⟨_, _, _, _, _, _, l, hl⟩ := hp
    exact MapReach.step n' ih hf' (by rw [hl]; exact List.mem_append.mpr (Or.inl hm))

/-- Under the invariant, only the root reaches the root. -/
theorem reach_root_eq {t : MoveTree} (inv : TreeInv t) {a : String}
    (hr : MapReach t.nodes a t.rootId) : a = t.rootId := by
  by_cases hne : t.rootId = a
  · exact hne.symm
  · obtain ⟨b, n, _, hf, hm⟩ := mapReach_last hr hne
    obtain ⟨cn, hcf, hcp⟩ := inv.child_ok _ n _ hf hm
    obtain ⟨rn, hrf, hrp⟩ := inv.root_node
    rw [hrf] at hcf
    injection hcf with hcf
    subst hcf
    rw [hrp] at hcp
    exact Option.noConfusion hcp

/-- Under the invariant, parents are unique: the same child id cannot be
listed by two different nodes. -/
theorem parent_unique {t : MoveTree} (inv : TreeInv t) {k1 k2 c : String}
    {n1 n2 : MoveNode} (h1 : NodeMap.find? t.nodes k1 = some n1)
    (h2 : NodeMap.find? t.nodes k2 = some n2)
    (hc1 : c ∈ n1.children) (hc2 : c ∈ n2.children) : k1 = k2 := by
  obtain ⟨cn1, hf1, hp1⟩ := inv.child_ok _ n1 _ h1 hc1
  obtain ⟨cn2, hf2, hp2⟩ := inv.child_ok _ n2 _ h2 hc2
  rw [hf1] at hf2
  injection hf2 with hf2
  subst hf2
  rw [hp1] at hp2
  injection hp2 with hp2

/-- Under the invariant, a non-root node's `parentId` is set and the parent
lists it. -/
theorem nonroot_has_parent {t : MoveTree} (inv : TreeInv t) {k : String}
    {n : MoveNode} (hf : NodeMap.find? t.nodes k = some n) (hne : k ≠ t.rootId) :
    ∃ p pn, n.parentId = some p ∧ NodeMap.find? t.nodes p = some pn ∧ k ∈ pn.children := by
  have hr := inv.reach _ n hf
  obtain ⟨b, bn, _, hbf, hbm⟩ := mapReach_last hr hne
  obtain ⟨cn, hcf, hcp⟩ := inv.child_ok _ bn _ hbf hbm
  rw [hf] at hcf
  injection hcf with hcf
  subst hcf
  obtain ⟨pn, hpf, hpm⟩ := inv.parent_listed _ n _ hf hcp
  exact ⟨b, pn, hcp, hpf, hpm⟩

theorem createEmptyTree_inv (side : Side) : TreeInv (createEmptyTree side) := by
  have hroot : NodeMap.find? (createEmptyTree side).nodes (createEmptyTree side).rootId =
      some { id := side.str ++ "-0", parentId := none, fen := "start", moveSan := none, moveUci := none, children := [] } := by
    show (if side.str ++ "-0" = side.str ++ "-0" then _ else _) = _
    rw [if_pos rfl]
  have hfind : ∀ k n, NodeMap.find? (createEmptyTree side).nodes k = some n →
      k = side.str ++ "-0" ∧ n = { id := side.str ++ "-0", parentId := none, fen := "start", moveSan := none, moveUci := none, children := [] } := by
    intro k n h
    simp only [createEmptyTree, NodeMap.find?] at h
    split at h
    · rename_i heq
      exact ⟨heq.symm, (Option.some_inj.mp h).symm⟩
    · exact Option.noConfusion h
  refine ⟨⟨_, hroot, rfl⟩, ?_, ?_, ?_, ?_, ?_, ⟨fun _ => 0, ?_⟩, createEmptyTree_fresh side⟩
  · intro k n h
    obtain ⟨hk, hn⟩ := hfind k n h
    rw [hk, hn]
  · intro k n c h hc
    obtain ⟨_, hn⟩ := hfind k n h
    rw [hn] at hc
    exact absurd hc (List.not_mem_nil c)
  · intro k n p h hp
    obtain ⟨_, hn⟩ := hfind k n h
    rw [hn] at hp
    exact Option.noConfusion hp
  · intro k n h
    obtain ⟨hk, _⟩ := hfind k n h
    rw [hk]
    exact MapReach.refl _
  · intro k n h
    obtain ⟨_, hn⟩ := hfind k n h
    rw [hn]
    exact List.nodup_nil
  · intro k n c h hc
    obtain ⟨_, hn⟩ := hfind k n h
    rw [hn] at hc
    exact absurd hc (List.not_mem_nil c)

/-- The common node-creation step of `ensureChildNode` and `makeMove`: a
fresh node is allocated under the counter, attached below `pk`, and appended
to `pk`'s children. -/
def insertChild (t : MoveTree) (pk : String) (parent : MoveNode) (res : MoveRes) : MoveTree :=
  let nodeId := createNodeId t
  let newNode : MoveNode := { id := nodeId, parentId := some pk, fen := res.fen, moveSan := some res.san, moveUci := some res.uci, children := [] }
  { t with
    nextId := t.nextId + 1
    nodes := NodeMap.set (NodeMap.set t.nodes nodeId newNode) pk
      { parent with children := parent.children ++ [nodeId] } }

theorem insertChild_inv (t : MoveTree) (inv : TreeInv t) (pk : String) (parent : MoveNode)
    (res : MoveRes) (hp : NodeMap.find? t.nodes pk = some parent) :
    TreeInv (insertChild t pk parent res) := by
  obtain ⟨dep, hdep⟩ := inv.depth_cert
  have hfresh : NodeMap.find? t.nodes (createNodeId t) = none :=
    inv.fresh t.nextId (Nat.le_refl _)
  have hpk_nid : pk ≠ createNodeId t := by
    intro h
    rw [h, hfresh] at hp
    exact Option.noConfusion hp
  have hchar : ∀ k, NodeMap.find? (insertChild t pk parent res).nodes k =
      if k = pk then some { parent with children := parent.children ++ [createNodeId t] }
      else if k = createNodeId t then some { id := createNodeId t, parentId := some pk, fen := res.fen, moveSan := some res.san, moveUci := some res.uci, children := [] }
      else NodeMap.find? t.nodes k := by
    intro k
    simp only [insertChild]
    by_cases hk : k = pk
    · subst hk
      rw [if_pos rfl, NodeMap.find?_set_self]
    · rw [if_neg hk, NodeMap.find?_set_ne _ _ _ _ hk]
      by_cases hk2 : k = createNodeId t
      · subst hk2
        rw [if_pos rfl, NodeMap.find?_set_self]
      · rw [if_neg hk2, NodeMap.find?_set_ne _ _ _ _ hk2]
  have hrootC : (insertChild t pk parent res).rootId = t.rootId := rfl
  have hnid_not_child : ∀ k n c, NodeMap.find? t.nodes k = some n → c ∈ n.children →
      c ≠ createNodeId t := by
    intro k n c hk hc hcontra
    obtain ⟨cn, hcf, _⟩ := inv.child_ok _ n _ hk hc
    rw [hcontra, hfresh] at hcf
    exact Option.noConfusion hcf
  have hpk_not_self : pk ∉ parent.children := by
    intro hmem
    obtain ⟨cn, hcf, hcp⟩ := inv.child_ok _ parent _ hp hmem
    have := hdep _ parent _ hp hmem
    omega
  have hedge : ∀ b n c, NodeMap.find? t.nodes b = some n → c ∈ n.children →
      ∃ n', NodeMap.find? (insertChild t pk parent res).nodes b = some n' ∧
        c ∈ n'.children := by
    intro b n c hb hc
    by_cases hbpk : b = pk
    · subst hbpk
      rw [hp] at hb
      injection hb with hb
      subst hb
      refine ⟨_, by rw [hchar, if_pos rfl], ?_⟩
      exact List.mem_append.mpr (Or.inl hc)
    · have hbn : b ≠ createNodeId t := by
        intro h
        rw [h, hfresh] at hb
        exact Option.noConfusion hb
      exact ⟨n, by rw [hchar, if_neg hbpk, if_neg hbn]; exact hb, hc⟩
  have hreachT : ∀ a k, MapReach t.nodes a k →
      MapReach (insertChild t pk parent res).nodes a k := by
    intro a k hr
    induction hr with
    | refl => exact MapReach.refl _
    | step n hrest hf hm ih =>
      obtain ⟨n', hf', hm'⟩ := hedge _ n _ hf hm
      exact MapReach.step n' ih hf' hm'
  refine ⟨?_, ?_, ?_, ?_, ?_, ?_, ?_, ?_⟩
  · obtain ⟨rn, hrf, hrp⟩ := inv.root_node
    rw [hrootC]
    by_cases hr : t.rootId = pk
    · rw [hr] at hrf
      rw [hp] at hrf
      injection hrf with hrf
      refine ⟨_, by rw [hchar, hr, if_pos rfl], ?_⟩
      show parent.parentId = none
      rw [hrf]
      exact hrp
    · have hrn : t.rootId ≠ createNodeId t := by
        intro h
        rw [h, hfresh] at hrf
        exact Option.noConfusion hrf
      exact ⟨rn, by rw [hchar, if_neg hr, if_neg hrn]; exact hrf, hrp⟩
  · intro k n h
    rw [hchar] at h
    by_cases hk : k = pk
    · rw [if_pos hk] at h
      injection h with h
      rw [← h]
      show parent.id = k
      rw [hk]
      exact inv.ids _ _ hp
    · rw [if_neg hk] at h
      by_cases hk2 : k = createNodeId t
      · rw [if_pos hk2] at h
        injection h with h
        rw [← h, hk2]
      · rw [if_neg hk2] at h
        exact inv.ids _ _ h
  · intro k n c h hc
    rw [hchar] at h
    by_cases hk : k = pk
    · rw [if_pos hk] at h
      injection h with h
      rw [← h] at hc
      rcases List.mem_append.mp hc with hc | hc
      · obtain ⟨cn, hcf, hcp⟩ := inv.child_ok _ parent _ hp hc
        have hcnid : c ≠ createNodeId t := hnid_not_child _ parent _ hp hc
        have hcpk : c ≠ pk := fun he => hpk_not_self (he ▸ hc)
        refine ⟨cn, ?_, by rw [hcp, hk]⟩
        rw [hchar, if_neg hcpk, if_neg hcnid]
        exact hcf
      · rw [List.mem_singleton.mp hc]
        refine ⟨_, by rw [hchar, if_neg (Ne.symm hpk_nid), if_pos rfl], ?_⟩
        show some pk = some k
        rw [hk]
    · rw [if_neg hk] at h
      by_cases hk2 : k = createNodeId t
      · rw [if_pos hk2] at h
        injection h with h
        rw [← h] at hc
        exact absurd hc (List.not_mem_nil c)
      · rw [if_neg hk2] at h
        obtain ⟨cn, hcf, hcp⟩ := inv.child_ok _ n _ h hc
        have hcnid : c ≠ createNodeId t := hnid_not_child _ n _ h hc
        by_cases hcpk : c = pk
        · rw [hcpk, hp] at hcf
          injection hcf with hcf
          refine ⟨_, by rw [hchar, hcpk, if_pos rfl], ?_⟩
          show parent.parentId = some k
          rw [hcf]
          exact hcp
        · exact ⟨cn, by rw [hchar, if_neg hcpk, if_neg hcnid]; exact hcf, hcp⟩
  · intro k n p h hpar
    rw [hchar] at h
    by_cases hk : k = pk
    · rw [if_pos hk] at h
      injection h with h
      rw [← h] at hpar
      have hpar' : parent.parentId = some p := hpar
      obtain ⟨pn, hpf, hpm⟩ := inv.parent_listed _ parent _ hp hpar'
      have hpnid : p ≠ createNodeId t := by
        intro he
        rw [he, hfresh] at hpf
        exact Option.noConfusion hpf
      have hppk : p ≠ pk := by
        intro he
        rw [he, hp] at hpf
        injection hpf with hpf
        rw [← hpf] at hpm
        exact hpk_not_self hpm
      refine ⟨pn, by rw [hchar, if_neg hppk, if_neg hpnid]; exact hpf, ?_⟩
      rw [hk]
      exact hpm
    · rw [if_neg hk] at h
      by_cases hk2 : k = createNodeId t
      · rw [if_pos hk2] at h
        injection h with h
        rw [← h] at hpar
        have hppk : p = pk := by
          have : some pk = some p := hpar
          injection this with this
          exact this.symm
        subst hppk
        refine ⟨_, by rw [hchar, if_pos rfl], ?_⟩
        rw [hk2]
        exact List.mem_append.mpr (Or.inr (List.mem_singleton.mpr rfl))
      · rw [if_neg hk2] at h
        obtain ⟨pn, hpf, hpm⟩ := inv.parent_listed _ n _ h hpar
        have hpnid : p ≠ createNodeId t := by
          intro he
          rw [he, hfresh] at hpf
          exact Option.noConfusion hpf
        by_cases hppk : p = pk
        · rw [hppk, hp] at hpf
          injection hpf with hpf
          refine ⟨_, by rw [hchar, hppk, if_pos rfl], ?_⟩
          show k ∈ parent.children ++ [createNodeId t]
          rw [← hpf] at hpm
          exact List.mem_append.mpr (Or.inl hpm)
        · exact ⟨pn, by rw [hchar, if_neg hppk, if_neg hpnid]; exact hpf, hpm⟩
  · intro k n h
    rw [hrootC]
    rw [hchar] at h
    by_cases hk : k = pk
    · subst hk
      exact hreachT _ _ (inv.reach _ parent hp)
    · by_cases hk2 : k = createNodeId t
      · subst hk2
        exact MapReach.step { parent with children := parent.children ++ [createNodeId t] }
          (hreachT _ _ (inv.reach _ parent hp)) (by rw [hchar, if_pos rfl])
          (List.mem_append.mpr (Or.inr (List.mem_singleton.mpr rfl)))
      · rw [if_neg hk, if_neg hk2] at h
        exact hreachT _ _ (inv.reach _ n h)
  · intro k n h
    rw [hchar] at h
    by_cases hk : k = pk
    · rw [if_pos hk] at h
      injection h with h
      rw [← h]
      show (parent.children ++ [createNodeId t]).Nodup
      rw [List.nodup_append]
      refine ⟨inv.child_nodup _ parent hp, List.nodup_singleton _, ?_⟩
      intro a ha hb
      rw [List.mem_singleton.mp hb] at ha
      exact hnid_not_child _ parent _ hp ha rfl
    · rw [if_neg hk] at h
      by_cases hk2 : k = createNodeId t
      · rw [if_pos hk2] at h
        injection h with h
        rw [← h]
        exact List.nodup_nil
      · rw [if_neg hk2] at h
        exact inv.child_nodup _ n h
  · refine ⟨fun x => if x = createNodeId t then dep pk + 1 else dep x, ?_⟩
    intro k n c h hc
    dsimp only
    rw [hchar] at h
    by_cases hk : k = pk
    · rw [if_pos hk] at h
      injection h with h
      rw [← h] at hc
      rcases List.mem_append.mp hc with hc | hc
      · have hcnid : c ≠ createNodeId t := hnid_not_child _ parent _ hp hc
        rw [if_neg hcnid, if_neg (hk ▸ hpk_nid : k ≠ createNodeId t)]
        rw [hk]
        exact hdep _ parent _ hp hc
      · rw [List.mem_singleton.mp hc, if_pos rfl,
          if_neg (hk ▸ hpk_nid : k ≠ createNodeId t), hk]
    · rw [if_neg hk] at h
      by_cases hk2 : k = createNodeId t
      · rw [if_pos hk2] at h
        injection h with h
        rw [← h] at hc
        exact absurd hc (List.not_mem_nil c)
      · rw [if_neg hk2] at h
        have hcnid : c ≠ createNodeId t := hnid_not_child _ n _ h hc
        rw [if_neg hcnid, if_neg hk2]
        exact hdep _ n _ h hc
  · intro mm hmm
    have hmm' : t.nextId + 1 ≤ mm := hmm
    have hmold : t.nextId ≤ mm := by omega
    have h1 : ("n-" ++ Nat.repr mm) ≠ pk := by
      intro he
      have := inv.fresh mm hmold
      rw [he, hp] at this
      exact Option.noConfusion this
    have h2 : ("n-" ++ Nat.repr mm) ≠ createNodeId t := by
      unfold createNodeId
      exact createNodeId_inj_of_ne (by omega)
    rw [hchar, if_neg h1, if_neg h2]
    exact inv.fresh mm hmold

theorem ensureChildNode_inv (t : MoveTree) (p : String) (r : MoveRes) (inv : TreeInv t) :
    TreeInv (ensureChildNode t p r).1 := by
  unfold ensureChildNode
  split
  · exact inv
  · rename_i parent hp
    split
    · exact inv
    · exact insertChild_inv t inv p parent r hp

theorem parseSequence_inv (o : Oracle) :
    ∀ (fuel : Nat) (t : MoveTree) (fen nodeId : String) (toks : List String)
      (lb : Option (String × String)) (stop : Bool),
      TreeInv t → TreeInv (parseSequence o fuel t fen nodeId toks lb stop).1 := by
  intro fuel
  induction fuel with
  | zero =>
    intro t fen nodeId toks lb stop inv
    exact inv
  | succ f ih =>
    intro t fen nodeId toks lb stop inv
    cases toks with
    | nil => exact inv
    | cons token rest =>
      simp only [parseSequence]
      split
      · split
        · exact inv
        · exact ih t fen nodeId rest lb stop inv
      · split
        · exact ih _ fen nodeId _ lb stop
            (ih t (lb.getD (fen, nodeId)).1 (lb.getD (fen, nodeId)).2 rest none true inv)
        · split
          · exact ih t fen nodeId rest lb stop inv
          · split
            · exact ih t fen nodeId rest lb stop inv
            · rename_i san hs
              split
              · exact ih t fen nodeId rest lb stop inv
              · rename_i res hm
                exact ih (ensureChildNode t nodeId res).1 res.fen
                  (ensureChildNode t nodeId res).2 rest (some (fen, nodeId)) stop
                  (ensureChildNode_inv t nodeId res inv)

theorem parsePgnChunkIntoTree_inv (o : Oracle) (t : MoveTree) (chunk : String)
    (inv : TreeInv t) : TreeInv (parsePgnChunkIntoTree o t chunk) := by
  simp only [parsePgnChunkIntoTree]
  split
  · exact inv
  · split
    · exact inv
    · exact parseSequence_inv o _ t o.startFen t.rootId _ none false inv

theorem parsePgnToTree_inv (o : Oracle) (side : Side) (pgn : String)
    (init : Option MoveTree) (hinit : ∀ t0, init = some t0 → TreeInv t0) :
    TreeInv (parsePgnToTree o side pgn init) := by
  have hbase : TreeInv (init.getD (createEmptyTree side)) := by
    cases init with
    | none => exact createEmptyTree_inv side
    | some t0 => exact hinit t0 rfl
  simp only [parsePgnToTree]
  split
  · exact hbase
  · generalize init.getD (createEmptyTree side) = base at hbase
    generalize splitPgnGames pgn = chunks
    induction chunks generalizing base with
    | nil => exact hbase
    | cons c cs ihc =>
      simp only [List.foldl_cons]
      exact ihc (parsePgnChunkIntoTree o base c) (parsePgnChunkIntoTree_inv o base c hbase)

theorem makeMoveEdit_inv (o : Oracle) (t : MoveTree) (sel : String) (input : MoveInput)
    (inv : TreeInv t) :
    ∀ tn, makeMoveEdit o t sel input = some tn → TreeInv tn.1 := by
  intro tn h
  unfold makeMoveEdit at h
  dsimp only at h
  split at h
  · exact Option.noConfusion h
  · rename_i cn hcn
    have hid : NodeMap.find? t.nodes cn.id = some cn := by
      split at hcn
      · rename_i n hn
        injection hcn with hcn
        subst hcn
        rw [inv.ids _ _ hn]
        exact hn
      · rw [inv.ids _ _ hcn]
        exact hcn
    split at h
    · exact Option.noConfusion h
    · rename_i res hres
      split at h
      · split at h
        · exact Option.noConfusion h
        · injection h with h
          subst h
          exact inv
      · split at h
        · exact Option.noConfusion h
        · injection h with h
          subst h
          exact insertChild_inv t inv cn.id cn res hid

/-- The final pruning step of `removeBranch`: drop the removed branch id
from the former parent's children list. -/
def pruneChild (m : NodeMap) (pn : MoveNode) (bid : String) : NodeMap :=
  NodeMap.set m pn.id { pn with children := pn.children.filter (fun id => id != bid) }

theorem removeBranch_inv_aux (t : MoveTree) (inv : TreeInv t) (bid P : String)
    (branchRoot parentN : MoveNode)
    (hb : NodeMap.find? t.nodes bid = some branchRoot)
    (hP : branchRoot.parentId = some P)
    (hPN : NodeMap.find? (removeLoop t.nodes [bid]) P = some parentN) :
    TreeInv { t with nodes := pruneChild (removeLoop t.nodes [bid]) parentN bid } := by
  obtain ⟨dep, hdep⟩ := inv.depth_cert
  have hPold : NodeMap.find? t.nodes P = some parentN := removeLoop_sub _ _ P parentN hPN
  have hidP : parentN.id = P := inv.ids _ _ hPold
  obtain ⟨pn0, hpf0, hpm0⟩ := inv.parent_listed _ branchRoot _ hb hP
  have hpn0 : pn0 = parentN := by
    rw [hPold] at hpf0
    injection hpf0 with h
    exact h.symm
  have hpmB : bid ∈ parentN.children := hpn0 ▸ hpm0
  have hdepB : dep bid = dep P + 1 := hdep _ parentN _ hPold hpmB
  have hnoBP : ¬ MapReach t.nodes bid P := by
    intro hr
    have := mapReach_depth_le hdep hr
    omega
  have hBev : NodeMap.find? (removeLoop t.nodes [bid]) bid = none :=
    removeLoop_evict _ _ bid (List.mem_singleton.mpr rfl)
  have hdel_iff : ∀ c cn, NodeMap.find? t.nodes c = some cn →
      (NodeMap.find? (removeLoop t.nodes [bid]) c = none ↔ MapReach t.nodes bid c) := by
    intro c cn hc
    constructor
    · intro hn
      obtain ⟨q, hq, hr⟩ := removeLoop_origin _ _ c cn hn hc
      rw [List.mem_singleton.mp hq] at hr
      exact hr
    · intro hr
      exact removeLoop_reach_none _ _ bid c hr hBev
  have hchar : ∀ k, NodeMap.find? (pruneChild (removeLoop t.nodes [bid]) parentN bid) k =
      if k = P then some { parentN with children := parentN.children.filter (fun id => id != bid) }
      else NodeMap.find? (removeLoop t.nodes [bid]) k := by
    intro k
    unfold pruneChild
    rw [hidP]
    by_cases hk : k = P
    · subst hk
      rw [if_pos rfl, NodeMap.find?_set_self]
    · rw [if_neg hk, NodeMap.find?_set_ne _ _ _ _ hk]
  have hsurv : ∀ k w, NodeMap.find? t.nodes k = some w → ¬ MapReach t.nodes bid k →
      k ≠ P → NodeMap.find? (pruneChild (removeLoop t.nodes [bid]) parentN bid) k = some w := by
    intro k w hk hnr hkP
    rw [hchar, if_neg hkP]
    cases hres : NodeMap.find? (removeLoop t.nodes [bid]) k with
    | none => exact absurd ((hdel_iff k w hk).mp hres) hnr
    | some v =>
      have := removeLoop_sub _ _ k v hres
      rw [hk] at this
      injection this with this
      rw [this]
  have hm2val : ∀ k v, NodeMap.find? (pruneChild (removeLoop t.nodes [bid]) parentN bid) k
      = some v →
      (k = P ∧ v = { parentN with children := parentN.children.filter (fun id => id != bid) }) ∨
      (k ≠ P ∧ NodeMap.find? t.nodes k = some v ∧
        NodeMap.find? (removeLoop t.nodes [bid]) k = some v) := by
    intro k v hk
    rw [hchar] at hk
    by_cases hkP : k = P
    · rw [if_pos hkP] at hk
      injection hk with hk
      exact Or.inl ⟨hkP, hk.symm⟩
    · rw [if_neg hkP] at hk
      exact Or.inr ⟨hkP, removeLoop_sub _ _ k v hk, hk⟩
  have hnoreach : ∀ k v, NodeMap.find? (pruneChild (removeLoop t.nodes [bid]) parentN bid) k
      = some v → ¬ MapReach t.nodes bid k := by
    intro k v hk
    rcases hm2val k v hk with ⟨hkP, _⟩ | ⟨_, hkold, hk1⟩
    · rw [hkP]
      exact hnoBP
    · intro hr
      rw [(hdel_iff k _ hkold).mpr hr] at hk1
      exact Option.noConfusion hk1
  have honlyP : ∀ k n, NodeMap.find? t.nodes k = some n → bid ∈ n.children → k = P := by
    intro k n hk hmem
    obtain ⟨cn, hcf, hcp⟩ := inv.child_ok _ n _ hk hmem
    rw [hb] at hcf
    injection hcf with hcf
    rw [← hcf, hP] at hcp
    injection hcp with hcp
    exact hcp.symm
  have hclosure_up : ∀ k n c, NodeMap.find? t.nodes k = some n → c ∈ n.children →
      c ≠ bid → MapReach t.nodes bid c → MapReach t.nodes bid k := by
    intro k n c hk hc hcb hr
    obtain ⟨b2, n2, hr2, hf2, hm2⟩ := mapReach_last hr hcb
    have hbe : b2 = k := parent_unique inv hf2 hk hm2 hc
    rw [hbe] at hr2
    exact hr2
  have hPself : P ∉ parentN.children := by
    intro hmem
    have := hdep _ parentN _ hPold hmem
    omega
  have htrans : ∀ k, MapReach t.nodes t.rootId k → ¬ MapReach t.nodes bid k →
      MapReach (pruneChild (removeLoop t.nodes [bid]) parentN bid) t.rootId k := by
    intro k hr
    induction hr with
    | refl => intro _; exact MapReach.refl _
    | step n2 hrest hf hm ih =>
      rename_i b c
      intro hnc
      have hcb : c ≠ bid := fun he => hnc (he ▸ MapReach.refl _)
      have hnb : ¬ MapReach t.nodes bid b := fun hrb => hnc (MapReach.step n2 hrb hf hm)
      have hb2 := ih hnb
      by_cases hbP : b = P
      · have hn2 : n2 = parentN := by
          rw [hbP, hPold] at hf
          injection hf with hf
          exact hf.symm
        refine MapReach.step _ hb2 (by rw [hchar, if_pos hbP]) ?_
        rw [List.mem_filter]
        exact ⟨hn2 ▸ hm, bne_iff_ne.mpr hcb⟩
      · exact MapReach.step n2 hb2 (hsurv b n2 hf hnb hbP) hm
  refine ⟨?_, ?_, ?_, ?_, ?_, ?_, ?_, ?_⟩
  · obtain ⟨rn, hrf, hrp⟩ := inv.root_node
    have hroot_nb : ¬ MapReach t.nodes bid t.rootId := by
      intro hr
      have heq := reach_root_eq inv hr
      rw [heq, hrf] at hb
      injection hb with hb
      rw [← hb, hrp] at hP
      exact Option.noConfusion hP
    show ∃ rn', NodeMap.find? (pruneChild (removeLoop t.nodes [bid]) parentN bid) t.rootId
      = some rn' ∧ rn'.parentId = none
    by_cases hrP : t.rootId = P
    · refine ⟨_, by rw [hchar, if_pos hrP], ?_⟩
      show parentN.parentId = none
      rw [hrP, hPold] at hrf
      injection hrf with hrf
      rw [hrf]
      exact hrp
    · exact ⟨rn, hsurv _ rn hrf hroot_nb hrP, hrp⟩
  · intro k n h
    rcases hm2val k n h with ⟨hkP, hv⟩ | ⟨_, hkold, _⟩
    · rw [hv]
      show parentN.id = k
      rw [hidP, hkP]
    · exact inv.ids _ _ hkold
  · intro k n c h hc
    rcases hm2val k n h with ⟨hkP, hv⟩ | ⟨hkP, hkold, hk1⟩
    · rw [hv] at hc
      have hc' : c ∈ parentN.children.filter (fun id => id != bid) := hc
      rw [List.mem_filter] at hc'
      obtain ⟨hcmem, hcneb'⟩ := hc'
      have hcneb : c ≠ bid := bne_iff_ne.mp hcneb'
      obtain ⟨cn, hcf, hcp⟩ := inv.child_ok _ parentN _ hPold hcmem
      have hcnr : ¬ MapReach t.nodes bid c := by
        intro hr
        exact hnoBP (hclosure_up P parentN c hPold hcmem hcneb hr)
      have hcP : c ≠ P := by
        intro he
        rw [he] at hcmem
        exact hPself hcmem
      refine ⟨cn, hsurv c cn hcf hcnr hcP, ?_⟩
      rw [hcp, hkP]
    · obtain ⟨cn, hcf, hcp⟩ := inv.child_ok _ n _ hkold hc
      have hcneb : c ≠ bid := by
        intro he
        exact hkP (honlyP k n hkold (he ▸ hc))
      have hcnr : ¬ MapReach t.nodes bid c := by
        intro hr
        have hrk := hclosure_up k n c hkold hc hcneb hr
        rw [(hdel_iff k _ hkold).mpr hrk] at hk1
        exact Option.noConfusion hk1
      by_cases hcP : c = P
      · have hcn : cn = parentN := by
          rw [hcP, hPold] at hcf
          injection hcf with hcf
          exact hcf.symm
        refine ⟨_, by rw [hchar, if_pos hcP], ?_⟩
        show parentN.parentId = some k
        rw [← hcn]
        exact hcp
      · exact ⟨cn, hsurv c cn hcf hcnr hcP, hcp⟩
  · intro k n p h hpar
    rcases hm2val k n h with ⟨hkP, hv⟩ | ⟨hkP, hkold, hk1⟩
    · rw [hv] at hpar
      have hpar' : parentN.parentId = some p := hpar
      obtain ⟨pn2, hpf2, hpm2⟩ := inv.parent_listed _ parentN _ hPold hpar'
      have hpnr : ¬ MapReach t.nodes bid p := by
        intro hr
        exact hnoBP (MapReach.step pn2 hr hpf2 (hkP ▸ hpm2))
      have hpP : p ≠ P := by
        intro he
        rw [he, hPold] at hpf2
        injection hpf2 with hpf2
        rw [← hpf2] at hpm2
        exact hPself hpm2
      refine ⟨pn2, hsurv p pn2 hpf2 hpnr hpP, ?_⟩
      rw [hkP]
      exact hpm2
    · obtain ⟨pn2, hpf2, hpm2⟩ := inv.parent_listed _ n _ hkold hpar
      have hpnr : ¬ MapReach t.nodes bid p := by
        intro hr
        have hrk : MapReach t.nodes bid k := MapReach.step pn2 hr hpf2 hpm2
        rw [(hdel_iff k _ hkold).mpr hrk] at hk1
        exact Option.noConfusion hk1
      by_cases hpP : p = P
      · have hpn2 : pn2 = parentN := by
          rw [hpP, hPold] at hpf2
          injection hpf2 with hpf2
          exact hpf2.symm
        refine ⟨_, by rw [hchar, if_pos hpP], ?_⟩
        show k ∈ parentN.children.filter (fun id => id != bid)
        rw [List.mem_filter]
        refine ⟨hpn2 ▸ hpm2, bne_iff_ne.mpr ?_⟩
        intro he
        rw [he, hBev] at hk1
        exact Option.noConfusion hk1
      · exact ⟨pn2, hsurv p pn2 hpf2 hpnr hpP, hpm2⟩
  · intro k n h
    have hnr := hnoreach k n h
    rcases hm2val k n h with ⟨hkP, _⟩ | ⟨_, hkold, _⟩
    · exact htrans k (hkP ▸ inv.reach _ parentN hPold) hnr
    · exact htrans k (inv.reach _ n hkold) hnr
  · intro k n h
    rcases hm2val k n h with ⟨_, hv⟩ | ⟨_, hkold, _⟩
    · rw [hv]
      show (parentN.children.filter (fun id => id != bid)).Nodup
      exact (inv.child_nodup _ parentN hPold).filter _
    · exact inv.child_nodup _ n hkold
  · refine ⟨dep, ?_⟩
    intro k n c h hc
    rcases hm2val k n h with ⟨hkP, hv⟩ | ⟨_, hkold, _⟩
    · rw [hv] at hc
      have hc' : c ∈ parentN.children.filter (fun id => id != bid) := hc
      rw [List.mem_filter] at hc'
      rw [hkP]
      exact hdep _ parentN _ hPold hc'.1
    · exact hdep _ n _ hkold hc
  · intro mm hmm
    have hmm' : t.nextId ≤ mm := hmm
    have hold := inv.fresh mm hmm'
    have hne : ("n-" ++ Nat.repr mm) ≠ P := by
      intro he
      rw [he, hPold] at hold
      exact Option.noConfusion hold
    show NodeMap.find? (pruneChild (removeLoop t.nodes [bid]) parentN bid)
      ("n-" ++ Nat.repr mm) = none
    rw [hchar, if_neg hne]
    cases hres : NodeMap.find? (removeLoop t.nodes [bid]) ("n-" ++ Nat.repr mm) with
    | none => rfl
    | some v =>
      have := removeLoop_sub _ _ _ v hres
      rw [hold] at this
      exact Option.noConfusion this

theorem removeBranch_inv (t : MoveTree) (bid : String) (inv : TreeInv t) :
    TreeInv (removeBranch t bid) := by
  unfold removeBranch
  split
  · exact inv
  · rename_i branchRoot hb
    split
    · exact inv
    · rename_i P hP
      obtain ⟨pn0, hpf0, hpm0⟩ := inv.parent_listed _ branchRoot _ hb hP
      obtain ⟨dep, hdep⟩ := inv.depth_cert
      have hnoBP : ¬ MapReach t.nodes bid P := by
        intro hr
        have h1 := mapReach_depth_le hdep hr
        have h2 := hdep _ pn0 _ hpf0 hpm0
        omega
      dsimp only
      split
      · rename_i hnone
        exfalso
        obtain ⟨q, hq, hr⟩ := removeLoop_origin _ _ P pn0 hnone hpf0
        rw [List.mem_singleton.mp hq] at hr
        exact hnoBP hr
      · rename_i parentN hPN
        exact removeBranch_inv_aux t inv bid P branchRoot parentN hb hP hPN

/-- The trees reachable by the app's core tree operations: empty-tree
creation, PGN parse/merge (with or without an initial tree), move insertion
(`makeMove`'s edit path) and branch removal. -/
inductive ReachableTree (o : Oracle) : MoveTree → Prop
  | empty (side : Side) : ReachableTree o (createEmptyTree side)
  | parseNew (side : Side) (pgn : String) :
      ReachableTree o (parsePgnToTree o side pgn none)
  | parse (side : Side) (pgn : String) (t : MoveTree) : ReachableTree o t →
      ReachableTree o (parsePgnToTree o side pgn (some t))
  | move (t : MoveTree) (sel : String) (input : MoveInput) (tn : MoveTree × String) :
      ReachableTree o t → makeMoveEdit o t sel input = some tn → ReachableTree o tn.1
  | remove (t : MoveTree) (bid : String) : ReachableTree o t →
      ReachableTree o (removeBranch t bid)

theorem reachableTree_inv {o : Oracle} {t : MoveTree} (h : ReachableTree o t) :
    TreeInv t := by
  induction h with
  | empty side => exact createEmptyTree_inv side
  | parseNew side pgn =>
    exact parsePgnToTree_inv o side pgn none (fun t0 h0 => Option.noConfusion h0)
  | parse side pgn t _ ih =>
    exact parsePgnToTree_inv o side pgn (some t)
      (fun t0 h0 => by injection h0 with h0; rw [← h0]; exact ih)
  | move t sel input tn _ hm ih => exact makeMoveEdit_inv o t sel input ih tn hm
  | remove t bid _ ih => exact removeBranch_inv t bid ih

/-- **C3.**  Arborescence invariant: for every tree reachable by any
sequence of the core operations (empty-tree creation, PGN parse/merge,
move insertion, branch removal), every stored node is reachable from the
root along `children` edges (no orphans); every id listed in a node's
`children` names an existing node whose `parentId` equals that node's key;
every non-root node has a parent that lists it, and that parent is unique;
children lists hold no duplicates; and no `children` entry reaches back to
the node listing it (no cycles). -/
theorem C3_arborescence (o : Oracle) (t : MoveTree) (h : ReachableTree o t) :
    (∀ k n, NodeMap.find? t.nodes k = some n → MapReach t.nodes t.rootId k) ∧
    (∀ k n c, NodeMap.find? t.nodes k = some n → c ∈ n.children →
      ∃ cn, NodeMap.find? t.nodes c = some cn ∧ cn.parentId = some k) ∧
    (∀ k n, NodeMap.find? t.nodes k = some n → k ≠ t.rootId →
      ∃ p pn, n.parentId = some p ∧ NodeMap.find? t.nodes p = some pn ∧ k ∈ pn.children) ∧
    (∀ k1 k2 c n1 n2, NodeMap.find? t.nodes k1 = some n1 →
      NodeMap.find? t.nodes k2 = some n2 → c ∈ n1.children → c ∈ n2.children → k1 = k2) ∧
    (∀ k n, NodeMap.find? t.nodes k = some n → n.children.Nodup) ∧
    (∀ k n c, NodeMap.find? t.nodes k = some n → c ∈ n.children →
      ¬ MapReach t.nodes c k) := by
  have inv := reachableTree_inv h
  obtain ⟨dep, hdep⟩ := inv.depth_cert
  refine ⟨inv.reach, inv.child_ok, ?_, ?_, inv.child_nodup, ?_⟩
  · intro k n hk hne
    exact nonroot_has_parent inv hk hne
  · intro k1 k2 c n1 n2 h1 h2 hc1 hc2
    exact parent_unique inv h1 h2 hc1 hc2
  · intro k n c hk hc
    exact depth_no_cycle hdep hk hc

/-- **C3 — witness.**  The empty white tree is reachable and its root node
satisfies the invariant concretely: it is (trivially) reachable from the
root. -/
theorem C3_arborescence_witness :
    MapReach (createEmptyTree Side.white).nodes (createEmptyTree Side.white).rootId
      "white-0" :=
  (C3_arborescence demoOracle (createEmptyTree Side.white)
    (ReachableTree.empty Side.white)).1 "white-0"
    { id := "white-0", parentId := none, fen := "start", moveSan := none,
      moveUci := none, children := [] } (by decide)

/-! ## Claim C4 — round trip: supporting development

The export/import round trip is proved by (i) relating the exported string
back to a flat token stream, (ii) relating the parser's run on that stream
to a pure recursive copying function, and (iii) relating the copy's
root-to-leaf notation sequences to the original tree's. -/

theorem parseSequence_suffix_le (o : Oracle) :
    ∀ (fuel : Nat) (t : MoveTree) (fen nodeId : String) (toks : List String)
      (lb : Option (String × String)) (stop : Bool),
      (parseSequence o fuel t fen nodeId toks lb stop).2.length ≤ toks.length := by
  intro fuel
  induction fuel with
  | zero =>
    intro t fen nodeId toks lb stop
    exact Nat.le_refl _
  | succ f ih =>
    intro t fen nodeId toks lb stop
    cases toks with
    | nil => exact Nat.le_refl _
    | cons token rest =>
      simp only [parseSequence]
      split
      · split
        · exact Nat.le_succ_of_le (Nat.le_refl _)
        · exact Nat.le_succ_of_le (ih t fen nodeId rest lb stop)
      · split
        · refine Nat.le_succ_of_le ?_
          exact Nat.le_trans (ih _ fen nodeId _ lb stop)
            (ih t _ _ rest none true)
        · split
          · exact Nat.le_succ_of_le (ih t fen nodeId rest lb stop)
          · split
            · exact Nat.le_succ_of_le (ih t fen nodeId rest lb stop)
            · split
              · exact Nat.le_succ_of_le (ih t fen nodeId rest lb stop)
              · exact Nat.le_succ_of_le (ih _ _ _ rest _ stop)

theorem parseSequence_fuel_irrel (o : Oracle) :
    ∀ (f1 f2 : Nat) (t : MoveTree) (fen nodeId : String) (toks : List String)
      (lb : Option (String × String)) (stop : Bool),
      toks.length < f1 → toks.length < f2 →
      parseSequence o f1 t fen nodeId toks lb stop =
      parseSequence o f2 t fen nodeId toks lb stop := by
  intro f1
  induction f1 with
  | zero =>
    intro f2 t fen nodeId toks lb stop h1 _
    exact absurd h1 (Nat.not_lt_zero _)
  | succ f ih =>
    intro f2 t fen nodeId toks lb stop h1 h2
    cases f2 with
    | zero => exact absurd h2 (Nat.not_lt_zero _)
    | succ g =>
      cases toks with
      | nil => simp only [parseSequence]
      | cons token rest =>
        have hr1 : rest.length < f := Nat.lt_of_succ_lt_succ h1
        have hr2 : rest.length < g := Nat.lt_of_succ_lt_succ h2
        simp only [parseSequence]
        split
        · split
          · rfl
          · exact ih g t fen nodeId rest lb stop hr1 hr2
        · split
          · have hinner : parseSequence o f t (lb.getD (fen, nodeId)).1
                (lb.getD (fen, nodeId)).2 rest none true =
                parseSequence o g t (lb.getD (fen, nodeId)).1
                (lb.getD (fen, nodeId)).2 rest none true :=
              ih g t _ _ rest none true hr1 hr2
            rw [← hinner]
            have hsuf := parseSequence_suffix_le o f t (lb.getD (fen, nodeId)).1
              (lb.getD (fen, nodeId)).2 rest none true
            exact ih g _ fen nodeId _ lb stop
              (Nat.lt_of_le_of_lt hsuf hr1) (Nat.lt_of_le_of_lt hsuf hr2)
          · split
            · exact ih g t fen nodeId rest lb stop hr1 hr2
            · split
              · exact ih g t fen nodeId rest lb stop hr1 hr2
              · split
                · exact ih g t fen nodeId rest lb stop hr1 hr2
                · exact ih g _ _ _ rest _ stop hr1 hr2

/-- A SAN string that round-trips through the tokenizer and sanitizer: it is
nonempty, free of token-boundary characters (whitespace, parentheses, brace,
semicolon), not an ignorable PGN token, and fixed by the sanitizer. -/
def CleanSan (s : String) : Prop :=
  s.data ≠ [] ∧ (∀ c ∈ s.data, isTokenBoundary c = false) ∧
  isIgnorablePgnToken s = false ∧ sanitizeSanToken s = some s

/-- Root-to-leaf notation sequences below a node: the empty sequence at a
childless node, otherwise a child's notation followed by one of its leaf
sequences. -/
inductive LeafSeqFrom (t : MoveTree) : String → List String → Prop
  | leaf (k : String) (n : MoveNode) : NodeMap.find? t.nodes k = some n →
      n.children = [] → LeafSeqFrom t k []
  | step (k : String) (n : MoveNode) (c : String) (cn : MoveNode) (san : String)
      (l : List String) : NodeMap.find? t.nodes k = some n → c ∈ n.children →
      NodeMap.find? t.nodes c = some cn → cn.moveSan = some san →
      LeafSeqFrom t c l → LeafSeqFrom t k (san :: l)

/-- One alternative's flattened token block: `"("`, the move-number token,
the SAN, the recursive expansion and `")"`; concatenated over the
alternative list.  `recf` is the flattened expansion one fuel level down. -/
def flatAlts (o : Oracle) (tree : MoveTree) (altFen : String)
    (recf : String → String → List String) : List String → List String
  | [] => []
  | altChildId :: more =>
    (match (NodeMap.find? tree.nodes altChildId).bind MoveNode.moveUci with
     | none => []
     | some altUci =>
       match uciToMoveInput altUci with
       | none => []
       | some altInput =>
         match o.moveInput altFen altInput with
         | none => []
         | some altRes =>
           "(" :: formatMoveNum o altFen :: altRes.san ::
             (recf altChildId altRes.fen ++ [")"])) ++
    flatAlts o tree altFen recf more

/-- The exporter's token stream with each parenthesized variation flattened
into `"("`, its inner tokens and `")"` (the re-tokenization of
`buildVariationTokens`' output). -/
def flatTokens (o : Oracle) (tree : MoveTree) :
    Nat → String → String → List String
  | 0, _, _ => []
  | fuel + 1, nodeId, fen =>
    match NodeMap.find? tree.nodes nodeId with
    | none => []
    | some node =>
      if node.children = [] then []
      else
        match node.children.filter (fun childId =>
            ((NodeMap.find? tree.nodes childId).bind MoveNode.moveUci).isSome) with
        | [] => []
        | mainChildId :: alternativeChildIds =>
          match (NodeMap.find? tree.nodes mainChildId).bind MoveNode.moveUci with
          | none => []
          | some mainUci =>
            match uciToMoveInput mainUci with
            | none => []
            | some mainInput =>
              match o.moveInput fen mainInput with
              | none => []
              | some mainRes =>
                formatMoveNum o fen :: mainRes.san ::
                  (flatAlts o tree (boardFen o node.fen) (flatTokens o tree fuel)
                      alternativeChildIds ++
                    flatTokens o tree fuel mainChildId mainRes.fen)

/-- The parser state threaded while replaying an exported subtree: the tree
being built, the cursor id, the current position and the `lastBranch`
register. -/
structure CopyState where
  tree : MoveTree
  cur : String
  fen : String
  lb : Option (String × String)

/-- The tree effect of replaying one alternative block: insert the branch
move below the pre-main cursor `cxX`, then replay the branch subtree;
folded over the alternative list.  `recc` replays one fuel level down. -/
def copyAlts (o : Oracle) (tree : MoveTree) (altFen fenX cxX : String)
    (recc : String → String → CopyState → CopyState) :
    List String → MoveTree → MoveTree
  | [], accT => accT
  | altChildId :: more, accT =>
    copyAlts o tree altFen fenX cxX recc more
      (match (NodeMap.find? tree.nodes altChildId).bind MoveNode.moveUci with
       | none => accT
       | some altUci =>
         match uciToMoveInput altUci with
         | none => accT
         | some altInput =>
           match o.moveInput altFen altInput with
           | none => accT
           | some altRes =>
             (recc altChildId altRes.fen
               ⟨(ensureChildNode accT cxX altRes).1,
                 (ensureChildNode accT cxX altRes).2,
                 altRes.fen, some (fenX, cxX)⟩).tree)

/-- The pure effect of running the parser over `flatTokens` of a subtree:
insert the main child, then each alternative's whole branch (each from the
pre-main position), then recurse down the main line.  Mirrors the
successful-path behaviour of `parseSequence` on that token stream. -/
def copySub (o : Oracle) (t : MoveTree) :
    Nat → String → String → CopyState → CopyState
  | 0, _, _, s => s
  | fuel + 1, nodeId, fen, s =>
    match NodeMap.find? t.nodes nodeId with
    | none => s
    | some node =>
      if node.children = [] then s
      else
        match node.children.filter (fun childId =>
            ((NodeMap.find? t.nodes childId).bind MoveNode.moveUci).isSome) with
        | [] => s
        | mainChildId :: alternativeChildIds =>
          match (NodeMap.find? t.nodes mainChildId).bind MoveNode.moveUci with
          | none => s
          | some mainUci =>
            match uciToMoveInput mainUci with
            | none => s
            | some mainInput =>
              match o.moveInput fen mainInput with
              | none => s
              | some mainRes =>
                let step := ensureChildNode s.tree s.cur mainRes
                copySub o t fuel mainChildId mainRes.fen
                  ⟨copyAlts o t (boardFen o node.fen) s.fen s.cur (copySub o t fuel)
                      alternativeChildIds step.1,
                    step.2, mainRes.fen, some (s.fen, s.cur)⟩

theorem digitChar_props (d : Nat) (h : d < 10) :
    (Nat.digitChar d).isDigit = true ∧ isTokenBoundary (Nat.digitChar d) = false := by
  interval_cases d <;> exact ⟨by decide, by decide⟩

theorem decDigits_props : ∀ n : Nat, ∀ c ∈ decDigits n,
    c.isDigit = true ∧ isTokenBoundary c = false := by
  intro n
  induction n using Nat.strong_induction_on with
  | _ n ih =>
    intro c hc
    by_cases h10 : n < 10
    · rw [show decDigits n = [Nat.digitChar n] by rw [decDigits]; simp [h10]] at hc
      rw [List.mem_singleton.mp hc]
      exact digitChar_props n h10
    · rw [show decDigits n = decDigits (n / 10) ++ [Nat.digitChar (n % 10)] by
        rw [decDigits]; simp [h10]] at hc
      rcases List.mem_append.mp hc with hc | hc
      · exact ih (n / 10) (Nat.div_lt_self (by omega) (by omega)) c hc
      · rw [List.mem_singleton.mp hc]
        exact digitChar_props (n % 10) (Nat.mod_lt n (by omega))

theorem decDigits_ne_nil (n : Nat) : decDigits n ≠ [] := by
  by_cases h10 : n < 10
  · rw [show decDigits n = [Nat.digitChar n] by rw [decDigits]; simp [h10]]
    simp
  · rw [show decDigits n = decDigits (n / 10) ++ [Nat.digitChar (n % 10)] by
      rw [decDigits]; simp [h10]]
    simp

theorem nat_repr_data (n : Nat) : (Nat.repr n).data = decDigits n := by
  rw [nat_repr_eq_decDigits]
  simp [List.asString]

theorem digits_take_drop (ds tail : List Char) (h : ∀ c ∈ ds, c.isDigit = true)
    (ht : ∀ c cs, tail = c :: cs → c.isDigit = false) :
    (ds ++ tail).takeWhile Char.isDigit = ds ∧
    (ds ++ tail).dropWhile Char.isDigit = tail := by
  induction ds with
  | nil =>
    cases tail with
    | nil => exact ⟨rfl, rfl⟩
    | cons c cs =>
      have := ht c cs rfl
      simp [List.takeWhile_cons, List.dropWhile_cons, this]
  | cons d ds ih =>
    have hd : d.isDigit = true := h d (List.mem_cons_self d ds)
    obtain ⟨h1, h2⟩ := ih (fun c hc => h c (List.mem_cons_of_mem d hc))
    simp [List.takeWhile_cons, List.dropWhile_cons, hd, h1, h2]

theorem numToken_props (m : Nat) (dots : List Char)
    (hdots : dots = ['.'] ∨ dots = ['.', '.', '.']) :
    isNumToken (decDigits m ++ dots) = true ∧
    (∀ c ∈ decDigits m ++ dots, isTokenBoundary c = false) ∧
    decDigits m ++ dots ≠ [] := by
  have hdig : ∀ c ∈ decDigits m, c.isDigit = true :=
    fun c hc => (decDigits_props m c hc).1
  have hdot : ∀ c cs, dots = c :: cs → c.isDigit = false := by
    intro c cs hc
    rcases hdots with h | h <;> rw [h] at hc <;> injection hc with h1 _ <;>
      rw [← h1] <;> decide
  obtain ⟨h1, h2⟩ := digits_take_drop (decDigits m) dots hdig hdot
  refine ⟨?_, ?_, by simp [decDigits_ne_nil m]⟩
  · unfold isNumToken
    rw [h1, h2]
    rcases hdots with h | h <;> rw [h] <;> simp [decDigits_ne_nil m]
  · intro c hc
    rcases List.mem_append.mp hc with hc | hc
    · exact (decDigits_props m c hc).2
    · have hc' : c = '.' := by
        rcases hdots with h | h <;> rw [h] at hc <;> simpa using hc
      rw [hc']
      decide

theorem formatMoveNum_props (o : Oracle) (fen : String) :
    isIgnorablePgnToken (formatMoveNum o fen) = true ∧
    formatMoveNum o fen ≠ ")" ∧ formatMoveNum o fen ≠ "(" ∧
    (formatMoveNum o fen).data ≠ [] ∧
    (∀ c ∈ (formatMoveNum o fen).data, isTokenBoundary c = false) := by
  have main : ∀ (dstr : String) (dots : List Char), dstr.data = dots →
      (dots = ['.'] ∨ dots = ['.', '.', '.']) →
      ∀ (s : String), s = Nat.repr (o.moveNumber fen) ++ dstr →
      isIgnorablePgnToken s = true ∧ s ≠ ")" ∧ s ≠ "(" ∧ s.data ≠ [] ∧
      (∀ c ∈ s.data, isTokenBoundary c = false) := by
    intro dstr dots hdstr hdots s hs
    obtain ⟨hnum, hbnd, hne⟩ := numToken_props (o.moveNumber fen) dots hdots
    have hdata : s.data = decDigits (o.moveNumber fen) ++ dots := by
      rw [hs, String.data_append, nat_repr_data, hdstr]
    refine ⟨?_, ?_, ?_, ?_, ?_⟩
    · unfold isIgnorablePgnToken
      rw [hdata, hnum]
      simp
    · intro h
      have hd := congrArg String.data h
      rw [hdata] at hd
      have hmem : ')' ∈ decDigits (o.moveNumber fen) ++ dots := by
        rw [hd]
        decide
      have := hbnd ')' hmem
      exact absurd this (by decide)
    · intro h
      have hd := congrArg String.data h
      rw [hdata] at hd
      have hmem : '(' ∈ decDigits (o.moveNumber fen) ++ dots := by
        rw [hd]
        decide
      have := hbnd '(' hmem
      exact absurd this (by decide)
    · rw [hdata]
      exact hne
    · rw [hdata]
      exact hbnd
  unfold formatMoveNum
  split
  · exact main "." ['.'] rfl (Or.inl rfl) _ rfl
  · exact main "..." ['.', '.', '.'] rfl (Or.inr rfl) _ rfl

/-- Per-edge coherence of a tree with the rules oracle: every child edge
carries a UCI that round-trips through `uciToMoveInput`, resolves from the
parent's position to a result matching the child's stored notation and
position, whose SAN replays to the same result and is tokenizer-clean. -/
def Coherent (o : Oracle) (t : MoveTree) : Prop :=
  ∀ k n c, NodeMap.find? t.nodes k = some n → c ∈ n.children →
    ∃ cn uci input res, NodeMap.find? t.nodes c = some cn ∧
      cn.moveUci = some uci ∧ uciToMoveInput uci = some input ∧
      o.moveInput (boardFen o n.fen) input = some res ∧ res.uci = uci ∧
      boardFen o cn.fen = res.fen ∧ cn.moveSan = some res.san ∧
      o.moveSan (boardFen o n.fen) res.san = some res ∧ CleanSan res.san

theorem cleanSan_facts {s : String} (h : CleanSan s) :
    s ≠ ")" ∧ s ≠ "(" ∧ isIgnorablePgnToken s = false ∧ sanitizeSanToken s = some s := by
  obtain ⟨hne, hbnd, hign, hsan⟩ := h
  refine ⟨?_, ?_, hign, hsan⟩
  · intro he
    have hmem : ')' ∈ s.data := by
      rw [he]
      decide
    have := hbnd ')' hmem
    exact absurd this (by decide)
  · intro he
    have hmem : '(' ∈ s.data := by
      rw [he]
      decide
    have := hbnd '(' hmem
    exact absurd this (by decide)

/-- The simulation property at a fixed expansion fuel: running the parser
over the flattened subtree tokens followed by any continuation equals
running it over just the continuation from the replayed state. -/
def SimAt (o : Oracle) (t : MoveTree) (fuel : Nat) : Prop :=
  ∀ (X : String) (node : MoveNode) (fx : String) (s : CopyState)
    (rest : List String) (stop : Bool) (pf1 pf2 : Nat),
    NodeMap.find? t.nodes X = some node → fx = boardFen o node.fen → s.fen = fx →
    (flatTokens o t fuel X fx).length + rest.length < pf1 → rest.length < pf2 →
    parseSequence o pf1 s.tree s.fen s.cur (flatTokens o t fuel X fx ++ rest) s.lb stop =
    parseSequence o pf2 (copySub o t fuel X fx s).tree (copySub o t fuel X fx s).fen
      (copySub o t fuel X fx s).cur rest (copySub o t fuel X fx s).lb stop

theorem copyAlts_sim (o : Oracle) (t : MoveTree) (hcoh : Coherent o t) (f : Nat)
    (X : String) (node : MoveNode) (hX : NodeMap.find? t.nodes X = some node)
    (IH : SimAt o t f) :
    ∀ (alts : List String), (∀ a ∈ alts, a ∈ node.children) →
    ∀ (cxX : String) (accT : MoveTree) (curFen curId : String) (rest2 : List String)
      (stop : Bool) (q1 q2 : Nat),
      (flatAlts o t (boardFen o node.fen) (flatTokens o t f) alts).length
        + rest2.length < q1 → rest2.length < q2 →
      parseSequence o q1 accT curFen curId
        (flatAlts o t (boardFen o node.fen) (flatTokens o t f) alts ++ rest2)
        (some (boardFen o node.fen, cxX)) stop =
      parseSequence o q2
        (copyAlts o t (boardFen o node.fen) (boardFen o node.fen) cxX (copySub o t f)
          alts accT)
        curFen curId rest2 (some (boardFen o node.fen, cxX)) stop := by
  intro alts
  induction alts with
  | nil =>
    intro _ cxX accT curFen curId rest2 stop q1 q2 h1 h2
    simp only [flatAlts, copyAlts, List.nil_append]
    simp only [flatAlts, List.length_nil] at h1
    exact parseSequence_fuel_irrel o q1 q2 accT curFen curId rest2 _ stop
      (by omega) h2
  | cons a more ihm =>
    intro hmem cxX accT curFen curId rest2 stop q1 q2 h1 h2
    obtain ⟨cn, uci, inp, res, hcn, hcuci, hinp, hmv, huciEq, hbfen, hsanEq, hmsan, hclean⟩ :=
      hcoh X node a hX (hmem a (List.mem_cons_self a more))
    obtain ⟨hsne_rp, hsne_lp, hsign, hssan⟩ := cleanSan_facts hclean
    obtain ⟨hpre_ign, hpre_rp, hpre_lp, _, _⟩ := formatMoveNum_props o (boardFen o node.fen)
    simp only [flatAlts, copyAlts, hcn, Option.some_bind, hcuci, hinp, hmv] at h1 ⊢
    simp only [List.cons_append, List.append_assoc, List.singleton_append,
      List.length_cons, List.length_append] at h1 ⊢
    cases q1 with
    | zero => omega
    | succ q =>
      simp only [parseSequence]
      rw [if_pos trivial]
      simp only [Option.getD_some, List.nil_append]
      have hinner : parseSequence o q accT (boardFen o node.fen) cxX
          (formatMoveNum o (boardFen o node.fen) :: res.san ::
            (flatTokens o t f a res.fen ++ (")" ::
              (flatAlts o t (boardFen o node.fen) (flatTokens o t f) more ++ rest2))))
          none true
          = ((copySub o t f a res.fen
              ⟨(ensureChildNode accT cxX res).1, (ensureChildNode accT cxX res).2,
                res.fen, some (boardFen o node.fen, cxX)⟩).tree,
             flatAlts o t (boardFen o node.fen) (flatTokens o t f) more ++ rest2) := by
        cases q with
        | zero => omega
        | succ q' =>
          simp only [parseSequence]
          rw [if_neg hpre_rp, if_neg hpre_lp, if_pos hpre_ign]
          cases q' with
          | zero => omega
          | succ q2i =>
            simp only [parseSequence]
            rw [if_neg hsne_rp, if_neg hsne_lp,
              if_neg (by simp [hsign] : ¬isIgnorablePgnToken res.san = true)]
            simp only [hssan, hmsan]
            refine Eq.trans (IH a cn res.fen
              ⟨(ensureChildNode accT cxX res).1, (ensureChildNode accT cxX res).2,
                res.fen, some (boardFen o node.fen, cxX)⟩
              (")" :: (flatAlts o t (boardFen o node.fen) (flatTokens o t f) more
                ++ rest2))
              true q2i
              ((")" :: (flatAlts o t (boardFen o node.fen) (flatTokens o t f) more
                ++ rest2)).length + 1)
              hcn hbfen.symm rfl ?_ ?_) ?_
            · simp only [List.length_cons, List.length_append]
              omega
            · simp
            · simp [parseSequence]
      rw [hinner]
      have hmem' : ∀ x ∈ more, x ∈ node.children :=
        fun x hx => hmem x (List.mem_cons_of_mem a hx)
      refine Eq.trans (ihm hmem' cxX _ curFen curId rest2 stop q q2 ?_ h2) rfl
      omega

theorem copySub_sim (o : Oracle) (t : MoveTree) (hcoh : Coherent o t) :
    ∀ fuel, SimAt o t fuel := by
  intro fuel
  induction fuel with
  | zero =>
    intro X node fx s rest stop pf1 pf2 hX hfx hsf h1 h2
    simp only [flatTokens, copySub, List.nil_append]
    simp only [flatTokens, List.length_nil] at h1
    exact parseSequence_fuel_irrel o pf1 pf2 s.tree s.fen s.cur rest s.lb stop
      (by omega) h2
  | succ f ih =>
    intro X node fx s rest stop pf1 pf2 hX hfx hsf h1 h2
    subst hfx
    simp only [flatTokens, copySub, hX] at h1 ⊢
    by_cases hch : node.children = []
    · simp only [if_pos hch] at h1 ⊢
      simp only [List.nil_append]
      simp only [List.length_nil] at h1
      exact parseSequence_fuel_irrel o pf1 pf2 s.tree s.fen s.cur rest s.lb stop
        (by omega) h2
    · simp only [if_neg hch] at h1 ⊢
      cases hfil : node.children.filter (fun childId =>
          ((NodeMap.find? t.nodes childId).bind MoveNode.moveUci).isSome) with
      | nil =>
        rw [hfil] at h1
        simp only [List.nil_append]
        simp only [List.length_nil] at h1
        exact parseSequence_fuel_irrel o pf1 pf2 s.tree s.fen s.cur rest s.lb stop
          (by omega) h2
      | cons mainC alts =>
        rw [hfil] at h1
        have hmainmem : mainC ∈ node.children := by
          have hm : mainC ∈ node.children.filter (fun childId =>
              ((NodeMap.find? t.nodes childId).bind MoveNode.moveUci).isSome) := by
            rw [hfil]
            exact List.mem_cons_self _ _
          exact List.mem_of_mem_filter hm
        have halts : ∀ a ∈ alts, a ∈ node.children := by
          intro a ha
          have hm : a ∈ node.children.filter (fun childId =>
              ((NodeMap.find? t.nodes childId).bind MoveNode.moveUci).isSome) := by
            rw [hfil]
            exact List.mem_cons_of_mem _ ha
          exact List.mem_of_mem_filter hm
        obtain ⟨cn, uci, inp, res, hcn, hcuci, hinp, hmv0, huciEq, hbfen, hsanEq, hmsan,
          hclean⟩ := hcoh X node mainC hX hmainmem
        simp only [hcn, Option.some_bind, hcuci, hinp, hmv0] at h1 ⊢
        obtain ⟨hpre_ign, hpre_rp, hpre_lp, _, _⟩ :=
          formatMoveNum_props o (boardFen o node.fen)
        obtain ⟨hsne_rp, hsne_lp, hsign, hssan⟩ := cleanSan_facts hclean
        simp only [List.cons_append, List.append_assoc, List.length_cons,
          List.length_append] at h1 ⊢
        cases pf1 with
        | zero => omega
        | succ p =>
          simp only [parseSequence]
          rw [if_neg hpre_rp, if_neg hpre_lp, if_pos hpre_ign]
          cases p with
          | zero => omega
          | succ p2 =>
            simp only [parseSequence]
            rw [if_neg hsne_rp, if_neg hsne_lp,
              if_neg (by simp [hsign] : ¬isIgnorablePgnToken res.san = true)]
            rw [hsf]
            simp only [hssan, hmsan]
            refine Eq.trans (copyAlts_sim o t hcoh f X node hX ih alts halts s.cur
              (ensureChildNode s.tree s.cur res).1 res.fen
              (ensureChildNode s.tree s.cur res).2
              (flatTokens o t f mainC res.fen ++ rest) stop p2
              ((flatTokens o t f mainC res.fen ++ rest).length + 1) ?_ ?_) ?_
            · simp only [List.length_append]
              omega
            · simp
            · refine Eq.trans (ih mainC cn res.fen
                ⟨copyAlts o t (boardFen o node.fen) (boardFen o node.fen) s.cur
                    (copySub o t f) alts (ensureChildNode s.tree s.cur res).1,
                  (ensureChildNode s.tree s.cur res).2, res.fen,
                  some (boardFen o node.fen, s.cur)⟩
                rest stop ((flatTokens o t f mainC res.fen ++ rest).length + 1) pf2
                hcn hbfen.symm rfl ?_ ?_) rfl
              · simp only [List.length_append]
                omega
              · exact h2

theorem reach_dom {T : MoveTree} (inv : TreeInv T) {a b : String} {n0 : MoveNode}
    (ha : NodeMap.find? T.nodes a = some n0) (hr : MapReach T.nodes a b) :
    ∃ nb, NodeMap.find? T.nodes b = some nb := by
  induction hr with
  | refl => exact ⟨n0, ha⟩
  | step n hrest hf hm ih =>
    obtain ⟨cn, hcf, _⟩ := inv.child_ok _ n _ hf hm
    exact ⟨cn, hcf⟩

theorem leafStable (T1 T2 : MoveTree) (a : String) (n0 : MoveNode)
    (inv1 : TreeInv T1)
    (ha : NodeMap.find? T1.nodes a = some n0)
    (hpres : ∀ k n, NodeMap.find? T1.nodes k = some n → MapReach T1.nodes a k →
      NodeMap.find? T2.nodes k = some n) :
    (∀ k, MapReach T2.nodes a k → MapReach T1.nodes a k) ∧
    (∀ k, MapReach T1.nodes a k → MapReach T2.nodes a k) ∧
    (∀ l, LeafSeqFrom T2 a l ↔ LeafSeqFrom T1 a l) := by
  have hfwd : ∀ k, MapReach T1.nodes a k → MapReach T2.nodes a k := by
    intro k hr
    induction hr with
    | refl => exact MapReach.refl _
    | step n hrest hf hm ih =>
      exact MapReach.step n ih (hpres _ n hf hrest) hm
  have hbwd : ∀ k, MapReach T2.nodes a k → MapReach T1.nodes a k := by
    intro k hr
    induction hr with
    | refl => exact MapReach.refl _
    | step n hrest hf hm ih =>
      obtain ⟨nb, hnb⟩ := reach_dom inv1 ha ih
      have := hpres _ nb hnb ih
      rw [this] at hf
      injection hf with hf
      subst hf
      exact MapReach.step nb ih hnb hm
  refine ⟨hbwd, hfwd, ?_⟩
  have hvals : ∀ k, MapReach T1.nodes a k →
      ∀ n, (NodeMap.find? T1.nodes k = some n ↔ NodeMap.find? T2.nodes k = some n) := by
    intro k hr n
    obtain ⟨nb, hnb⟩ := reach_dom inv1 ha hr
    constructor
    · intro h
      exact hpres _ n h hr
    · intro h
      have := hpres _ nb hnb hr
      rw [this] at h
      injection h with h
      rw [← h]
      exact hnb
  intro l
  constructor
  · intro h
    have haux : ∀ k l', LeafSeqFrom T2 k l' → MapReach T1.nodes a k →
        LeafSeqFrom T1 k l' := by
      intro k l' hd
      induction hd with
      | leaf k n hf hch =>
        intro hr
        exact LeafSeqFrom.leaf k n ((hvals k hr n).mpr hf) hch
      | step k n c cn san l'' hf hm hcf hsan _ ih =>
        intro hr
        have hf1 := (hvals k hr n).mpr hf
        have hrc : MapReach T1.nodes a c := MapReach.step n hr hf1 hm
        have hcf1 := (hvals c hrc cn).mpr hcf
        exact LeafSeqFrom.step k n c cn san l'' hf1 hm hcf1 hsan (ih hrc)
    exact haux a l h (MapReach.refl a)
  · intro h
    have haux : ∀ k l', LeafSeqFrom T1 k l' → MapReach T1.nodes a k →
        LeafSeqFrom T2 k l' := by
      intro k l' hd
      induction hd with
      | leaf k n hf hch =>
        intro hr
        exact LeafSeqFrom.leaf k n ((hvals k hr n).mp hf) hch
      | step k n c cn san l'' hf hm hcf hsan _ ih =>
        intro hr
        have hrc : MapReach T1.nodes a c := MapReach.step n hr hf hm
        exact LeafSeqFrom.step k n c cn san l'' ((hvals k hr n).mp hf) hm
          ((hvals c hrc cn).mp hcf) hsan (ih hrc)
    exact haux a l h (MapReach.refl a)

/-- Per-node correspondence between an original child and its copy: same
notation and the same leaf-sequence set below. -/
def CopyMatch (t Tf : MoveTree) (oc cc : String) : Prop :=
  ∃ ocn ccn, NodeMap.find? t.nodes oc = some ocn ∧
    NodeMap.find? Tf.nodes cc = some ccn ∧ ccn.moveSan = ocn.moveSan ∧
    (∀ l, LeafSeqFrom Tf cc l ↔ LeafSeqFrom t oc l)

theorem forall2_mem_right {α β : Type} {R : α → β → Prop} :
    ∀ {l1 : List α} {l2 : List β}, List.Forall₂ R l1 l2 → ∀ b ∈ l2, ∃ a ∈ l1, R a b := by
  intro l1 l2 h
  induction h with
  | nil => intro b hb; exact absurd hb (List.not_mem_nil b)
  | cons hr _ ih =>
    intro b hb
    rcases List.mem_cons.mp hb with hb | hb
    · exact ⟨_, List.mem_cons_self _ _, hb ▸ hr⟩
    · obtain ⟨a, ha, har⟩ := ih b hb
      exact ⟨a, List.mem_cons_of_mem _ ha, har⟩

theorem forall2_mem_left {α β : Type} {R : α → β → Prop} :
    ∀ {l1 : List α} {l2 : List β}, List.Forall₂ R l1 l2 → ∀ a ∈ l1, ∃ b ∈ l2, R a b := by
  intro l1 l2 h
  induction h with
  | nil => intro a ha; exact absurd ha (List.not_mem_nil a)
  | cons hr _ ih =>
    intro a ha
    rcases List.mem_cons.mp ha with ha | ha
    · exact ⟨_, List.mem_cons_self _ _, ha ▸ hr⟩
    · obtain ⟨b, hb, hbr⟩ := ih a ha
      exact ⟨b, List.mem_cons_of_mem _ hb, hbr⟩

theorem leafSeq_children_iff (t Tf : MoveTree) (X cx : String)
    (node cnode : MoveNode)
    (hX : NodeMap.find? t.nodes X = some node)
    (hcx : NodeMap.find? Tf.nodes cx = some cnode)
    (hne : node.children ≠ []) (hcne : cnode.children ≠ [])
    (hrel : List.Forall₂ (CopyMatch t Tf) node.children cnode.children) :
    ∀ l, LeafSeqFrom Tf cx l ↔ LeafSeqFrom t X l := by
  intro l
  constructor
  · intro h
    cases h with
    | leaf k n hf hch =>
      rw [hcx] at hf
      injection hf with hf
      rw [hf] at hcne
      exact absurd hch hcne
    | step k n c cn san l' hf hm hcf hsan hrest =>
      rw [hcx] at hf
      injection hf with hf
      subst hf
      obtain ⟨oc, hocm, hmatch⟩ := forall2_mem_right hrel c hm
      obtain ⟨ocn, ccn, hocf, hccf, hsame, hiff⟩ := hmatch
      rw [hccf] at hcf
      injection hcf with hcf
      subst hcf
      refine LeafSeqFrom.step X node oc ocn san l' hX hocm hocf ?_ ((hiff l').mp hrest)
      rw [← hsame]
      exact hsan
  · intro h
    cases h with
    | leaf k n hf hch =>
      rw [hX] at hf
      injection hf with hf
      rw [hf] at hne
      exact absurd hch hne
    | step k n c cn san l' hf hm hcf hsan hrest =>
      rw [hX] at hf
      injection hf with hf
      subst hf
      obtain ⟨cc, hccm, hmatch⟩ := forall2_mem_left hrel c hm
      obtain ⟨ocn, ccn, h1, h2, h3, h4⟩ := hmatch
      rw [h1] at hcf
      injection hcf with hcf
      subst hcf
      refine LeafSeqFrom.step cx cnode cc ccn san l' hcx hccm h2 ?_ ((h4 l').mpr hrest)
      rw [h3]
      exact hsan

/-- Distinct UCIs among the children of every node (makeMove's
find-or-create guarantees this for every tree it builds). -/
def SibUciDistinct (t : MoveTree) : Prop :=
  ∀ k n, NodeMap.find? t.nodes k = some n →
    List.Pairwise (fun a b => ((NodeMap.find? t.nodes a).bind MoveNode.moveUci) ≠
      ((NodeMap.find? t.nodes b).bind MoveNode.moveUci)) n.children

theorem coherent_filter_children (o : Oracle) (t : MoveTree) (hcoh : Coherent o t)
    (X : String) (node : MoveNode) (hX : NodeMap.find? t.nodes X = some node) :
    node.children.filter (fun childId =>
      ((NodeMap.find? t.nodes childId).bind MoveNode.moveUci).isSome) = node.children := by
  apply List.filter_eq_self.mpr
  intro c hc
  obtain ⟨cn, uci, inp, res, hcn, hcuci, _, _, _, _, _, _, _⟩ := hcoh X node c hX hc
  rw [hcn, Option.some_bind, hcuci]
  rfl

theorem leafSeq_nil_iff (T : MoveTree) (k : String) (n : MoveNode)
    (hf : NodeMap.find? T.nodes k = some n) (hch : n.children = []) :
    ∀ l, LeafSeqFrom T k l ↔ l = [] := by
  intro l
  constructor
  · intro h
    cases h with
    | leaf _ _ _ _ => rfl
    | step _ n' c _ _ _ hf' hm _ _ _ =>
      rw [hf] at hf'
      injection hf' with hf'
      rw [hf'] at hch
      rw [hch] at hm
      exact absurd hm (List.not_mem_nil c)
  · intro h
    rw [h]
    exact LeafSeqFrom.leaf k n hf hch

theorem sibling_no_reach {T : MoveTree} (inv : TreeInv T) {k : String} {n : MoveNode}
    {c1 c2 : String} (hk : NodeMap.find? T.nodes k = some n) (h1 : c1 ∈ n.children)
    (h2 : c2 ∈ n.children) (hne : c1 ≠ c2) : ¬ MapReach T.nodes c1 c2 := by
  obtain ⟨dep, hdep⟩ := inv.depth_cert
  intro hr
  obtain ⟨b, bn, hrb, hbf, hbm⟩ := mapReach_last hr (Ne.symm hne)
  have hd1 := hdep _ n _ hk h1
  have hd3 := hdep _ bn _ hbf hbm
  have hle := mapReach_depth_le hdep hrb
  have hd2 := hdep _ n _ hk h2
  omega

theorem child_no_reach_parent {T : MoveTree} (inv : TreeInv T) {k : String}
    {n : MoveNode} {c : String} (hk : NodeMap.find? T.nodes k = some n)
    (hc : c ∈ n.children) : ¬ MapReach T.nodes c k := by
  obtain ⟨dep, hdep⟩ := inv.depth_cert
  exact depth_no_cycle hdep hk hc

theorem reach_avoid_pres (T1 T2 : MoveTree) (bad : String)
    (hleg : ∀ k n, NodeMap.find? T1.nodes k = some n → k ≠ bad →
      NodeMap.find? T2.nodes k = some n)
    (cc : String) (hnr : ¬ MapReach T1.nodes cc bad) :
    ∀ k n, NodeMap.find? T1.nodes k = some n → MapReach T1.nodes cc k →
      NodeMap.find? T2.nodes k = some n := by
  intro k n hk hr
  refine hleg k n hk ?_
  intro he
  rw [he] at hr
  exact hnr hr

theorem forall2_copymatch_transfer (t T1 T2 : MoveTree) (inv1 : TreeInv T1)
    {l1 l2 : List String}
    (hmods : ∀ cc ∈ l2, ∀ k n, NodeMap.find? T1.nodes k = some n →
      MapReach T1.nodes cc k → NodeMap.find? T2.nodes k = some n)
    (h : List.Forall₂ (CopyMatch t T1) l1 l2) :
    List.Forall₂ (CopyMatch t T2) l1 l2 := by
  induction h with
  | nil => exact List.Forall₂.nil
  | cons hr hrest ih =>
    rename_i a cc l1x l2x
    refine List.Forall₂.cons ?_ (ih (fun c hc => hmods c (List.mem_cons_of_mem _ hc)))
    obtain ⟨ocn, ccn, h1, h2, h3, h4⟩ := hr
    have hm := hmods cc (List.mem_cons_self _ _)
    obtain ⟨_, _, hiff⟩ := leafStable T1 T2 cc ccn inv1 h2 hm
    exact ⟨ocn, ccn, h1, hm _ ccn h2 (MapReach.refl cc), h3,
      fun l => (hiff l).trans (h4 l)⟩

theorem ensureChildNode_fresh_create (t : MoveTree) (p : String) (r : MoveRes)
    (parent : MoveNode) (hp : NodeMap.find? t.nodes p = some parent)
    (hnone : parent.children.find? (fun childId =>
      ((NodeMap.find? t.nodes childId).bind MoveNode.moveUci) == some r.uci) = none)
    (hf : FreshIds t) :
    (ensureChildNode t p r).2 = createNodeId t ∧
    NodeMap.find? (ensureChildNode t p r).1.nodes p =
      some { parent with children := parent.children ++ [createNodeId t] } ∧
    NodeMap.find? (ensureChildNode t p r).1.nodes (createNodeId t) =
      some { id := createNodeId t, parentId := some p, fen := r.fen,
             moveSan := some r.san, moveUci := some r.uci, children := [] } ∧
    (∀ k n, NodeMap.find? t.nodes k = some n → k ≠ p →
      NodeMap.find? (ensureChildNode t p r).1.nodes k = some n) := by
  have hfresh : NodeMap.find? t.nodes (createNodeId t) = none :=
    hf t.nextId (Nat.le_refl _)
  have hpne : p ≠ createNodeId t := by
    intro h
    rw [h, hfresh] at hp
    exact Option.noConfusion hp
  have hred : ensureChildNode t p r = ({ t with nextId := t.nextId + 1, nodes := (NodeMap.set (NodeMap.set t.nodes (createNodeId t) { id := createNodeId t, parentId := some p, fen := r.fen, moveSan := some r.san, moveUci := some r.uci, children := [] }) p { parent with children := parent.children ++ [createNodeId t] }) }, createNodeId t) := by
    simp only [ensureChildNode, hp, hnone]
  rw [hred]
  refine ⟨rfl, ?_, ?_, ?_⟩
  · exact NodeMap.find?_set_self _ _ _
  · rw [NodeMap.find?_set_ne _ _ _ _ (Ne.symm hpne)]
    exact NodeMap.find?_set_self _ _ _
  · intro k n hk hkp
    rw [NodeMap.find?_set_ne _ _ _ _ hkp]
    have hkn : k ≠ createNodeId t := by
      intro h
      rw [h, hfresh] at hk
      exact Option.noConfusion hk
    rw [NodeMap.find?_set_ne _ _ _ _ hkn]
    exact hk

theorem copySub_correct (o : Oracle) (t : MoveTree) (hcoh : Coherent o t)
    (hsib : SibUciDistinct t) (dep : String → Nat) (B : Nat)
    (hdep : ∀ k n c, NodeMap.find? t.nodes k = some n → c ∈ n.children →
      dep c = dep k + 1)
    (hbound : ∀ k n, NodeMap.find? t.nodes k = some n → dep k < B) :
    ∀ (fuel : Nat) (X : String) (node : MoveNode) (fx : String) (s : CopyState)
      (c0 : MoveNode),
      NodeMap.find? t.nodes X = some node →
      fx = boardFen o node.fen →
      B ≤ fuel + dep X →
      TreeInv s.tree →
      NodeMap.find? s.tree.nodes s.cur = some c0 → c0.children = [] →
      TreeInv (copySub o t fuel X fx s).tree ∧
      (∀ k n, NodeMap.find? s.tree.nodes k = some n → k ≠ s.cur →
        NodeMap.find? (copySub o t fuel X fx s).tree.nodes k = some n) ∧
      (∃ c1, NodeMap.find? (copySub o t fuel X fx s).tree.nodes s.cur = some c1 ∧
        c1.moveSan = c0.moveSan ∧ c1.moveUci = c0.moveUci ∧ c1.parentId = c0.parentId) ∧
      (∀ l, LeafSeqFrom (copySub o t fuel X fx s).tree s.cur l ↔ LeafSeqFrom t X l) := by
  intro fuel
  induction fuel with
  | zero =>
    intro X node fx s c0 hX hfx hfuel _ _ _
    exact absurd (hbound X node hX) (by omega)
  | succ fuel ih =>
    intro X node fx s c0 hX hfx hfuel invS hs0cur hc0ch
    subst hfx
    simp only [copySub, hX, coherent_filter_children o t hcoh X node hX]
    by_cases hch : node.children = []
    · simp only [if_pos hch]
      refine ⟨invS, fun k n hk _ => hk, ⟨c0, hs0cur, rfl, rfl, rfl⟩, ?_⟩
      intro l
      exact (leafSeq_nil_iff s.tree s.cur c0 hs0cur hc0ch l).trans
        (leafSeq_nil_iff t X node hX hch l).symm
    · simp only [if_neg hch]
      cases hch2 : node.children with
      | nil => exact absurd hch2 hch
      | cons mainC alts =>
        have hmainmem : mainC ∈ node.children := by
          rw [hch2]
          exact List.mem_cons_self _ _
        obtain ⟨cn, uci, inp, res, hcn, hcuci, hinp, hmv, huciEq, hbfen, hsanEq, hmsan,
          hclean⟩ := hcoh X node mainC hX hmainmem
        simp only [hcn, Option.some_bind, hcuci, hinp, hmv]
        have hnid_fresh : NodeMap.find? s.tree.nodes (createNodeId s.tree) = none :=
          invS.fresh s.tree.nextId (Nat.le_refl _)
        have hnidne : createNodeId s.tree ≠ s.cur := by
          intro h
          rw [h, hs0cur] at hnid_fresh
          exact Option.noConfusion hnid_fresh
        have hnone0 : c0.children.find? (fun childId =>
            ((NodeMap.find? s.tree.nodes childId).bind MoveNode.moveUci)
              == some res.uci) = none := by
          rw [hc0ch]
          rfl
        obtain ⟨hE0id, hE0cur, hE0nid, hE0loc⟩ :=
          ensureChildNode_fresh_create s.tree s.cur res c0 hs0cur hnone0 invS.fresh
        have hE0inv : TreeInv (ensureChildNode s.tree s.cur res).1 :=
          ensureChildNode_inv s.tree s.cur res invS
        have hE0cur' : NodeMap.find? (ensureChildNode s.tree s.cur res).1.nodes s.cur =
            some { c0 with children := createNodeId s.tree :: [] } := by
          rw [hE0cur, hc0ch]
          rfl
        have hpairwise := hsib X node hX
        rw [hch2] at hpairwise
        obtain ⟨hheadrel, htailpw⟩ := List.pairwise_cons.mp hpairwise
        have hdepX : dep mainC = dep X + 1 := hdep X node mainC hX hmainmem
        -- the alternative loop
        have LOOP : ∀ (suffix done copies : List String) (accT : MoveTree),
            (∀ a ∈ suffix, a ∈ node.children) →
            List.Pairwise (fun a b =>
              ((NodeMap.find? t.nodes a).bind MoveNode.moveUci) ≠
              ((NodeMap.find? t.nodes b).bind MoveNode.moveUci)) suffix →
            (∀ a ∈ suffix, ∀ cc ∈ createNodeId s.tree :: copies,
              ((NodeMap.find? accT.nodes cc).bind MoveNode.moveUci) ≠
              ((NodeMap.find? t.nodes a).bind MoveNode.moveUci)) →
            TreeInv accT →
            NodeMap.find? accT.nodes s.cur =
              some { c0 with children := createNodeId s.tree :: copies } →
            NodeMap.find? accT.nodes (createNodeId s.tree) =
              some { id := createNodeId s.tree, parentId := some s.cur, fen := res.fen, moveSan := some res.san, moveUci := some res.uci, children := [] } →
            List.Forall₂ (CopyMatch t accT) done copies →
            ∃ copies2,
              TreeInv (copyAlts o t (boardFen o node.fen) s.fen s.cur
                (copySub o t fuel) suffix accT) ∧
              NodeMap.find? (copyAlts o t (boardFen o node.fen) s.fen s.cur
                  (copySub o t fuel) suffix accT).nodes s.cur =
                some { c0 with children := createNodeId s.tree :: (copies ++ copies2) } ∧
              NodeMap.find? (copyAlts o t (boardFen o node.fen) s.fen s.cur
                  (copySub o t fuel) suffix accT).nodes (createNodeId s.tree) =
                some { id := createNodeId s.tree, parentId := some s.cur, fen := res.fen, moveSan := some res.san, moveUci := some res.uci, children := [] } ∧
              List.Forall₂ (CopyMatch t (copyAlts o t (boardFen o node.fen) s.fen s.cur
                  (copySub o t fuel) suffix accT)) (done ++ suffix) (copies ++ copies2) ∧
              (∀ k n, NodeMap.find? accT.nodes k = some n → k ≠ s.cur →
                NodeMap.find? (copyAlts o t (boardFen o node.fen) s.fen s.cur
                  (copySub o t fuel) suffix accT).nodes k = some n) := by
          intro suffix
          induction suffix with
          | nil =>
            intro done copies accT _ _ _ invA hcurA hnidA hrelA
            refine ⟨[], invA, ?_, hnidA, ?_, fun k n hk _ => hk⟩
            · rw [List.append_nil]
              exact hcurA
            · rw [List.append_nil, List.append_nil]
              exact hrelA
          | cons a rest ihs =>
            intro done copies accT hsufmem hsufpair hucidist invA hcurA hnidA hrelA
            obtain ⟨acn, auci, ainp, ares, hacn, hacuci, hainp, hamv, hauciEq, habfen,
              hasanEq, hamsan, haclean⟩ :=
              hcoh X node a hX (hsufmem a (List.mem_cons_self a rest))
            simp only [copyAlts, hacn, Option.some_bind, hacuci, hainp, hamv]
            -- the ensure step at the pre-main cursor
            have haid_fresh : NodeMap.find? accT.nodes (createNodeId accT) = none :=
              invA.fresh accT.nextId (Nat.le_refl _)
            have hAnone : ({ c0 with children := createNodeId s.tree :: copies } :
                MoveNode).children.find? (fun childId =>
                ((NodeMap.find? accT.nodes childId).bind MoveNode.moveUci)
                  == some ares.uci) = none := by
              apply List.find?_eq_none.mpr
              intro cc hcc
              have hun := hucidist a (List.mem_cons_self a rest) cc hcc
              rw [hacn, Option.some_bind, hacuci, ← hauciEq] at hun
              simp only [beq_iff_eq]
              exact hun
            obtain ⟨hEid, hEcur, hEnid, hEloc⟩ :=
              ensureChildNode_fresh_create accT s.cur ares
                { c0 with children := createNodeId s.tree :: copies } hcurA hAnone
                invA.fresh
            have hEinv : TreeInv (ensureChildNode accT s.cur ares).1 :=
              ensureChildNode_inv accT s.cur ares invA
            -- recursive copy of the branch subtree
            have hdepa : dep a = dep X + 1 :=
              hdep X node a hX (hsufmem a (List.mem_cons_self a rest))
            have hsubIH := ih a acn ares.fen
              ⟨(ensureChildNode accT s.cur ares).1, (ensureChildNode accT s.cur ares).2,
                ares.fen, some (s.fen, s.cur)⟩
              { id := createNodeId accT, parentId := some s.cur, fen := ares.fen, moveSan := some ares.san, moveUci := some ares.uci, children := [] }
              hacn habfen.symm (by omega) hEinv (by rw [hEid]; exact hEnid) rfl
            obtain ⟨hAinv, hAloc, ⟨ac1, hac1f, hac1san, hac1uci, hac1par⟩, hAiff⟩ := hsubIH
            have hsne_aid : s.cur ≠ createNodeId accT := by
              intro h
              rw [← h] at haid_fresh
              rw [hcurA] at haid_fresh
              exact Option.noConfusion haid_fresh
            have hAloc' : ∀ k n,
                NodeMap.find? (ensureChildNode accT s.cur ares).1.nodes k = some n →
                k ≠ createNodeId accT →
                NodeMap.find? (copySub o t fuel a ares.fen
                  ⟨(ensureChildNode accT s.cur ares).1,
                    (ensureChildNode accT s.cur ares).2, ares.fen,
                    some (s.fen, s.cur)⟩).tree.nodes k = some n := by
              intro k n hk hkne
              refine hAloc k n hk ?_
              show k ≠ (ensureChildNode accT s.cur ares).2
              rw [hEid]
              exact hkne
            have hEcur2 : NodeMap.find? (ensureChildNode accT s.cur ares).1.nodes s.cur =
                some { c0 with children := createNodeId s.tree :: (copies ++ [createNodeId accT]) } := by
              rw [hEcur]
              rfl
            have hcurA' : NodeMap.find? (copySub o t fuel a ares.fen
                ⟨(ensureChildNode accT s.cur ares).1,
                  (ensureChildNode accT s.cur ares).2, ares.fen,
                  some (s.fen, s.cur)⟩).tree.nodes s.cur =
                some { c0 with children := createNodeId s.tree :: (copies ++ [createNodeId accT]) } :=
              hAloc' s.cur _ hEcur2 hsne_aid
            have hnid_dom : NodeMap.find? accT.nodes (createNodeId s.tree) =
                some { id := createNodeId s.tree, parentId := some s.cur, fen := res.fen, moveSan := some res.san, moveUci := some res.uci, children := [] } := hnidA
            have hnid_ne_aid : createNodeId s.tree ≠ createNodeId accT := by
              intro h
              rw [h, haid_fresh] at hnid_dom
              exact Option.noConfusion hnid_dom
            have hnidA' : NodeMap.find? (copySub o t fuel a ares.fen
                ⟨(ensureChildNode accT s.cur ares).1,
                  (ensureChildNode accT s.cur ares).2, ares.fen,
                  some (s.fen, s.cur)⟩).tree.nodes (createNodeId s.tree) =
                some { id := createNodeId s.tree, parentId := some s.cur, fen := res.fen, moveSan := some res.san, moveUci := some res.uci, children := [] } :=
              hAloc' _ _ (hEloc _ _ hnidA hnidne) hnid_ne_aid
            have hccdom : ∀ cc ∈ createNodeId s.tree :: copies,
                ∃ v, NodeMap.find? accT.nodes cc = some v := by
              intro cc hcc
              obtain ⟨v, hv, _⟩ := invA.child_ok s.cur _ cc hcurA hcc
              exact ⟨v, hv⟩
            have hccne_scur : ∀ cc ∈ createNodeId s.tree :: copies, cc ≠ s.cur := by
              intro cc hcc he
              have := child_no_reach_parent invA hcurA hcc
              rw [he] at this
              exact this (MapReach.refl s.cur)
            have hvalpres : ∀ cc ∈ createNodeId s.tree :: copies, ∀ v,
                NodeMap.find? accT.nodes cc = some v →
                NodeMap.find? (copySub o t fuel a ares.fen
                  ⟨(ensureChildNode accT s.cur ares).1,
                    (ensureChildNode accT s.cur ares).2, ares.fen,
                    some (s.fen, s.cur)⟩).tree.nodes cc = some v := by
              intro cc hcc v hv
              have hne1 : cc ≠ createNodeId accT := by
                intro h
                rw [h, haid_fresh] at hv
                exact Option.noConfusion hv
              exact hAloc' cc v (hEloc cc v hv (hccne_scur cc hcc)) hne1
            have htrans1 : List.Forall₂ (CopyMatch t (ensureChildNode accT s.cur ares).1)
                done copies := by
              refine forall2_copymatch_transfer t accT _ invA ?_ hrelA
              intro cc hcc
              exact reach_avoid_pres accT _ s.cur hEloc cc
                (child_no_reach_parent invA hcurA (List.mem_cons_of_mem _ hcc))
            have htrans2 : List.Forall₂ (CopyMatch t (copySub o t fuel a ares.fen
                ⟨(ensureChildNode accT s.cur ares).1,
                  (ensureChildNode accT s.cur ares).2, ares.fen,
                  some (s.fen, s.cur)⟩).tree) done copies := by
              refine forall2_copymatch_transfer t _ _ hEinv ?_ htrans1
              intro cc hcc
              have hccE : cc ∈ ({ c0 with children := createNodeId s.tree :: (copies ++ [createNodeId accT]) } : MoveNode).children := by
                show cc ∈ createNodeId s.tree :: (copies ++ [createNodeId accT])
                exact List.mem_cons_of_mem _ (List.mem_append.mpr (Or.inl hcc))
              have haidE : createNodeId accT ∈ ({ c0 with children := createNodeId s.tree :: (copies ++ [createNodeId accT]) } : MoveNode).children := by
                show createNodeId accT ∈ createNodeId s.tree :: (copies ++ [createNodeId accT])
                exact List.mem_cons_of_mem _
                  (List.mem_append.mpr (Or.inr (List.mem_singleton.mpr rfl)))
              have hccne : cc ≠ createNodeId accT := by
                intro h
                obtain ⟨v, hv⟩ := hccdom cc (List.mem_cons_of_mem _ hcc)
                rw [h, haid_fresh] at hv
                exact Option.noConfusion hv
              exact reach_avoid_pres _ _ (createNodeId accT) hAloc' cc
                (sibling_no_reach hEinv hEcur2 hccE haidE hccne)
            have hnewmatch : CopyMatch t (copySub o t fuel a ares.fen
                ⟨(ensureChildNode accT s.cur ares).1,
                  (ensureChildNode accT s.cur ares).2, ares.fen,
                  some (s.fen, s.cur)⟩).tree a (createNodeId accT) := by
              refine ⟨acn, ac1, hacn, ?_, ?_, ?_⟩
              · rw [← hEid]
                exact hac1f
              · rw [hac1san, hasanEq]
              · intro l
                rw [← hEid]
                exact hAiff l
            have hrelA' : List.Forall₂ (CopyMatch t (copySub o t fuel a ares.fen
                ⟨(ensureChildNode accT s.cur ares).1,
                  (ensureChildNode accT s.cur ares).2, ares.fen,
                  some (s.fen, s.cur)⟩).tree)
                (done ++ [a]) (copies ++ [createNodeId accT]) :=
              List.rel_append htrans2
                (List.Forall₂.cons hnewmatch List.Forall₂.nil)
            have hucidist' : ∀ b ∈ rest, ∀ cc ∈ createNodeId s.tree ::
                (copies ++ [createNodeId accT]),
                ((NodeMap.find? (copySub o t fuel a ares.fen
                  ⟨(ensureChildNode accT s.cur ares).1,
                    (ensureChildNode accT s.cur ares).2, ares.fen,
                    some (s.fen, s.cur)⟩).tree.nodes cc).bind MoveNode.moveUci) ≠
                ((NodeMap.find? t.nodes b).bind MoveNode.moveUci) := by
              intro b hb cc hcc
              rcases List.mem_cons.mp hcc with hcc | hcc
              · obtain ⟨v, hv⟩ := hccdom cc (hcc ▸ List.mem_cons_self _ _)
                rw [hvalpres cc (hcc ▸ List.mem_cons_self _ _) v hv]
                have := hucidist b (List.mem_cons_of_mem a hb) cc
                  (hcc ▸ List.mem_cons_self _ _)
                rw [hv] at this
                exact this
              · rcases List.mem_append.mp hcc with hcc | hcc
                · obtain ⟨v, hv⟩ := hccdom cc (List.mem_cons_of_mem _ hcc)
                  rw [hvalpres cc (List.mem_cons_of_mem _ hcc) v hv]
                  have := hucidist b (List.mem_cons_of_mem a hb) cc
                    (List.mem_cons_of_mem _ hcc)
                  rw [hv] at this
                  exact this
                · rw [List.mem_singleton.mp hcc]
                  rw [← hEid, hac1f, Option.some_bind, hac1uci]
                  show some ares.uci ≠ _
                  have hp := (List.pairwise_cons.mp hsufpair).1 b hb
                  rw [hacn, Option.some_bind, hacuci] at hp
                  rw [hauciEq]
                  exact hp
            obtain ⟨copies2, hI, hC, hN, hF, hL⟩ := ihs (done ++ [a])
              (copies ++ [createNodeId accT]) _
              (fun x hx => hsufmem x (List.mem_cons_of_mem a hx))
              (List.pairwise_cons.mp hsufpair).2
              hucidist' hAinv hcurA' hnidA' hrelA'
            refine ⟨createNodeId accT :: copies2, hI, ?_, hN, ?_, ?_⟩
            · rw [hC]
              rw [List.append_assoc]
              rfl
            · have := hF
              rw [List.append_assoc, List.append_assoc] at this
              simp only [List.singleton_append] at this
              exact this
            · intro k n hk hkne
              have hne1 : k ≠ createNodeId accT := by
                intro h
                rw [h, haid_fresh] at hk
                exact Option.noConfusion hk
              exact hL k n (hAloc' k n (hEloc k n hk hkne) hne1) hkne
        -- run the loop over the alternatives, then copy the main subtree
        rw [hE0id]
        have hucidist0 : ∀ a ∈ alts, ∀ cc ∈ createNodeId s.tree :: ([] : List String),
            ((NodeMap.find? (ensureChildNode s.tree s.cur res).1.nodes cc).bind
              MoveNode.moveUci) ≠
            ((NodeMap.find? t.nodes a).bind MoveNode.moveUci) := by
          intro a ha cc hcc
          rcases List.mem_cons.mp hcc with hcc | hcc
          · subst hcc
            rw [hE0nid, Option.some_bind]
            show some res.uci ≠ _
            have hp := hheadrel a ha
            rw [hcn, Option.some_bind, hcuci] at hp
            rw [huciEq]
            exact hp
          · exact absurd hcc (List.not_mem_nil cc)
        have halts_mem : ∀ a ∈ alts, a ∈ node.children := by
          intro a ha
          rw [hch2]
          exact List.mem_cons_of_mem _ ha
        obtain ⟨copies2, hI, hC, hN, hF, hL⟩ := LOOP alts [] []
          (ensureChildNode s.tree s.cur res).1 halts_mem htailpw hucidist0
          hE0inv hE0cur' hE0nid List.Forall₂.nil
        have hC' : NodeMap.find? (copyAlts o t (boardFen o node.fen) s.fen s.cur
            (copySub o t fuel) alts (ensureChildNode s.tree s.cur res).1).nodes s.cur =
            some { c0 with children := createNodeId s.tree :: copies2 } := by
          rw [hC]
          rfl
        have hF' : List.Forall₂ (CopyMatch t (copyAlts o t (boardFen o node.fen) s.fen
            s.cur (copySub o t fuel) alts (ensureChildNode s.tree s.cur res).1))
            alts copies2 := hF
        obtain ⟨hFinv, hFloc, ⟨c1m, hc1mf, hc1msan, hc1muci, hc1mpar⟩, hFiff⟩ :=
          ih mainC cn res.fen
            ⟨copyAlts o t (boardFen o node.fen) s.fen s.cur (copySub o t fuel) alts
              (ensureChildNode s.tree s.cur res).1,
              createNodeId s.tree, res.fen, some (s.fen, s.cur)⟩
            { id := createNodeId s.tree, parentId := some s.cur, fen := res.fen, moveSan := some res.san, moveUci := some res.uci, children := [] }
            hcn hbfen.symm (by omega) hI hN rfl
        have hcurF : NodeMap.find? (copySub o t fuel mainC res.fen
            ⟨copyAlts o t (boardFen o node.fen) s.fen s.cur (copySub o t fuel) alts
              (ensureChildNode s.tree s.cur res).1,
              createNodeId s.tree, res.fen, some (s.fen, s.cur)⟩).tree.nodes s.cur =
            some { c0 with children := createNodeId s.tree :: copies2 } :=
          hFloc s.cur _ hC' (Ne.symm hnidne)
        refine ⟨hFinv, ?_, ?_, ?_⟩
        · intro k n hk hkne
          have hknid : k ≠ createNodeId s.tree := by
            intro h
            rw [h, hnid_fresh] at hk
            exact Option.noConfusion hk
          exact hFloc k n (hL k n (hE0loc k n hk hkne) hkne) hknid
        · exact ⟨{ c0 with children := createNodeId s.tree :: copies2 }, hcurF,
            rfl, rfl, rfl⟩
        · refine leafSeq_children_iff t _ X s.cur node
            { c0 with children := createNodeId s.tree :: copies2 } hX hcurF hch
            (by simp) ?_
          show List.Forall₂ _ node.children (createNodeId s.tree :: copies2)
          rw [hch2]
          refine List.Forall₂.cons ?_ ?_
          · refine ⟨cn, c1m, hcn, hc1mf, ?_, hFiff⟩
            rw [hc1msan, hsanEq]
          · refine forall2_copymatch_transfer t _ _ hI ?_ hF'
            intro cc hcc
            have hnodup := hI.child_nodup s.cur _ hC'
            have hccmem : cc ∈ ({ c0 with children := createNodeId s.tree :: copies2 } :
                MoveNode).children := by
              show cc ∈ createNodeId s.tree :: copies2
              exact List.mem_cons_of_mem _ hcc
            have hnidmem : createNodeId s.tree ∈ ({ c0 with children := createNodeId s.tree :: copies2 } : MoveNode).children := by
              show createNodeId s.tree ∈ createNodeId s.tree :: copies2
              exact List.mem_cons_self _ _
            have hccne : cc ≠ createNodeId s.tree := by
              intro h
              have := (List.nodup_cons.mp (by
                show (createNodeId s.tree :: copies2).Nodup
                exact hnodup)).1
              rw [← h] at this
              exact this hcc
            refine reach_avoid_pres _ _ (createNodeId s.tree) ?_ cc
              (sibling_no_reach hI hC' hccmem hnidmem hccne)
            intro k n hk hkne
            exact hFloc k n hk hkne

/-! ### Tokenization of the exported movetext -/

theorem tokenizeFuel_nil (f : Nat) : tokenizeFuel f [] = [] := by
  cases f <;> rfl

theorem tokenizeFuel_eq : ∀ (n : Nat) (cs : List Char) (f1 f2 : Nat),
    cs.length ≤ f1 → cs.length ≤ f2 → cs.length ≤ n →
    tokenizeFuel f1 cs = tokenizeFuel f2 cs := by
  intro n
  induction n with
  | zero =>
    intro cs f1 f2 _ _ hn
    have : cs = [] := List.length_eq_zero.mp (Nat.le_zero.mp hn)
    rw [this, tokenizeFuel_nil, tokenizeFuel_nil]
  | succ n ihn =>
    intro cs f1 f2 h1 h2 hn
    cases cs with
    | nil => rw [tokenizeFuel_nil, tokenizeFuel_nil]
    | cons c rest =>
      simp only [List.length_cons] at h1 h2 hn
      cases f1 with
      | zero => omega
      | succ g1 =>
        cases f2 with
        | zero => omega
        | succ g2 =>
          simp only [tokenizeFuel]
          by_cases hb : isTokenBoundary c = true
          · rw [if_pos hb, if_pos hb]
            by_cases hw : c.isWhitespace = true
            · rw [if_pos hw, if_pos hw]
              exact ihn rest g1 g2 (by omega) (by omega) (by omega)
            · rw [if_neg hw, if_neg hw]
              by_cases hbr : c = '{'
              · rw [if_pos hbr, if_pos hbr]
                have := skipBrace_length rest
                exact ihn (skipBrace rest) g1 g2 (by omega) (by omega) (by omega)
              · rw [if_neg hbr, if_neg hbr]
                by_cases hsc : c = ';'
                · rw [if_pos hsc, if_pos hsc]
                  have := skipLine_length rest
                  exact ihn (skipLine rest) g1 g2 (by omega) (by omega) (by omega)
                · rw [if_neg hsc, if_neg hsc]
                  exact congrArg _ (ihn rest g1 g2 (by omega) (by omega) (by omega))
          · rw [if_neg hb, if_neg hb]
            have := dropWhileChars_length_le (fun d => !isTokenBoundary d) rest
            exact congrArg _ (ihn (rest.dropWhile (fun d => !isTokenBoundary d)) g1 g2
              (by omega) (by omega) (by omega))

theorem tokenizeFuel_adequate (fuel : Nat) (cs : List Char) (h : cs.length ≤ fuel) :
    tokenizeFuel fuel cs = tokenizeAux cs :=
  tokenizeFuel_eq cs.length cs fuel cs.length h (Nat.le_refl _) (Nat.le_refl _)

theorem tokenizeAux_space (cs : List Char) : tokenizeAux (' ' :: cs) = tokenizeAux cs := by
  show tokenizeFuel (cs.length + 1) (' ' :: cs) = _
  simp only [tokenizeFuel]
  rw [if_pos (by decide), if_pos (by decide)]
  rfl

theorem tokenizeAux_lparen (cs : List Char) :
    tokenizeAux ('(' :: cs) = "(" :: tokenizeAux cs := by
  show tokenizeFuel (cs.length + 1) ('(' :: cs) = _
  simp only [tokenizeFuel]
  rw [if_pos (by decide), if_neg (by decide), if_neg (by decide), if_neg (by decide)]
  rfl

theorem tokenizeAux_rparen (cs : List Char) :
    tokenizeAux (')' :: cs) = ")" :: tokenizeAux cs := by
  show tokenizeFuel (cs.length + 1) (')' :: cs) = _
  simp only [tokenizeFuel]
  rw [if_pos (by decide), if_neg (by decide), if_neg (by decide), if_neg (by decide)]
  rfl

theorem takeWhile_all_append (p : Char → Bool) (ds tail : List Char)
    (h : ∀ c ∈ ds, p c = true) (ht : ∀ c cs, tail = c :: cs → p c = false) :
    (ds ++ tail).takeWhile p = ds ∧ (ds ++ tail).dropWhile p = tail := by
  induction ds with
  | nil =>
    cases tail with
    | nil => exact ⟨rfl, rfl⟩
    | cons c cs =>
      have := ht c cs rfl
      simp [List.takeWhile_cons, List.dropWhile_cons, this]
  | cons d ds ih =>
    have hd : p d = true := h d (List.mem_cons_self d ds)
    obtain ⟨h1, h2⟩ := ih (fun c hc => h c (List.mem_cons_of_mem d hc))
    simp [List.takeWhile_cons, List.dropWhile_cons, hd, h1, h2]

/-- Character lists whose head, if any, is a token boundary. -/
def BoundaryHead (cs : List Char) : Prop :=
  cs = [] ∨ ∃ d ds, cs = d :: ds ∧ isTokenBoundary d = true

theorem tokenize_clean_cons (tk : List Char) (cs : List Char)
    (hne : tk ≠ []) (hcl : ∀ c ∈ tk, isTokenBoundary c = false)
    (hcs : BoundaryHead cs) :
    tokenizeAux (tk ++ cs) = String.mk tk :: tokenizeAux cs := by
  obtain ⟨htake, hdrop⟩ := takeWhile_all_append (fun d => !isTokenBoundary d) tk cs
    (fun c hc => by
      show (!isTokenBoundary c) = true
      rw [hcl c hc]
      rfl)
    (by
      intro c cs' hc
      show (!isTokenBoundary c) = false
      rcases hcs with h | ⟨d, ds, hd, hbd⟩
      · rw [h] at hc
        exact List.noConfusion hc
      · rw [hd] at hc
        injection hc with hc1 _
        rw [hc1] at hbd
        rw [hbd]
        rfl)
  cases tk with
  | nil => exact absurd rfl hne
  | cons c tkr =>
    have hcb : isTokenBoundary c = false := hcl c (List.mem_cons_self c tkr)
    show tokenizeFuel ((c :: tkr ++ cs).length) (c :: tkr ++ cs) = _
    simp only [List.cons_append, List.length_cons]
    simp only [tokenizeFuel]
    rw [if_neg (by rw [hcb]; exact Bool.false_ne_true)]
    rw [show (c :: (tkr ++ cs)).takeWhile (fun d => !isTokenBoundary d) = c :: tkr from htake]
    rw [show (tkr ++ cs).dropWhile (fun d => !isTokenBoundary d) = cs from ?_]
    · rw [tokenizeFuel_adequate _ cs (by
        have := List.length_append tkr cs
        omega)]
    · have hdrop' := hdrop
      simp only [List.cons_append, List.dropWhile_cons] at hdrop'
      rw [if_pos (by rw [hcb]; rfl)] at hdrop'
      exact hdrop'

/-- A string tokenizes to a fixed token list in front of any
boundary-headed continuation. -/
def TokensOf (s : String) (ts : List String) : Prop :=
  ∀ tail, BoundaryHead tail → tokenizeAux (s.data ++ tail) = ts ++ tokenizeAux tail

theorem intercalate_go_data (s : String) :
    ∀ (l : List String) (acc : String), (String.intercalate.go acc s l).data =
      acc.data ++ l.flatMap (fun a => s.data ++ a.data) := by
  intro l
  induction l with
  | nil =>
    intro acc
    simp [String.intercalate.go]
  | cons a as ih =>
    intro acc
    simp only [String.intercalate.go]
    rw [ih]
    simp [String.data_append, List.flatMap_cons, List.append_assoc]

theorem intercalate_data_single (a : String) :
    (String.intercalate " " [a]).data = a.data := rfl

theorem intercalate_data_cons₂ (a b : String) (l : List String) :
    (String.intercalate " " (a :: b :: l)).data =
      a.data ++ ' ' :: (String.intercalate " " (b :: l)).data := by
  show (String.intercalate.go a " " (b :: l)).data = _
  rw [intercalate_go_data]
  rw [show (String.intercalate " " (b :: l)).data
      = b.data ++ l.flatMap (fun x => (" " : String).data ++ x.data) from
    intercalate_go_data " " l b]
  simp [List.flatMap_cons, List.append_assoc]

theorem tokensOf_simple (s : String) (hne : s.data ≠ [])
    (hcl : ∀ c ∈ s.data, isTokenBoundary c = false) : TokensOf s [s] := by
  intro tail htail
  rw [tokenize_clean_cons s.data tail hne hcl htail]
  rfl

theorem tokensOf_cons₂ (a b : String) (l : List String) (ts tsl : List String)
    (hta : TokensOf a ts) (htl : TokensOf (String.intercalate " " (b :: l)) tsl) :
    TokensOf (String.intercalate " " (a :: b :: l)) (ts ++ tsl) := by
  intro tail htail
  rw [intercalate_data_cons₂, List.append_assoc, List.cons_append]
  rw [hta (' ' :: ((String.intercalate " " (b :: l)).data ++ tail))
    (Or.inr ⟨' ', _, rfl, by decide⟩)]
  rw [tokenizeAux_space, htl tail htail, List.append_assoc]

theorem tokensOf_emptyList {ts : List String}
    (h : TokensOf (String.intercalate " " []) ts) : ts = [] := by
  have := h [] (Or.inl rfl)
  simp only [tokenizeFuel_nil] at this
  have h2 : tokenizeAux ((String.intercalate " " [] : String).data ++ []) = [] := rfl
  rw [h2] at this
  exact (List.append_eq_nil.mp this.symm).1

theorem tokensOf_cons_general (a : String) (ts : List String) (l : List String)
    (tsl : List String) (hta : TokensOf a ts)
    (htl : TokensOf (String.intercalate " " l) tsl)
    (hnil : l = [] → tsl = []) :
    TokensOf (String.intercalate " " (a :: l)) (ts ++ tsl) := by
  cases l with
  | nil =>
    intro tail htail
    rw [hnil rfl, List.append_nil]
    rw [show (String.intercalate " " [a]).data = a.data from rfl]
    exact hta tail htail
  | cons b l' => exact tokensOf_cons₂ a b l' ts tsl hta htl

theorem tokensOf_nil : TokensOf (String.intercalate " " []) [] := by
  intro tail _
  rfl

/-- `buildVariationTokens`' alternative `flatMap`, as a named recursion (so
the tokenization argument can induct over the alternative list). -/
def buildAlts (o : Oracle) (tree : MoveTree) (altFen : String)
    (recb : String → String → List String) : List String → List String
  | [] => []
  | altChildId :: more =>
    (match (NodeMap.find? tree.nodes altChildId).bind MoveNode.moveUci with
     | none => []
     | some altUci =>
       match uciToMoveInput altUci with
       | none => []
       | some altInput =>
         match o.moveInput altFen altInput with
         | none => []
         | some altRes =>
           ["(" ++ String.intercalate " "
               (formatMoveNum o altFen :: altRes.san :: recb altChildId altRes.fen)
             ++ ")"]) ++
    buildAlts o tree altFen recb more

theorem flatMap_eq_buildAlts (o : Oracle) (tree : MoveTree) (node : MoveNode)
    (fuel : Nat) : ∀ alts : List String,
    (alts.flatMap (fun altChildId =>
      match (NodeMap.find? tree.nodes altChildId).bind MoveNode.moveUci with
      | none => []
      | some altUci =>
        match uciToMoveInput altUci with
        | none => []
        | some altInput =>
          match o.moveInput (boardFen o node.fen) altInput with
          | none => []
          | some altRes =>
            ["(" ++ String.intercalate " "
                (formatMoveNum o (boardFen o node.fen) :: altRes.san ::
                  buildVariationTokens o tree fuel altChildId altRes.fen)
              ++ ")"])) =
    buildAlts o tree (boardFen o node.fen) (buildVariationTokens o tree fuel) alts := by
  intro alts
  induction alts with
  | nil => rfl
  | cons a as ih =>
    simp only [List.flatMap_cons, buildAlts]
    rw [ih]

theorem bvt_nil_iff_flat_nil (o : Oracle) (t : MoveTree) :
    ∀ (fuel : Nat) (X fen : String),
    (buildVariationTokens o t fuel X fen = [] ↔ flatTokens o t fuel X fen = []) := by
  intro fuel X fen
  cases fuel with
  | zero => simp [buildVariationTokens, flatTokens]
  | succ f =>
    simp only [buildVariationTokens, flatTokens]
    cases hfind : NodeMap.find? t.nodes X with
    | none => simp
    | some node =>
      by_cases hch : node.children = []
      · simp [hch]
      · simp only [if_neg hch]
        cases hfil : node.children.filter (fun childId =>
            ((NodeMap.find? t.nodes childId).bind MoveNode.moveUci).isSome) with
        | nil => simp
        | cons mainC alts =>
          cases hu : (NodeMap.find? t.nodes mainC).bind MoveNode.moveUci with
          | none => simp [hu]
          | some mainUci =>
            cases hi : uciToMoveInput mainUci with
            | none => simp [hu, hi]
            | some mainInput =>
              cases hm : o.moveInput fen mainInput with
              | none => simp [hu, hi, hm]
              | some mainRes => simp [hu, hi, hm]

/-- The tokenization correspondence at a fixed fuel: the glued exporter
output re-tokenizes to the flattened token stream. -/
def TokFlatAt (o : Oracle) (t : MoveTree) (f : Nat) : Prop :=
  ∀ X node fen, NodeMap.find? t.nodes X = some node → fen = boardFen o node.fen →
    TokensOf (String.intercalate " " (buildVariationTokens o t f X fen))
      (flatTokens o t f X fen)

theorem buildAlts_tok (o : Oracle) (t : MoveTree) (hcoh : Coherent o t) (f : Nat)
    (X : String) (node : MoveNode) (hX : NodeMap.find? t.nodes X = some node)
    (IH : TokFlatAt o t f) :
    ∀ alts, (∀ a ∈ alts, a ∈ node.children) →
    ∀ (M : List String) (MT : List String),
      TokensOf (String.intercalate " " M) MT → (M = [] → MT = []) →
      TokensOf (String.intercalate " "
          (buildAlts o t (boardFen o node.fen) (buildVariationTokens o t f) alts ++ M))
        (flatAlts o t (boardFen o node.fen) (flatTokens o t f) alts ++ MT) ∧
      (buildAlts o t (boardFen o node.fen) (buildVariationTokens o t f) alts ++ M = [] →
        flatAlts o t (boardFen o node.fen) (flatTokens o t f) alts ++ MT = []) := by
  intro alts
  induction alts with
  | nil =>
    intro _ M MT hM hMnil
    simp only [buildAlts, flatAlts, List.nil_append]
    exact ⟨hM, hMnil⟩
  | cons a rest ih =>
    intro hmem M MT hM hMnil
    obtain ⟨acn, auci, ainp, ares, hacn, hacuci, hainp, hamv, hauciEq, habfen, hasanEq,
      hamsan, haclean⟩ := hcoh X node a hX (hmem a (List.mem_cons_self a rest))
    obtain ⟨hrec, hrecnil⟩ := ih (fun x hx => hmem x (List.mem_cons_of_mem a hx))
      M MT hM hMnil
    obtain ⟨hp_ign, hp_rp, hp_lp, hp_ne, hp_bnd⟩ :=
      formatMoveNum_props o (boardFen o node.fen)
    obtain ⟨hs_ne, hs_bnd, hs_ign, hs_san⟩ := haclean
    simp only [buildAlts, flatAlts, hacn, Option.some_bind, hacuci, hainp, hamv]
    have h1 : TokensOf (formatMoveNum o (boardFen o node.fen))
        [formatMoveNum o (boardFen o node.fen)] := tokensOf_simple _ hp_ne hp_bnd
    have h2 : TokensOf ares.san [ares.san] := tokensOf_simple _ hs_ne hs_bnd
    have h3 : TokensOf (String.intercalate " "
        (buildVariationTokens o t f a ares.fen)) (flatTokens o t f a ares.fen) :=
      IH a acn ares.fen hacn habfen.symm
    have hmid := tokensOf_cons_general ares.san [ares.san]
      (buildVariationTokens o t f a ares.fen) (flatTokens o t f a ares.fen) h2 h3
      ((bvt_nil_iff_flat_nil o t f a ares.fen).mp)
    have htop := tokensOf_cons_general (formatMoveNum o (boardFen o node.fen))
      [formatMoveNum o (boardFen o node.fen)]
      (ares.san :: buildVariationTokens o t f a ares.fen)
      ([ares.san] ++ flatTokens o t f a ares.fen) h1 hmid
      (fun h => List.noConfusion h)
    have hv : TokensOf ("(" ++ String.intercalate " "
        (formatMoveNum o (boardFen o node.fen) :: ares.san ::
          buildVariationTokens o t f a ares.fen) ++ ")")
        ("(" :: formatMoveNum o (boardFen o node.fen) :: ares.san ::
          (flatTokens o t f a ares.fen ++ [")"])) := by
      intro tail htail
      have hdata : ("(" ++ String.intercalate " "
          (formatMoveNum o (boardFen o node.fen) :: ares.san ::
            buildVariationTokens o t f a ares.fen) ++ ")").data ++ tail =
          '(' :: ((String.intercalate " "
            (formatMoveNum o (boardFen o node.fen) :: ares.san ::
              buildVariationTokens o t f a ares.fen)).data ++ (')' :: tail)) := by
        simp [String.data_append]
      rw [hdata, tokenizeAux_lparen]
      rw [htop (')' :: tail) (Or.inr ⟨')', tail, rfl, by decide⟩)]
      rw [tokenizeAux_rparen]
      simp [List.append_assoc]
    have hfull := tokensOf_cons_general _ _ _ _ hv hrec hrecnil
    constructor
    · intro tail htail
      have := hfull tail htail
      simp only [List.cons_append, List.nil_append, List.append_assoc] at this ⊢
      rw [this]
    · intro h
      simp at h

theorem tokFlat (o : Oracle) (t : MoveTree) (hcoh : Coherent o t) :
    ∀ f, TokFlatAt o t f := by
  intro f
  induction f with
  | zero =>
    intro X node fen _ _
    exact tokensOf_nil
  | succ f ihf =>
    intro X node fen hX hfen
    subst hfen
    simp only [buildVariationTokens, flatTokens, hX]
    by_cases hch : node.children = []
    · simp only [if_pos hch]
      exact tokensOf_nil
    · simp only [if_neg hch]
      cases hfil : node.children.filter (fun childId =>
          ((NodeMap.find? t.nodes childId).bind MoveNode.moveUci).isSome) with
      | nil => exact tokensOf_nil
      | cons mainC alts =>
        have hmainmem : mainC ∈ node.children := by
          have hm : mainC ∈ node.children.filter (fun childId =>
              ((NodeMap.find? t.nodes childId).bind MoveNode.moveUci).isSome) := by
            rw [hfil]
            exact List.mem_cons_self _ _
          exact List.mem_of_mem_filter hm
        have halts : ∀ a ∈ alts, a ∈ node.children := by
          intro a ha
          have hm : a ∈ node.children.filter (fun childId =>
              ((NodeMap.find? t.nodes childId).bind MoveNode.moveUci).isSome) := by
            rw [hfil]
            exact List.mem_cons_of_mem _ ha
          exact List.mem_of_mem_filter hm
        obtain ⟨cn, uci, inp, res, hcn, hcuci, hinp, hmv, huciEq, hbfen, hsanEq, hmsan,
          hclean⟩ := hcoh X node mainC hX hmainmem
        simp only [hcn, Option.some_bind, hcuci, hinp, hmv]
        rw [flatMap_eq_buildAlts o t node f alts]
        obtain ⟨hp_ign, hp_rp, hp_lp, hp_ne, hp_bnd⟩ :=
          formatMoveNum_props o (boardFen o node.fen)
        obtain ⟨hs_ne, hs_bnd, hs_ign, hs_san⟩ := hclean
        obtain ⟨hpart, hpartnil⟩ := buildAlts_tok o t hcoh f X node hX ihf alts halts
          (buildVariationTokens o t f mainC res.fen) (flatTokens o t f mainC res.fen)
          (ihf mainC cn res.fen hcn hbfen.symm)
          ((bvt_nil_iff_flat_nil o t f mainC res.fen).mp)
        have h2 := tokensOf_cons_general res.san [res.san] _ _
          (tokensOf_simple _ hs_ne hs_bnd) hpart hpartnil
        have h1 := tokensOf_cons_general (formatMoveNum o (boardFen o node.fen))
          [formatMoveNum o (boardFen o node.fen)] _ _
          (tokensOf_simple _ hp_ne hp_bnd) h2 (fun h => List.noConfusion h)
        exact h1

/-! ### From the exported string to the movetext tokens -/

/-- No newline or carriage-return characters. -/
def NoLF (cs : List Char) : Prop := ∀ c ∈ cs, c ≠ '\n' ∧ c ≠ '\r'

theorem boundary_free_noLF {cs : List Char}
    (h : ∀ c ∈ cs, isTokenBoundary c = false) : NoLF cs := by
  intro c hc
  constructor <;> intro he <;> rw [he] at hc <;>
    exact absurd (h _ hc) (by decide)

theorem normalizeNewlines_id : ∀ cs : List Char, (∀ c ∈ cs, c ≠ '\r') →
    normalizeNewlines cs = cs := by
  intro cs
  induction cs with
  | nil => intro _; rfl
  | cons c rest ih =>
    intro h
    have hc : c ≠ '\r' := (h c (List.mem_cons_self c rest))
    have hrest := ih (fun x hx => h x (List.mem_cons_of_mem c hx))
    show normalizeNewlines (c :: rest) = c :: rest
    unfold normalizeNewlines
    split
    · rename_i heq
      exact List.noConfusion heq
    · rename_i rest' heq
      injection heq with h1 _
      exact absurd h1 hc
    · rename_i cx restx heq
      injection heq with h1 h2
      rw [← h1, ← h2, hrest]

theorem dropWhile_append_last (p : Char → Bool) (A : List Char) (c : Char)
    (hc : p c = false) : (A ++ [c]).dropWhile p = A.dropWhile p ++ [c] := by
  induction A with
  | nil => simp [List.dropWhile_cons, hc]
  | cons a A ih =>
    by_cases ha : p a = true
    · simp [List.dropWhile_cons, ha, ih]
    · simp [List.dropWhile_cons, ha]

/-- JS `trim` is the identity on a list whose first and last characters are
not whitespace. -/
theorem trimChars_id (cs : List Char) (c : Char) (r : List Char) (d : Char)
    (r' : List Char) (h1 : cs = c :: r) (hc : c.isWhitespace = false)
    (h2 : cs = r' ++ [d]) (hd : d.isWhitespace = false) :
    trimChars cs = cs := by
  unfold trimChars
  rw [h1, List.dropWhile_cons, if_neg (by simp [hc])]
  rw [← h1, h2, List.reverse_append]
  simp only [List.reverse_cons, List.reverse_nil, List.nil_append, List.singleton_append]
  rw [List.dropWhile_cons, if_neg (by simp [hd])]
  simp

/-- JS `trim` keeps a non-whitespace head in place. -/
theorem trimChars_head (c : Char) (r : List Char) (hc : c.isWhitespace = false) :
    trimChars (c :: r) = c :: (r.reverse.dropWhile Char.isWhitespace).reverse := by
  unfold trimChars
  rw [List.dropWhile_cons, if_neg (by simp [hc])]
  rw [List.reverse_cons, dropWhile_append_last _ _ _ hc, List.reverse_append]
  simp

theorem trimChars_cons_space (M : List Char) : trimChars (' ' :: M) = trimChars M := by
  unfold trimChars
  rw [List.dropWhile_cons, if_pos (by decide)]

/-- No position in the text matches the game splitter `\n{2,}(?=[Event )`:
no suffix both starts with two newlines and continues, past the newline run,
with the `[Event `-header lead. -/
def NoGameSplit (cs : List Char) : Prop :=
  ∀ l2, l2 <:+ cs → 2 ≤ (l2.takeWhile (fun d => d == '\n')).length →
    leadsWith "[Event ".data (l2.dropWhile (fun d => d == '\n')) = false

theorem noGameSplit_suffix {cs l : List Char} (h : NoGameSplit cs) (hl : l <:+ cs) :
    NoGameSplit l :=
  fun l2 h2 => h l2 (h2.trans hl)

/-- On split-free input the game splitter returns the whole text as the one
chunk. -/
theorem splitGames_nosplit : ∀ (fuel : Nat) (acc cs : List Char), cs.length ≤ fuel →
    NoGameSplit cs → splitGamesFuel true fuel acc cs = [acc.reverse ++ cs] := by
  intro fuel
  induction fuel with
  | zero =>
    intro acc cs hlen _
    have hnil : cs = [] := List.length_eq_zero.mp (Nat.le_zero.mp hlen)
    subst hnil
    simp [splitGamesFuel]
  | succ fuel ih =>
    intro acc cs hlen hns
    cases cs with
    | nil => simp [splitGamesFuel]
    | cons c rest =>
      simp only [List.length_cons] at hlen
      have hrec : splitGamesFuel true fuel (c :: acc) rest = [(c :: acc).reverse ++ rest] :=
        ih (c :: acc) rest (by omega)
          (noGameSplit_suffix hns (List.suffix_cons c rest))
      simp only [splitGamesFuel]
      by_cases hc : c = '\n'
      · rw [if_pos hc]
        have hcond : (decide (2 ≤ ((c :: rest).takeWhile (fun d => d == '\n')).length) &&
            (!true || leadsWith "[Event ".data
              ((c :: rest).dropWhile (fun d => d == '\n')))) = false := by
          by_cases hrun : 2 ≤ ((c :: rest).takeWhile (fun d => d == '\n')).length
          · have hlead := hns (c :: rest) (List.suffix_refl _) hrun
            rw [hlead]
            simp
          · rw [decide_eq_false hrun]
            rfl
        rw [hcond, if_neg (by decide)]
        rw [hrec]
        simp
      · rw [if_neg hc]
        rw [hrec]
        simp

theorem suffix_append_cases {l A B : List Char} (h : l <:+ A ++ B) :
    l <:+ B ∨ ∃ a, a <:+ A ∧ a ≠ [] ∧ l = a ++ B := by
  induction A with
  | nil => exact Or.inl (by simpa using h)
  | cons x A ih =>
    rw [List.cons_append] at h
    rcases List.suffix_cons_iff.mp h with h | h
    · exact Or.inr ⟨x :: A, List.suffix_refl _, by simp, by rw [h, List.cons_append]⟩
    · rcases ih h with h' | ⟨a, ha, hne, heq⟩
      · exact Or.inl h'
      · exact Or.inr ⟨a, ha.trans (List.suffix_cons x A), hne, heq⟩

/-- Header line discipline: every newline is immediately followed by `[`. -/
def LinesOK (cs : List Char) : Prop :=
  ∀ l2 rest, l2 <:+ cs → l2 = '\n' :: rest → ∃ r, rest = '[' :: r

theorem linesOK_append {A B : List Char} (hA : ∀ c ∈ A, c ≠ '\n') (hB : LinesOK B) :
    LinesOK (A ++ B) := by
  intro l2 rest hsuf heq
  rcases suffix_append_cases hsuf with h | ⟨a, ha, hne, hl⟩
  · exact hB l2 rest h heq
  · cases a with
    | nil => exact absurd rfl hne
    | cons x a' =>
      have heq2 : x :: (a' ++ B) = '\n' :: rest := by
        rw [← List.cons_append, ← hl]
        exact heq
      injection heq2 with h1 _
      exact absurd h1 (hA x (ha.subset (List.mem_cons_self x a')))

theorem linesOK_lf {B : List Char} (hB : LinesOK B) (hhead : ∃ r, B = '[' :: r) :
    LinesOK ('\n' :: B) := by
  intro l2 rest hsuf heq
  rcases List.suffix_cons_iff.mp hsuf with h | h
  · rw [heq] at h
    injection h with _ h2
    rw [h2]
    exact hhead
  · exact hB l2 rest h heq

theorem linesOK_flat (lines : List String)
    (h : ∀ L ∈ lines, (∃ r, L.data = '[' :: r) ∧ (∀ c ∈ L.data, c ≠ '\n')) :
    LinesOK (lines.flatMap (fun x => '\n' :: x.data)) := by
  induction lines with
  | nil =>
    intro l2 rest hsuf heq
    have hl2 : l2 = [] := List.suffix_nil.mp (by simpa using hsuf)
    rw [hl2] at heq
    exact List.noConfusion heq
  | cons L ls ih =>
    have hL := h L (List.mem_cons_self L ls)
    have hrec := ih (fun x hx => h x (List.mem_cons_of_mem L hx))
    rw [List.flatMap_cons, List.cons_append]
    refine linesOK_lf (linesOK_append hL.2 hrec) ?_
    obtain ⟨r, hr⟩ := hL.1
    exact ⟨r ++ ls.flatMap (fun x => '\n' :: x.data), by rw [hr, List.cons_append]⟩

theorem mem_flat_lines {lines : List String} {c : Char}
    (hc : c ∈ lines.flatMap (fun x => '\n' :: x.data)) :
    c = '\n' ∨ ∃ L ∈ lines, c ∈ L.data := by
  rw [List.mem_flatMap] at hc
  obtain ⟨L, hL, hcL⟩ := hc
  rcases List.mem_cons.mp hcL with h | h
  · exact Or.inl h
  · exact Or.inr ⟨L, hL, h⟩

/-- Splitting the header block followed by a blank line and the movetext at
newlines yields the header lines, one empty line and the movetext. -/
theorem splitOn_header : ∀ (lines : List String) (front M : List Char),
    (∀ c ∈ front, (c == '\n') = false) →
    (∀ L ∈ lines, ∀ c ∈ L.data, (c == '\n') = false) →
    (∀ c ∈ M, (c == '\n') = false) →
    List.splitOnP (fun c => c == '\n')
        (front ++ (lines.flatMap (fun x => '\n' :: x.data) ++ '\n' :: '\n' :: M))
      = (front :: lines.map String.data) ++ [[], M] := by
  intro lines
  induction lines with
  | nil =>
    intro front M hf _ hM
    rw [List.flatMap_nil, List.nil_append]
    rw [List.splitOnP_first (fun c => c == '\n') front
      (fun x hx => by simp [hf x hx]) '\n' (by decide) ('\n' :: M)]
    rw [List.splitOnP_cons, if_pos (by decide)]
    rw [List.splitOnP_eq_single (fun c => c == '\n') M (fun x hx => by simp [hM x hx])]
    rfl
  | cons L ls ih =>
    intro front M hf hlines hM
    rw [List.flatMap_cons]
    have hassoc : front ++ ((('\n' :: L.data) ++ ls.flatMap (fun x => '\n' :: x.data))
          ++ '\n' :: '\n' :: M)
        = front ++ '\n' :: (L.data ++
            (ls.flatMap (fun x => '\n' :: x.data) ++ '\n' :: '\n' :: M)) := by
      simp [List.append_assoc]
    rw [hassoc]
    rw [List.splitOnP_first (fun c => c == '\n') front
      (fun x hx => by simp [hf x hx]) '\n' (by decide)
      (L.data ++ (ls.flatMap (fun x => '\n' :: x.data) ++ '\n' :: '\n' :: M))]
    rw [ih L.data M (hlines L (List.mem_cons_self L ls))
      (fun x hx => hlines x (List.mem_cons_of_mem L hx)) hM]
    simp

theorem intercalate_data_cons (a : String) (l : List String) :
    (String.intercalate " " (a :: l)).data
      = a.data ++ l.flatMap (fun x => ' ' :: x.data) := by
  show (String.intercalate.go a " " l).data = _
  exact intercalate_go_data " " l a

theorem mem_intercalate_data : ∀ (l : List String) (c : Char),
    c ∈ (String.intercalate " " l).data → c = ' ' ∨ ∃ s ∈ l, c ∈ s.data := by
  intro l
  induction l with
  | nil =>
    intro c hc
    have hd : (String.intercalate " " ([] : List String)).data = [] := rfl
    rw [hd] at hc
    exact absurd hc (List.not_mem_nil c)
  | cons a as ih =>
    intro c hc
    cases as with
    | nil =>
      rw [intercalate_data_single] at hc
      exact Or.inr ⟨a, List.mem_cons_self a [], hc⟩
    | cons b l' =>
      rw [intercalate_data_cons₂] at hc
      rcases List.mem_append.mp hc with h | h
      · exact Or.inr ⟨a, List.mem_cons_self _ _, h⟩
      · rcases List.mem_cons.mp h with h | h
        · exact Or.inl h
        · rcases ih c h with h | ⟨s, hs, hcs⟩
          · exact Or.inl h
          · exact Or.inr ⟨s, List.mem_cons_of_mem a hs, hcs⟩

/-- On a coherent tree every exported token is newline-free. -/
theorem bvt_noLF (o : Oracle) (t : MoveTree) (hcoh : Coherent o t) :
    ∀ (f : Nat) (X fen : String) (node : MoveNode),
      NodeMap.find? t.nodes X = some node → fen = boardFen o node.fen →
      ∀ tok ∈ buildVariationTokens o t f X fen, NoLF tok.data := by
  intro f
  induction f with
  | zero =>
    intro X fen node _ _ tok htok
    exact absurd htok (List.not_mem_nil tok)
  | succ f ihf =>
    intro X fen node hX hfen tok htok
    subst hfen
    simp only [buildVariationTokens, hX] at htok
    by_cases hch : node.children = []
    · rw [if_pos hch] at htok
      exact absurd htok (List.not_mem_nil tok)
    · rw [if_neg hch, coherent_filter_children o t hcoh X node hX] at htok
      cases hch2 : node.children with
      | nil => exact absurd hch2 hch
      | cons mainC alts =>
        rw [hch2] at htok
        dsimp only at htok
        have hmainmem : mainC ∈ node.children := by
          rw [hch2]
          exact List.mem_cons_self _ _
        obtain ⟨cn, uci, inp, res, hcn, hcuci, hinp, hmv, huciEq, hbfen, hsanEq, hmsan,
          hclean⟩ := hcoh X node mainC hX hmainmem
        rw [hcn] at htok
        simp only [Option.some_bind, hcuci, hinp, hmv] at htok
        obtain ⟨hp_ign, hp_rp, hp_lp, hp_ne, hp_bnd⟩ :=
          formatMoveNum_props o (boardFen o node.fen)
        rcases List.mem_cons.mp htok with htok | htok
        · rw [htok]
          exact boundary_free_noLF hp_bnd
        rcases List.mem_cons.mp htok with htok | htok
        · rw [htok]
          exact boundary_free_noLF hclean.2.1
        rcases List.mem_append.mp htok with htok | htok
        · rw [List.mem_flatMap] at htok
          obtain ⟨a, ha, hta⟩ := htok
          have hamem : a ∈ node.children := by
            rw [hch2]
            exact List.mem_cons_of_mem _ ha
          obtain ⟨acn, auci, ainp, ares, hacn, hacuci, hainp, hamv, hauciEq, habfen,
            hasanEq, hamsan, haclean⟩ := hcoh X node a hX hamem
          rw [hacn] at hta
          simp only [Option.some_bind, hacuci, hainp, hamv] at hta
          rw [List.mem_singleton] at hta
          rw [hta]
          intro ch hc
          rw [String.data_append, String.data_append] at hc
          rcases List.mem_append.mp hc with hc | hc
          · rcases List.mem_append.mp hc with hc | hc
            · rw [show ("(" : String).data = ['('] from rfl] at hc
              rw [List.mem_singleton.mp hc]
              exact ⟨by decide, by decide⟩
            · rcases mem_intercalate_data _ ch hc with hsp | ⟨s, hs, hcs⟩
              · rw [hsp]
                exact ⟨by decide, by decide⟩
              · rcases List.mem_cons.mp hs with hs | hs
                · rw [hs] at hcs
                  exact boundary_free_noLF hp_bnd ch hcs
                · rcases List.mem_cons.mp hs with hs | hs
                  · rw [hs] at hcs
                    exact boundary_free_noLF haclean.2.1 ch hcs
                  · exact ihf a ares.fen acn hacn habfen.symm s hs ch hcs
          · rw [show (")" : String).data = [')'] from rfl] at hc
            rw [List.mem_singleton.mp hc]
            exact ⟨by decide, by decide⟩
        · exact ihf mainC res.fen cn hcn hbfen.symm tok htok

/-- The first exported token is always the current move-number token. -/
theorem bvt_head (o : Oracle) (t : MoveTree) (f : Nat) (X fen : String)
    (tok : String) (toks : List String)
    (h : buildVariationTokens o t f X fen = tok :: toks) :
    tok = formatMoveNum o fen := by
  cases f with
  | zero => exact List.noConfusion h
  | succ f =>
    simp only [buildVariationTokens] at h
    split at h
    · exact List.noConfusion h
    · split at h
      · exact List.noConfusion h
      · split at h
        · exact List.noConfusion h
        · split at h
          · exact List.noConfusion h
          · split at h
            · exact List.noConfusion h
            · split at h
              · exact List.noConfusion h
              · injection h with h1 _
                exact h1.symm

theorem formatMoveNum_head (o : Oracle) (fen : String) :
    ∃ m ms, (formatMoveNum o fen).data = m :: ms ∧ m.isWhitespace = false ∧ m ≠ '[' := by
  have main : ∀ (dstr s : String), s = Nat.repr (o.moveNumber fen) ++ dstr →
      ∃ m ms, s.data = m :: ms ∧ m.isWhitespace = false ∧ m ≠ '[' := by
    intro dstr s hs
    have hdata : s.data = decDigits (o.moveNumber fen) ++ dstr.data := by
      rw [hs, String.data_append, nat_repr_data]
    cases hdd : decDigits (o.moveNumber fen) with
    | nil => exact absurd hdd (decDigits_ne_nil _)
    | cons d ds =>
      have hp := decDigits_props (o.moveNumber fen) d
        (by rw [hdd]; exact List.mem_cons_self _ _)
      refine ⟨d, ds ++ dstr.data, by rw [hdata, hdd]; rfl, ?_, ?_⟩
      · have hb := hp.2
        unfold isTokenBoundary at hb
        simp only [Bool.or_eq_false_iff] at hb
        exact hb.1.1.1.1
      · intro he
        rw [he] at hp
        exact absurd hp.1 (by decide)
  unfold formatMoveNum
  split
  · exact main "." _ rfl
  · exact main "..." _ rfl

/-- Structure of the exported movetext: newline-free, headed by a
non-whitespace character other than `[`, `*`-terminated, and re-tokenizing
to the flattened exporter stream followed by the result token. -/
theorem exportMoveText_facts (o : Oracle) (t : MoveTree) (hcoh : Coherent o t)
    (root : MoveNode) (hroot : NodeMap.find? t.nodes t.rootId = some root)
    (hrfen : boardFen o root.fen = o.startFen) :
    NoLF (exportMoveText o t).data ∧
    (∃ m ms, (exportMoveText o t).data = m :: ms ∧ m.isWhitespace = false ∧ m ≠ '[') ∧
    (∃ r', (exportMoveText o t).data = r' ++ ['*']) ∧
    tokenizeAux (exportMoveText o t).data
      = flatTokens o t (exportFuel t) t.rootId o.startFen ++ ["*"] := by
  have hsplit : exportMoveText o t =
      if buildVariationTokens o t (exportFuel t) t.rootId o.startFen = [] then "*"
      else String.intercalate " "
        (buildVariationTokens o t (exportFuel t) t.rootId o.startFen) ++ " *" := rfl
  rw [hsplit]
  cases htoks : buildVariationTokens o t (exportFuel t) t.rootId o.startFen with
  | nil =>
    rw [if_pos rfl]
    have hflat : flatTokens o t (exportFuel t) t.rootId o.startFen = [] :=
      (bvt_nil_iff_flat_nil o t (exportFuel t) t.rootId o.startFen).mp htoks
    rw [hflat]
    exact ⟨by unfold NoLF; decide, ⟨'*', [], rfl, by decide, by decide⟩, ⟨[], rfl⟩,
      by decide⟩
  | cons tok0 toks' =>
    rw [if_neg (by simp)]
    have htokmem : ∀ s ∈ tok0 :: toks', NoLF s.data := by
      intro s hs
      refine bvt_noLF o t hcoh (exportFuel t) t.rootId o.startFen root hroot
        hrfen.symm s ?_
      rw [htoks]
      exact hs
    have hdata : (String.intercalate " " (tok0 :: toks') ++ " *").data
        = (String.intercalate " " (tok0 :: toks')).data ++ [' ', '*'] := by
      rw [String.data_append]
    refine ⟨?_, ?_, ?_, ?_⟩
    · rw [hdata]
      intro c hc
      rcases List.mem_append.mp hc with hc | hc
      · rcases mem_intercalate_data _ c hc with h | ⟨s, hs, hcs⟩
        · rw [h]
          exact ⟨by decide, by decide⟩
        · exact htokmem s hs c hcs
      · rcases List.mem_cons.mp hc with h | hc
        · rw [h]
          exact ⟨by decide, by decide⟩
        · rw [List.mem_singleton.mp hc]
          exact ⟨by decide, by decide⟩
    · have h0 : tok0 = formatMoveNum o o.startFen :=
        bvt_head o t (exportFuel t) t.rootId o.startFen tok0 toks' htoks
      obtain ⟨m, ms, hm, hmw, hmb⟩ := formatMoveNum_head o o.startFen
      rw [hdata, intercalate_data_cons, h0, hm]
      exact ⟨m, ms ++ toks'.flatMap (fun x => ' ' :: x.data) ++ [' ', '*'],
        by simp [List.append_assoc], hmw, hmb⟩
    · rw [hdata]
      exact ⟨(String.intercalate " " (tok0 :: toks')).data ++ [' '],
        (List.append_assoc _ [' '] ['*']).symm⟩
    · rw [hdata, ← htoks]
      have htf := tokFlat o t hcoh (exportFuel t) t.rootId root o.startFen hroot hrfen.symm
      have hrun := htf [' ', '*'] (Or.inr ⟨' ', ['*'], rfl, by decide⟩)
      rw [hrun]
      congr 1

theorem leadsWith_event_false (m : Char) (ms : List Char) (hm : m ≠ '[') :
    leadsWith "[Event ".data (m :: ms) = false := by
  show leadsWith ('[' :: "Event ".data) (m :: ms) = false
  simp only [leadsWith]
  rw [beq_eq_false_iff_ne.mpr (Ne.symm hm)]
  rfl

/-- The export text never matches the game splitter: inside the header every
newline is followed by `[` but singly, and the blank line is followed by the
movetext, which does not start with `[`. -/
theorem noGameSplit_of (H M : List Char) (hH : LinesOK H)
    (hM : ∀ c ∈ M, c ≠ '\n') (hMb : M = [] ∨ ∃ m ms, M = m :: ms ∧ m ≠ '[') :
    NoGameSplit (H ++ '\n' :: '\n' :: M) := by
  intro l2 hsuf hrun
  rcases suffix_append_cases hsuf with h | ⟨a, ha, hane, hl⟩
  · rcases List.suffix_cons_iff.mp h with h | h
    · rw [h]
      rw [List.dropWhile_cons, if_pos (by decide), List.dropWhile_cons, if_pos (by decide)]
      rcases hMb with hM0 | ⟨m, ms, hMm, hmne⟩
      · rw [hM0]
        rfl
      · have hmn : m ≠ '\n' := hM m (by rw [hMm]; exact List.mem_cons_self _ _)
        rw [hMm, List.dropWhile_cons, if_neg (by simp [hmn])]
        exact leadsWith_event_false m ms hmne
    · rcases List.suffix_cons_iff.mp h with h | h
      · rw [h] at hrun
        rw [List.takeWhile_cons, if_pos (by decide)] at hrun
        rcases hMb with hM0 | ⟨m, ms, hMm, _⟩
        · rw [hM0] at hrun
          exact absurd hrun (by decide)
        · have hmn : m ≠ '\n' := hM m (by rw [hMm]; exact List.mem_cons_self _ _)
          rw [hMm, List.takeWhile_cons, if_neg (by simp [hmn])] at hrun
          exact absurd hrun (by decide)
      · cases hl2 : l2 with
        | nil =>
          rw [hl2] at hrun
          exact absurd hrun (by decide)
        | cons x xs =>
          rw [hl2] at h hrun
          have hx : x ≠ '\n' := hM x (h.subset (List.mem_cons_self x xs))
          rw [List.takeWhile_cons, if_neg (by simp [hx])] at hrun
          exact absurd hrun (by decide)
  · cases a with
    | nil => exact absurd rfl hane
    | cons x a' =>
      by_cases hx : x = '\n'
      · subst hx
        obtain ⟨r, hr⟩ := hH ('\n' :: a') a' ha rfl
        rw [hl, hr, List.cons_append, List.cons_append] at hrun
        rw [List.takeWhile_cons, if_pos (by decide),
          List.takeWhile_cons, if_neg (by decide)] at hrun
        exact absurd hrun (by decide)
      · rw [hl, List.cons_append] at hrun
        rw [List.takeWhile_cons, if_neg (by simp [hx])] at hrun
        exact absurd hrun (by decide)

theorem match_lbracket (xs : List Char) :
    (match ('[' :: xs : List Char) with
      | '[' :: _ => false
      | _ => true) = false := by
  split
  · rfl
  · rename_i hne
    exact absurd rfl (hne xs)

theorem filter_header_lines (ds : List String)
    (h : ∀ L ∈ ds, ∃ r, L.data = '[' :: r) :
    (ds.map String.data).filter (fun line =>
      match trimChars line with
      | '[' :: _ => false
      | _ => true) = [] := by
  induction ds with
  | nil => rfl
  | cons L ls ih =>
    obtain ⟨r, hr⟩ := h L (List.mem_cons_self L ls)
    have hfL : (match trimChars L.data with
        | '[' :: _ => false
        | _ => true) = false := by
      rw [hr, trimChars_head '[' r (by decide)]
      exact match_lbracket ((List.dropWhile Char.isWhitespace r.reverse).reverse)
    simp only [List.map_cons, List.filter_cons, hfL]
    rw [if_neg (by simp)]
    exact ih (fun x hx => h x (List.mem_cons_of_mem L hx))

theorem keep_line_true (l : List Char) (m : Char) (ms : List Char)
    (h : trimChars l = m :: ms) (hm : m ≠ '[') :
    (match trimChars l with
      | '[' :: _ => false
      | _ => true) = true := by
  rw [h]
  split
  · rename_i heq
    injection heq with h1 _
    exact absurd h1 hm
  · rfl

/-- The trailing `*` result token ends the parse with the tree unchanged. -/
theorem parse_star (o : Oracle) (T : MoveTree) (fen cur : String)
    (lb : Option (String × String)) :
    parseSequence o 2 T fen cur ["*"] lb false = (T, []) := by
  simp only [parseSequence]
  rw [if_neg (by decide), if_neg (by decide), if_pos (by decide)]

theorem headerLine_facts (pre mid post : String) (hpre : ∃ r, pre.data = '[' :: r)
    (hpreL : NoLF pre.data) (hmid : NoLF mid.data) (hpost : NoLF post.data) :
    (∃ r, (pre ++ mid ++ post).data = '[' :: r) ∧ NoLF (pre ++ mid ++ post).data := by
  obtain ⟨r, hr⟩ := hpre
  constructor
  · refine ⟨r ++ (mid.data ++ post.data), ?_⟩
    rw [String.data_append, String.data_append, hr]
    simp
  · intro c hc
    rw [String.data_append, String.data_append] at hc
    rcases List.mem_append.mp hc with hc | hc
    · rcases List.mem_append.mp hc with hc | hc
      · exact hpreL c hc
      · exact hmid c hc
    · exact hpost c hc

/-- Parsing a PGN text made of `[`-headed newline-free header lines, one
blank line and the exported movetext replays the exporter's subtree copy on
an empty tree: the parsed tree is exactly the `copySub` replay result. -/
theorem parse_header_movetext (o : Oracle) (t : MoveTree) (hcoh : Coherent o t)
    (side : Side) (root : MoveNode)
    (hroot : NodeMap.find? t.nodes t.rootId = some root)
    (hrfen : boardFen o root.fen = o.startFen)
    (L1 : String) (Ls : List String)
    (hlines : ∀ Lx ∈ L1 :: Ls, (∃ r, Lx.data = '[' :: r) ∧ NoLF Lx.data)
    (pgn : String)
    (hpgn : pgn.data = L1.data ++ Ls.flatMap (fun x => '\n' :: x.data)
        ++ '\n' :: '\n' :: (exportMoveText o t).data) :
    parsePgnToTree o side pgn none
      = (copySub o t (exportFuel t) t.rootId o.startFen
          ⟨createEmptyTree side, (createEmptyTree side).rootId, o.startFen, none⟩).tree := by
  obtain ⟨hMnolf, ⟨m, ms, hMhead, hmw, hmb⟩, ⟨r', hMlast⟩, hMtok⟩ :=
    exportMoveText_facts o t hcoh root hroot hrfen
  obtain ⟨⟨r1, hL1⟩, hL1nolf⟩ := hlines L1 (List.mem_cons_self L1 Ls)
  have hLs : ∀ Lx ∈ Ls, (∃ r, Lx.data = '[' :: r) ∧ NoLF Lx.data :=
    fun Lx hx => hlines Lx (List.mem_cons_of_mem L1 hx)
  have hhead : pgn.data = '[' :: (r1 ++ (Ls.flatMap (fun x => '\n' :: x.data)
      ++ '\n' :: '\n' :: (exportMoveText o t).data)) := by
    rw [hpgn, hL1]
    simp [List.append_assoc]
  have hlast : pgn.data = (L1.data ++ Ls.flatMap (fun x => '\n' :: x.data)
      ++ ('\n' :: '\n' :: r')) ++ ['*'] := by
    rw [hpgn, hMlast]
    simp [List.append_assoc]
  have hnocr : ∀ c ∈ pgn.data, c ≠ '\r' := by
    rw [hpgn]
    intro c hc
    rcases List.mem_append.mp hc with hc | hc
    · rcases List.mem_append.mp hc with hc | hc
      · exact (hL1nolf c hc).2
      · rcases mem_flat_lines hc with h | ⟨L, hLmem, hcL⟩
        · rw [h]
          decide
        · exact ((hLs L hLmem).2 c hcL).2
    · rcases List.mem_cons.mp hc with h | hc
      · rw [h]
        decide
      · rcases List.mem_cons.mp hc with h | hc
        · rw [h]
          decide
        · exact (hMnolf c hc).2
  have hnorm : normalizeNewlines pgn.data = pgn.data := normalizeNewlines_id _ hnocr
  have htrim : trimChars pgn.data = pgn.data :=
    trimChars_id pgn.data '[' _ '*' _ hhead (by decide) hlast (by decide)
  have hpne : pgn.data ≠ [] := by
    rw [hhead]
    simp
  have hlinesOKH : LinesOK (L1.data ++ Ls.flatMap (fun x => '\n' :: x.data)) := by
    refine linesOK_append (fun c hc => (hL1nolf c hc).1) ?_
    exact linesOK_flat Ls (fun L hL => ⟨(hLs L hL).1, fun c hc => ((hLs L hL).2 c hc).1⟩)
  have hnosplit : NoGameSplit pgn.data := by
    rw [hpgn]
    exact noGameSplit_of _ _ hlinesOKH (fun c hc => (hMnolf c hc).1)
      (Or.inr ⟨m, ms, hMhead, hmb⟩)
  have hsplitG : splitPgnGames pgn = [String.mk pgn.data] := by
    unfold splitPgnGames
    simp only [hnorm, htrim]
    rw [if_neg hpne]
    have h2 : splitGamesAux true [] pgn.data = [pgn.data] := by
      unfold splitGamesAux
      rw [splitGames_nosplit pgn.data.length [] pgn.data (Nat.le_refl _) hnosplit]
      rfl
    rw [h2]
    simp [htrim, hpne]
  have hsp : List.splitOnP (fun c => c == '\n') pgn.data
      = (L1.data :: Ls.map String.data) ++ [[], (exportMoveText o t).data] := by
    rw [show pgn.data = L1.data ++ (Ls.flatMap (fun x => '\n' :: x.data)
        ++ '\n' :: '\n' :: (exportMoveText o t).data) from by
      rw [hpgn]; simp [List.append_assoc]]
    exact splitOn_header Ls L1.data (exportMoveText o t).data
      (fun c hc => beq_eq_false_iff_ne.mpr (hL1nolf c hc).1)
      (fun L hL c hc => beq_eq_false_iff_ne.mpr ((hLs L hL).2 c hc).1)
      (fun c hc => beq_eq_false_iff_ne.mpr (hMnolf c hc).1)
  have htrimM : trimChars (exportMoveText o t).data = (exportMoveText o t).data :=
    trimChars_id _ m ms '*' r' hMhead hmw hMlast (by decide)
  have hmovetext : chunkMovetext (String.mk pgn.data) = (exportMoveText o t).data := by
    unfold chunkMovetext
    rw [show (String.mk pgn.data).data.splitOn '\n'
        = List.splitOnP (fun c => c == '\n') pgn.data from rfl]
    rw [hsp]
    have hfilter : ((L1.data :: Ls.map String.data)
          ++ [[], (exportMoveText o t).data]).filter
        (fun line => match trimChars line with
          | '[' :: _ => false
          | _ => true) = [[], (exportMoveText o t).data] := by
      rw [List.filter_append]
      have h1 : (L1.data :: Ls.map String.data).filter
          (fun line => match trimChars line with
            | '[' :: _ => false
            | _ => true) = [] := by
        have hall := filter_header_lines (L1 :: Ls) (fun L hL => (hlines L hL).1)
        rw [List.map_cons] at hall
        exact hall
      rw [h1, List.nil_append]
      have hk0 : (match trimChars ([] : List Char) with
          | '[' :: _ => false
          | _ => true) = true := rfl
      have hkM : (match trimChars (exportMoveText o t).data with
          | '[' :: _ => false
          | _ => true) = true :=
        keep_line_true _ m ms (by rw [htrimM, hMhead]) hmb
      simp only [List.filter_cons, List.filter_nil, hk0, hkM, if_true]
    rw [hfilter]
    rw [show List.intercalate [' '] [[], (exportMoveText o t).data]
        = ' ' :: (exportMoveText o t).data from by
      simp [List.intercalate]]
    rw [trimChars_cons_space, htrimM]
  show parsePgnToTree o side pgn none = _
  unfold parsePgnToTree
  rw [hsplitG]
  rw [if_neg (by simp)]
  simp only [Option.getD_none, List.foldl_cons, List.foldl_nil]
  unfold parsePgnChunkIntoTree
  simp only [hmovetext]
  have hMne : (exportMoveText o t).data ≠ [] := by
    rw [hMhead]
    simp
  rw [if_neg hMne]
  rw [hMtok]
  rw [if_neg (by simp)]
  have hsim := copySub_sim o t hcoh (exportFuel t)
  have happ := hsim t.rootId root o.startFen
    ⟨createEmptyTree side, (createEmptyTree side).rootId, o.startFen, none⟩
    ["*"] false
    ((flatTokens o t (exportFuel t) t.rootId o.startFen ++ ["*"]).length + 1) 2
    hroot hrfen.symm rfl
    (by simp only [List.length_append, List.length_cons, List.length_nil]; omega)
    (by decide)
  rw [show parseSequence o
      ((flatTokens o t (exportFuel t) t.rootId o.startFen ++ ["*"]).length + 1)
      (createEmptyTree side) o.startFen (createEmptyTree side).rootId
      (flatTokens o t (exportFuel t) t.rootId o.startFen ++ ["*"]) none false
      = parseSequence o 2
        (copySub o t (exportFuel t) t.rootId o.startFen
          ⟨createEmptyTree side, (createEmptyTree side).rootId, o.startFen, none⟩).tree
        (copySub o t (exportFuel t) t.rootId o.startFen
          ⟨createEmptyTree side, (createEmptyTree side).rootId, o.startFen, none⟩).fen
        (copySub o t (exportFuel t) t.rootId o.startFen
          ⟨createEmptyTree side, (createEmptyTree side).rootId, o.startFen, none⟩).cur
        ["*"]
        (copySub o t (exportFuel t) t.rootId o.startFen
          ⟨createEmptyTree side, (createEmptyTree side).rootId, o.startFen, none⟩).lb
        false from happ]
  rw [parse_star]

/-! ### Trees built from line insertions and the oracle laws -/

theorem NodeMap.set_length_new (k : String) (v : MoveNode) :
    ∀ m : NodeMap, m.find? k = none → (m.set k v).length = m.length + 1 := by
  intro m
  induction m with
  | nil => intro _; rfl
  | cons e rest ih =>
    intro h
    obtain ⟨ek, ev⟩ := e
    by_cases he : ek = k
    · rw [show NodeMap.find? ((ek, ev) :: rest) k = some ev from by
        simp [NodeMap.find?, he]] at h
      exact Option.noConfusion h
    · simp only [NodeMap.find?, if_neg he] at h
      simp only [NodeMap.set, if_neg he, List.length_cons, ih h]

theorem NodeMap.set_length_mem (k : String) (v w : MoveNode) :
    ∀ m : NodeMap, m.find? k = some w → (m.set k v).length = m.length := by
  intro m
  induction m with
  | nil => intro h; exact Option.noConfusion h
  | cons e rest ih =>
    intro h
    obtain ⟨ek, ev⟩ := e
    by_cases he : ek = k
    · simp [NodeMap.set, he]
    · simp only [NodeMap.find?, if_neg he] at h
      simp only [NodeMap.set, if_neg he, List.length_cons, ih h]

/-- Laws of the chess.js rules oracle used by the round trip: a legal move's
result replays identically from its UCI (which round-trips through
`uciToMoveInput`) and from its SAN, the SAN is tokenizer-clean, and the
resulting position is never the `start` sentinel. -/
structure OracleLaws (o : Oracle) : Prop where
  replay_uci : ∀ fen input res, o.moveInput fen input = some res →
    ∃ input', uciToMoveInput res.uci = some input' ∧ o.moveInput fen input' = some res
  replay_san : ∀ fen input res, o.moveInput fen input = some res →
    o.moveSan fen res.san = some res
  clean_san : ∀ fen input res, o.moveInput fen input = some res → CleanSan res.san
  fen_new : ∀ fen input res, o.moveInput fen input = some res → res.fen ≠ START_FEN

/-- Trees built purely from line insertions: an empty tree extended by any
sequence of `makeMove` edits. -/
inductive InsertionBuilt (o : Oracle) : MoveTree → Prop
  | empty (side : Side) : InsertionBuilt o (createEmptyTree side)
  | insert (t : MoveTree) (sel : String) (input : MoveInput) (t' : MoveTree)
      (nid : String) : InsertionBuilt o t →
      makeMoveEdit o t sel input = some (t', nid) → InsertionBuilt o t'

/-- The invariant bundle carried by insertion-built trees. -/
structure BuiltFacts (o : Oracle) (t : MoveTree) : Prop where
  inv : TreeInv t
  coh : Coherent o t
  sib : SibUciDistinct t
  root_start : ∃ rn, NodeMap.find? t.nodes t.rootId = some rn ∧ rn.fen = START_FEN
  depth_bound : ∃ dep : String → Nat,
    (∀ k n c, NodeMap.find? t.nodes k = some n → c ∈ n.children →
      dep c = dep k + 1) ∧
    (∀ k n, NodeMap.find? t.nodes k = some n → dep k < t.nodes.length)

theorem builtFacts_empty (o : Oracle) (side : Side) :
    BuiltFacts o (createEmptyTree side) := by
  have hfind : ∀ k n, NodeMap.find? (createEmptyTree side).nodes k = some n →
      k = side.str ++ "-0" ∧ n = { id := side.str ++ "-0", parentId := none, fen := "start", moveSan := none, moveUci := none, children := [] } := by
    intro k n hk
    simp only [createEmptyTree, NodeMap.find?] at hk
    split at hk
    · rename_i he
      injection hk with hk
      exact ⟨he.symm, hk.symm⟩
    · exact Option.noConfusion hk
  refine ⟨createEmptyTree_inv side, ?_, ?_, ?_, fun _ => 0, ?_, ?_⟩
  · intro k n c hk hc
    obtain ⟨_, hn⟩ := hfind k n hk
    rw [hn] at hc
    exact absurd hc (List.not_mem_nil c)
  · intro k n hk
    obtain ⟨_, hn⟩ := hfind k n hk
    rw [hn]
    exact List.Pairwise.nil
  · refine ⟨{ id := side.str ++ "-0", parentId := none, fen := "start", moveSan := none, moveUci := none, children := [] }, ?_, rfl⟩
    show NodeMap.find? (createEmptyTree side).nodes (createEmptyTree side).rootId = _
    simp [createEmptyTree, NodeMap.find?]
  · intro k n c hk hc
    obtain ⟨_, hn⟩ := hfind k n hk
    rw [hn] at hc
    exact absurd hc (List.not_mem_nil c)
  · intro k n hk
    show 0 < (createEmptyTree side).nodes.length
    simp [createEmptyTree]

theorem builtFacts_insertChild (o : Oracle) (hlaws : OracleLaws o) (t : MoveTree)
    (bf : BuiltFacts o t) (pk : String) (parent : MoveNode) (res : MoveRes)
    (input : MoveInput)
    (hp : NodeMap.find? t.nodes pk = some parent)
    (hres : o.moveInput (boardFen o parent.fen) input = some res)
    (hnone : parent.children.find? (fun id =>
      ((NodeMap.find? t.nodes id).bind MoveNode.moveUci) == some res.uci) = none) :
    BuiltFacts o (insertChild t pk parent res) := by
  obtain ⟨inv, hcoh, hsib, ⟨rn, hrn, hrfen⟩, dep, hdep, hbound⟩ := bf
  have hfresh : NodeMap.find? t.nodes (createNodeId t) = none :=
    inv.fresh t.nextId (Nat.le_refl _)
  have hpkne : pk ≠ createNodeId t := fun h => by
    rw [h, hfresh] at hp
    exact Option.noConfusion hp
  have hTpk : NodeMap.find? (insertChild t pk parent res).nodes pk
      = some { parent with children := parent.children ++ [createNodeId t] } := by
    show NodeMap.find? (NodeMap.set (NodeMap.set t.nodes (createNodeId t) _) pk _) pk = _
    rw [NodeMap.find?_set_self]
  have hTnid : NodeMap.find? (insertChild t pk parent res).nodes (createNodeId t)
      = some { id := createNodeId t, parentId := some pk, fen := res.fen, moveSan := some res.san, moveUci := some res.uci, children := [] } := by
    show NodeMap.find? (NodeMap.set (NodeMap.set t.nodes (createNodeId t) _) pk _) _ = _
    rw [NodeMap.find?_set_ne _ _ _ _ (Ne.symm hpkne), NodeMap.find?_set_self]
  have hTother : ∀ k, k ≠ pk → k ≠ createNodeId t →
      NodeMap.find? (insertChild t pk parent res).nodes k = NodeMap.find? t.nodes k := by
    intro k h1 h2
    show NodeMap.find? (NodeMap.set (NodeMap.set t.nodes (createNodeId t) _) pk _) k = _
    rw [NodeMap.find?_set_ne _ _ _ _ h1, NodeMap.find?_set_ne _ _ _ _ h2]
  have hvals : ∀ c cn, NodeMap.find? t.nodes c = some cn →
      ∃ cn', NodeMap.find? (insertChild t pk parent res).nodes c = some cn' ∧
        cn'.moveUci = cn.moveUci ∧ cn'.fen = cn.fen ∧ cn'.moveSan = cn.moveSan := by
    intro c cn hc
    have hcne : c ≠ createNodeId t := fun h => by
      rw [h, hfresh] at hc
      exact Option.noConfusion hc
    by_cases hcp : c = pk
    · subst hcp
      rw [hp] at hc
      injection hc with hc
      subst hc
      exact ⟨_, hTpk, rfl, rfl, rfl⟩
    · refine ⟨cn, ?_, rfl, rfl, rfl⟩
      rw [hTother c hcp hcne]
      exact hc
  have huci : ∀ c cn, NodeMap.find? t.nodes c = some cn →
      ((NodeMap.find? (insertChild t pk parent res).nodes c).bind MoveNode.moveUci)
        = ((NodeMap.find? t.nodes c).bind MoveNode.moveUci) := by
    intro c cn hc
    obtain ⟨cn', hcn', he1, _, _⟩ := hvals c cn hc
    rw [hcn', hc, Option.some_bind, Option.some_bind, he1]
  refine ⟨insertChild_inv t inv pk parent res hp, ?_, ?_, ?_, ?_⟩
  · -- coherence
    intro k n c hk hc
    by_cases hknid : k = createNodeId t
    · subst hknid
      rw [hTnid] at hk
      injection hk with hk
      subst hk
      exact absurd hc (List.not_mem_nil c)
    · by_cases hkp : k = pk
      · rw [hkp] at hk
        rw [hTpk] at hk
        injection hk with hk
        subst hk
        rcases List.mem_append.mp hc with hc | hc
        · obtain ⟨cn, uci, inp0, res0, hcn, h2, h3, h4, h5, h6, h7, h8, h9⟩ :=
            hcoh pk parent c hp hc
          obtain ⟨cn', hcn', he1, he2, he3⟩ := hvals c cn hcn
          exact ⟨cn', uci, inp0, res0, hcn', by rw [he1]; exact h2, h3, h4, h5,
            by rw [he2]; exact h6, by rw [he3]; exact h7, h8, h9⟩
        · rw [List.mem_singleton.mp hc]
          obtain ⟨input', hinp', hres'⟩ := hlaws.replay_uci _ _ _ hres
          refine ⟨_, res.uci, input', res, hTnid, rfl, hinp', hres', rfl, ?_, rfl,
            hlaws.replay_san _ _ _ hres, hlaws.clean_san _ _ _ hres⟩
          show boardFen o res.fen = res.fen
          unfold boardFen
          rw [if_neg (hlaws.fen_new _ _ _ hres)]
      · rw [hTother k hkp hknid] at hk
        obtain ⟨cn, uci, inp0, res0, hcn, h2, h3, h4, h5, h6, h7, h8, h9⟩ :=
          hcoh k n c hk hc
        obtain ⟨cn', hcn', he1, he2, he3⟩ := hvals c cn hcn
        exact ⟨cn', uci, inp0, res0, hcn', by rw [he1]; exact h2, h3, h4, h5,
          by rw [he2]; exact h6, by rw [he3]; exact h7, h8, h9⟩
  · -- sibling uci distinctness
    intro k n hk
    by_cases hknid : k = createNodeId t
    · subst hknid
      rw [hTnid] at hk
      injection hk with hk
      subst hk
      exact List.Pairwise.nil
    · by_cases hkp : k = pk
      · rw [hkp] at hk
        rw [hTpk] at hk
        injection hk with hk
        subst hk
        show List.Pairwise _ (parent.children ++ [createNodeId t])
        rw [List.pairwise_append]
        refine ⟨?_, List.pairwise_singleton _ _, ?_⟩
        · refine List.Pairwise.imp_of_mem ?_ (hsib pk parent hp)
          intro a b ha hb hab
          obtain ⟨an, hanf, _⟩ := inv.child_ok pk parent a hp ha
          obtain ⟨bn, hbnf, _⟩ := inv.child_ok pk parent b hp hb
          rw [huci a an hanf, huci b bn hbnf]
          exact hab
        · intro a ha b hb
          rw [List.mem_singleton.mp hb]
          obtain ⟨an, hanf, _⟩ := inv.child_ok pk parent a hp ha
          rw [huci a an hanf, hTnid, Option.some_bind]
          intro heq
          exact List.find?_eq_none.mp hnone a ha
            (by rw [heq]; exact beq_self_eq_true _)
      · rw [hTother k hkp hknid] at hk
        refine List.Pairwise.imp_of_mem ?_ (hsib k n hk)
        intro a b ha hb hab
        obtain ⟨an, hanf, _⟩ := inv.child_ok k n a hk ha
        obtain ⟨bn, hbnf, _⟩ := inv.child_ok k n b hk hb
        rw [huci a an hanf, huci b bn hbnf]
        exact hab
  · -- the root keeps the sentinel position
    have hrne : t.rootId ≠ createNodeId t := fun h => by
      rw [h, hfresh] at hrn
      exact Option.noConfusion hrn
    by_cases hrp : t.rootId = pk
    · refine ⟨{ parent with children := parent.children ++ [createNodeId t] }, ?_, ?_⟩
      · rw [show (insertChild t pk parent res).rootId = t.rootId from rfl, hrp]
        exact hTpk
      · show parent.fen = START_FEN
        rw [hrp, hp] at hrn
        injection hrn with hrn
        rw [hrn]
        exact hrfen
    · refine ⟨rn, ?_, hrfen⟩
      rw [show (insertChild t pk parent res).rootId = t.rootId from rfl,
        hTother _ hrp hrne]
      exact hrn
  · -- bounded depth certificate
    refine ⟨fun x => if x = createNodeId t then dep pk + 1 else dep x, ?_, ?_⟩
    · intro k n c hk hc
      by_cases hknid : k = createNodeId t
      · subst hknid
        rw [hTnid] at hk
        injection hk with hk
        subst hk
        exact absurd hc (List.not_mem_nil c)
      · simp only [if_neg hknid]
        by_cases hkp : k = pk
        · rw [hkp] at hk ⊢
          rw [hTpk] at hk
          injection hk with hk
          subst hk
          rcases List.mem_append.mp hc with hc | hc
          · have hcnid : c ≠ createNodeId t := by
              obtain ⟨cn0, hcn0, _⟩ := inv.child_ok pk parent c hp hc
              exact fun h => by
                rw [h, hfresh] at hcn0
                exact Option.noConfusion hcn0
            simp only [if_neg hcnid]
            exact hdep pk parent c hp hc
          · rw [List.mem_singleton.mp hc]
            simp
        · rw [hTother k hkp hknid] at hk
          have hcnid : c ≠ createNodeId t := by
            obtain ⟨cn0, hcn0, _⟩ := inv.child_ok k n c hk hc
            exact fun h => by
              rw [h, hfresh] at hcn0
              exact Option.noConfusion hcn0
          simp only [if_neg hcnid]
          exact hdep k n c hk hc
    · have hlen : (insertChild t pk parent res).nodes.length = t.nodes.length + 1 := by
        show (NodeMap.set (NodeMap.set t.nodes (createNodeId t) _) pk _).length = _
        rw [NodeMap.set_length_mem pk _ parent _
          (by rw [NodeMap.find?_set_ne _ _ _ _ hpkne]; exact hp)]
        rw [NodeMap.set_length_new (createNodeId t) _ t.nodes hfresh]
      intro k n hk
      rw [hlen]
      by_cases hknid : k = createNodeId t
      · simp only [if_pos hknid]
        have := hbound pk parent hp
        omega
      · simp only [if_neg hknid]
        by_cases hkp : k = pk
        · rw [hkp]
          have := hbound pk parent hp
          omega
        · rw [hTother k hkp hknid] at hk
          have := hbound k n hk
          omega

theorem insertionBuilt_facts (o : Oracle) (hlaws : OracleLaws o) :
    ∀ t : MoveTree, InsertionBuilt o t → BuiltFacts o t := by
  intro t h
  induction h with
  | empty side => exact builtFacts_empty o side
  | insert t0 sel input t' nid hb heq ih =>
    unfold makeMoveEdit at heq
    dsimp only at heq
    split at heq
    · exact Option.noConfusion heq
    · rename_i cn hcn
      have hid : NodeMap.find? t0.nodes cn.id = some cn := by
        split at hcn
        · rename_i n hn
          injection hcn with hcn
          subst hcn
          rw [ih.inv.ids _ _ hn]
          exact hn
        · rw [ih.inv.ids _ _ hcn]
          exact hcn
      split at heq
      · exact Option.noConfusion heq
      · rename_i res hres
        split at heq
        · rename_i cid hfound
          split at heq
          · exact Option.noConfusion heq
          · injection heq with heq
            injection heq with heq1 _
            rw [← heq1]
            exact ih
        · rename_i hnone
          split at heq
          · exact Option.noConfusion heq
          · injection heq with heq
            injection heq with heq1 _
            rw [← heq1]
            exact builtFacts_insertChild o hlaws t0 ih cn.id cn res input hid hres hnone

theorem intercalate_lf_data (a : String) (l : List String) :
    (String.intercalate "\n" (a :: l)).data
      = a.data ++ l.flatMap (fun x => '\n' :: x.data) := by
  show (String.intercalate.go a "\n" l).data = _
  exact intercalate_go_data "\n" l a

theorem exportHeader_shape (side : Side) (safeName exportDate : String) :
    exportHeaderBlock side safeName exportDate = String.intercalate "\n"
      [ "[Event \x22" ++ (if safeName = "" then "Opening Prep Trainer"
          else "Opening Prep Trainer - " ++ safeName) ++ "\x22]"
      , "[Site \x22Local\x22]"
      , "[Date \x22" ++ exportDate ++ "\x22]"
      , "[Round \x22-\x22]"
      , "[White \x22" ++ (if side = Side.white then "Repertoire" else "Opponent") ++ "\x22]"
      , "[Black \x22" ++ (if side = Side.black then "Repertoire" else "Opponent") ++ "\x22]"
      , "[Result \x22*\x22]" ] := rfl

theorem noLF_append {a b : List Char} (ha : NoLF a) (hb : NoLF b) : NoLF (a ++ b) := by
  intro c hc
  rcases List.mem_append.mp hc with h | h
  · exact ha c h
  · exact hb c h

theorem noLF_str_append (a b : String) (ha : NoLF a.data) (hb : NoLF b.data) :
    NoLF (a ++ b).data := by
  rw [String.data_append]
  exact noLF_append ha hb

/-- **C4.**  Round trip: for every tree built purely from line insertions
(under the stated replay laws of the rules oracle, and newline-free name and
date stamps), parsing the exported PGN text of that tree yields a tree whose
root-to-leaf move-notation sequences are exactly those of the original
tree. -/
theorem C4_round_trip (o : Oracle) (t : MoveTree) (side : Side)
    (safeName exportDate : String) (hlaws : OracleLaws o)
    (hbuilt : InsertionBuilt o t) (hname : NoLF safeName.data)
    (hdate : NoLF exportDate.data) (l : List String) :
    (LeafSeqFrom (parsePgnToTree o side (exportTreeToPgn o t side safeName exportDate) none)
        (parsePgnToTree o side (exportTreeToPgn o t side safeName exportDate) none).rootId l
      ↔ LeafSeqFrom t t.rootId l) := by
  obtain ⟨inv, hcoh, hsib, ⟨rn, hrn, hrfen⟩, dep, hdep, hbound⟩ :=
    insertionBuilt_facts o hlaws t hbuilt
  have hrb : boardFen o rn.fen = o.startFen := by
    rw [hrfen]
    unfold boardFen
    rw [if_pos rfl]
  have hENnolf : NoLF ((if safeName = "" then "Opening Prep Trainer"
      else "Opening Prep Trainer - " ++ safeName) : String).data := by
    by_cases h : safeName = ""
    · rw [if_pos h]
      unfold NoLF
      decide
    · rw [if_neg h]
      refine noLF_str_append _ _ ?_ hname
      unfold NoLF
      decide
  have hWnolf : NoLF ((if side = Side.white then "Repertoire" else "Opponent") :
      String).data := by
    by_cases h : side = Side.white
    · rw [if_pos h]
      unfold NoLF
      decide
    · rw [if_neg h]
      unfold NoLF
      decide
  have hBnolf : NoLF ((if side = Side.black then "Repertoire" else "Opponent") :
      String).data := by
    by_cases h : side = Side.black
    · rw [if_pos h]
      unfold NoLF
      decide
    · rw [if_neg h]
      unfold NoLF
      decide
  have hlines : ∀ Lx ∈ ([ "[Event \x22" ++ (if safeName = "" then "Opening Prep Trainer"
          else "Opening Prep Trainer - " ++ safeName) ++ "\x22]"
      , "[Site \x22Local\x22]"
      , "[Date \x22" ++ exportDate ++ "\x22]"
      , "[Round \x22-\x22]"
      , "[White \x22" ++ (if side = Side.white then "Repertoire" else "Opponent") ++ "\x22]"
      , "[Black \x22" ++ (if side = Side.black then "Repertoire" else "Opponent") ++ "\x22]"
      , "[Result \x22*\x22]" ] : List String),
      (∃ r, Lx.data = '[' :: r) ∧ NoLF Lx.data := by
    intro Lx hLx
    simp only [List.mem_cons, List.not_mem_nil, or_false] at hLx
    rcases hLx with h | h | h | h | h | h | h <;> subst h
    · exact headerLine_facts "[Event \x22" _ "\x22]" ⟨_, rfl⟩
        (by unfold NoLF; decide) hENnolf (by unfold NoLF; decide)
    · exact ⟨⟨_, rfl⟩, by unfold NoLF; decide⟩
    · exact headerLine_facts "[Date \x22" exportDate "\x22]" ⟨_, rfl⟩
        (by unfold NoLF; decide) hdate (by unfold NoLF; decide)
    · exact ⟨⟨_, rfl⟩, by unfold NoLF; decide⟩
    · exact headerLine_facts "[White \x22" _ "\x22]" ⟨_, rfl⟩
        (by unfold NoLF; decide) hWnolf (by unfold NoLF; decide)
    · exact headerLine_facts "[Black \x22" _ "\x22]" ⟨_, rfl⟩
        (by unfold NoLF; decide) hBnolf (by unfold NoLF; decide)
    · exact ⟨⟨_, rfl⟩, by unfold NoLF; decide⟩
  have hpgn : (exportTreeToPgn o t side safeName exportDate).data
      = ("[Event \x22" ++ (if safeName = "" then "Opening Prep Trainer"
          else "Opening Prep Trainer - " ++ safeName) ++ "\x22]" : String).data
        ++ ([ ("[Site \x22Local\x22]" : String)
            , "[Date \x22" ++ exportDate ++ "\x22]"
            , "[Round \x22-\x22]"
            , "[White \x22" ++ (if side = Side.white then "Repertoire" else "Opponent") ++ "\x22]"
            , "[Black \x22" ++ (if side = Side.black then "Repertoire" else "Opponent") ++ "\x22]"
            , "[Result \x22*\x22]" ]).flatMap (fun x => '\n' :: x.data)
        ++ '\n' :: '\n' :: (exportMoveText o t).data := by
    show (exportHeaderBlock side safeName exportDate ++ "\n\n" ++ exportMoveText o t).data = _
    rw [String.data_append, String.data_append, exportHeader_shape, intercalate_lf_data]
    rw [show ("\n\n" : String).data = ['\n', '\n'] from rfl]
    simp [List.append_assoc]
  have hparsed := parse_header_movetext o t hcoh side rn hrn hrb
    ("[Event \x22" ++ (if safeName = "" then "Opening Prep Trainer"
        else "Opening Prep Trainer - " ++ safeName) ++ "\x22]")
    [ ("[Site \x22Local\x22]" : String)
    , "[Date \x22" ++ exportDate ++ "\x22]"
    , "[Round \x22-\x22]"
    , "[White \x22" ++ (if side = Side.white then "Repertoire" else "Opponent") ++ "\x22]"
    , "[Black \x22" ++ (if side = Side.black then "Repertoire" else "Opponent") ++ "\x22]"
    , "[Result \x22*\x22]" ]
    hlines (exportTreeToPgn o t side safeName exportDate) hpgn
  have hbase_root : NodeMap.find? (createEmptyTree side).nodes
      (createEmptyTree side).rootId
      = some { id := side.str ++ "-0", parentId := none, fen := "start", moveSan := none, moveUci := none, children := [] } := by
    simp [createEmptyTree, NodeMap.find?]
  have hcc := copySub_correct o t hcoh hsib dep t.nodes.length hdep hbound
    (exportFuel t) t.rootId rn o.startFen
    ⟨createEmptyTree side, (createEmptyTree side).rootId, o.startFen, none⟩
    { id := side.str ++ "-0", parentId := none, fen := "start", moveSan := none, moveUci := none, children := [] }
    hrn hrb.symm (by unfold exportFuel; omega) (createEmptyTree_inv side)
    hbase_root rfl
  obtain ⟨_, _, _, hiff⟩ := hcc
  have hrootid : (parsePgnToTree o side
      (exportTreeToPgn o t side safeName exportDate) none).rootId
      = (createEmptyTree side).rootId :=
    (parsePgnToTree_preserves o side (exportTreeToPgn o t side safeName exportDate)
      (createEmptyTree side) (createEmptyTree_fresh side)).1.1
  rw [hrootid, hparsed]
  exact hiff l

/-- The demo oracle satisfies the replay laws (finite case analysis over its
move table). -/
theorem demoOracleLaws : OracleLaws demoOracle := by
  constructor
  · intro fen input res h
    have h' : demoMoveInput fen input = some res := h
    unfold demoMoveInput at h'
    split at h' <;>
      first
        | exact Option.noConfusion h'
        | (injection h' with h'
           subst h'
           exact ⟨_, rfl, by decide⟩)
  · intro fen input res h
    have h' : demoMoveInput fen input = some res := h
    unfold demoMoveInput at h'
    split at h' <;>
      first
        | exact Option.noConfusion h'
        | (injection h' with h'
           subst h'
           decide)
  · intro fen input res h
    have h' : demoMoveInput fen input = some res := h
    unfold demoMoveInput at h'
    split at h' <;>
      first
        | exact Option.noConfusion h'
        | (injection h' with h'
           subst h'
           unfold CleanSan
           decide)
  · intro fen input res h
    have h' : demoMoveInput fen input = some res := h
    unfold demoMoveInput at h'
    split at h' <;>
      first
        | exact Option.noConfusion h'
        | (injection h' with h'
           subst h'
           decide)

/-- The tree after inserting 1.e4 into the fresh white tree. -/
def demoRT1 : MoveTree × String :=
  (makeMoveEdit demoOracle (createEmptyTree Side.white) "white-0"
    ⟨"e2", "e4", none⟩).getD (createEmptyTree Side.white, "")

/-- The tree after further inserting 1...e5. -/
def demoRT2 : MoveTree × String :=
  (makeMoveEdit demoOracle demoRT1.1 demoRT1.2 ⟨"e7", "e5", none⟩).getD (demoRT1.1, "")

theorem demoRT2_built : InsertionBuilt demoOracle demoRT2.1 :=
  InsertionBuilt.insert demoRT1.1 demoRT1.2 ⟨"e7", "e5", none⟩ demoRT2.1 demoRT2.2
    (InsertionBuilt.insert (createEmptyTree Side.white) "white-0" ⟨"e2", "e4", none⟩
      demoRT1.1 demoRT1.2 (InsertionBuilt.empty Side.white) (by decide))
    (by decide)

/-- **C4 — witness.**  The 1.e4 e5 repertoire built by two `makeMove`
insertions round-trips through export and re-import at the leaf sequence
`e4 e5`. -/
theorem C4_round_trip_witness :
    (LeafSeqFrom (parsePgnToTree demoOracle Side.white
          (exportTreeToPgn demoOracle demoRT2.1 Side.white "" "2024.01.01") none)
        (parsePgnToTree demoOracle Side.white
          (exportTreeToPgn demoOracle demoRT2.1 Side.white "" "2024.01.01") none).rootId
        ["e4", "e5"]
      ↔ LeafSeqFrom demoRT2.1 demoRT2.1.rootId ["e4", "e5"]) :=
  C4_round_trip demoOracle demoRT2.1 Side.white "" "2024.01.01" demoOracleLaws
    demoRT2_built (by unfold NoLF; decide) (by unfold NoLF; decide) ["e4", "e5"]
set_option maxHeartbeats 3200000 in
/-- **C6 — counterexample.**  The claim says the advance algorithm never
leaves the cursor at a node where it is not the trainee's side to move
unless that node has no children.  When the 256-iteration bound is
exhausted it does: on a 258-node chain of opponent-to-move positions the
loop stops after 256 descents at node `256`, which still has a child and is
still not the trainee's turn. -/
theorem C6_counterexample :
    advanceTrainingPosition blackOracle deepChainTree .white (fun _ => 0) (cid 0) (cid 0)
        = some (cid 256) ∧
    (NodeMap.find? deepChainTree.nodes (cid 256)).map MoveNode.children = some [cid 257] ∧
    toTurnColor blackOracle "f" ≠ Side.white := by
  refine ⟨by decide, by decide, by decide⟩

end ChessOpenings
